import Mathlib

/-!
Verification of the planner repository (`src/planner`): a shallow embedding of
the context-aware planning algorithm (`plan/algorithm.py`), the fitness scorer
(`plan/fitness_check.py`), the plan wrapper (`plan/plan.py`), the executor
(`plan/execution.py`) and the registry (`plan/planner.py`), together with
theorems settling the specification claims.

Modelling conventions:
* Python floats are modelled as exact rationals (`ℚ`); the float parameter
  `length_weight` (always `1.0` in this repository) is modelled as a natural
  number exponent, matching `x ** max(1.0, float(length_weight))` for the
  integral weights the code uses.
* Python `set`/`dict` iteration is modelled by `List`s in insertion order,
  which is Python's deterministic iteration order for `dict` and the order
  relevant to the algorithm's tie-breaking.
* `GraphNode` identity is reference based in the source
  (`@dataclass(frozen=True, eq=False)`); it is modelled by a unique numeric
  `nodeId` drawn from a counter.
* The unbounded `while` loops of the source are modelled with explicit fuel;
  a run that returns a result is one that terminated.
-/

/-! ### Contracts and recipes (`plan/common.py`, `recipe.py`) -/

/-- An asset type is identified nominally; we model the identifier as `ℕ`. -/
abbrev AssetId := ℕ

/-- Contract `(AssetType, Key)` from `plan/common.py`: `type Contract = tuple[type[T], str | None]`. -/
abbrev Contract := AssetId × Option String

/-- A context path: an ordered tuple of contracts (`tuple[Contract, ...]`). -/
abbrev CtxPath := List Contract

/-- A set of context paths (`set[tuple[Contract, ...]]`), modelled as a list. -/
abbrev CtxSet := List CtxPath

/-- Recipes are identified nominally (Python recipe classes). -/
abbrev RecipeId := ℕ

/-- Dependency from `plan/common.py`: `(fieldName, Contract)`. -/
structure Dependency where
  name : String
  contract : Contract
deriving DecidableEq, Repr

/-- The statically declared data of a recipe class: `_makes` and the list
produced by `_parse_dependencies` (ordered injected fields). -/
structure RecipeDecl where
  makes : AssetId
  deps : List Dependency
deriving DecidableEq, Repr

/-! ### Fitness scorer (`plan/fitness_check.py`) -/

/-- Structurally recursive core of the forward scan; the first argument is
the fuel `seq.length - j`, which tracks the strictly increasing index `j`. -/
def fwdScanF {α : Type} [DecidableEq α] (seq : List α) : ℕ → List α → ℕ → Option ℕ
  | _, [], j => some j
  | 0, _ :: _, _ => none
  | f + 1, c :: cs, j =>
    if h : j < seq.length then
      if seq.get ⟨j, h⟩ = c then fwdScanF seq f cs (j + 1) else fwdScanF seq f (c :: cs) (j + 1)
    else none

/-- Forward scan of `best_subsequence_window`: starting at index `j` of `seq`,
consume the remaining context `ctxRem` in order; returns the Python variable
`j` after the scan completed the context (so the window end is `j - 1`), or
`none` when the context cannot be completed (`ci < m` at exhaustion). -/
def fwdScan {α : Type} [DecidableEq α] (seq : List α) (ctxRem : List α) (j : ℕ) : Option ℕ :=
  fwdScanF seq (seq.length - j) ctxRem j

/-- The scan succeeds immediately on an exhausted context. -/
theorem fwdScan_nil_eq {α : Type} [DecidableEq α] (seq : List α) (j : ℕ) :
    fwdScan seq [] j = some j := by
  unfold fwdScan
  cases seq.length - j <;> rfl

/-- Backward tightening of `best_subsequence_window`: from index `k` downwards
(but not below `iLow`), consume the reversed context `ctxRev`; returns the
window start, or `none` when the scan runs out (Python's `start is None`
safety path). `fuel` is `k + 1` at the top call, enough for the descent. -/
def bwdScan {α : Type} [DecidableEq α] (seq : List α) (iLow : ℕ) : List α → ℕ → ℕ → Option ℕ
  | _, _, 0 => none
  | ctxRev, k, f + 1 =>
    if k < iLow then none
    else
      match ctxRev with
      | [] => none
      | c :: cs =>
        if seq.get? k = some c then
          match cs with
          | [] => some k
          | _ :: _ => if k = 0 then none else bwdScan seq iLow cs (k - 1) f
        else
          if k = 0 then none else bwdScan seq iLow (c :: cs) (k - 1) f

/-- The `while True` loop of `best_subsequence_window`: repeatedly find the
next window starting from `i`, keep the strictly shortest one, and restart at
`start + 1`. `fuel` bounds the number of iterations (the start index strictly
increases, so `seq.length + 1` suffices). -/
def winLoop {α : Type} [DecidableEq α] (ctx seq : List α) : ℕ → Option (ℕ × ℕ) → ℕ → Option (ℕ × ℕ)
  | _, best, 0 => best
  | i, best, f + 1 =>
    match fwdScan seq ctx i with
    | none => best
    | some j =>
      let e := j - 1
      match bwdScan seq i ctx.reverse e (e + 1) with
      | none => best
      | some s =>
        let keep : Bool :=
          match best with
          | none => true
          | some (bs, be) => decide (e - s < be - bs)
        let best' := if keep then some (s, e) else best
        if seq.length ≤ s + 1 then best' else winLoop ctx seq (s + 1) best' f

/-- Embedding of `best_subsequence_window(context, seq)`. The Python function
returns `(0, -1)` for an empty context; that value is never consumed (the
scorer handles `m == 0` before calling), so we return `some (0, 0)` there. -/
def best_subsequence_window {α : Type} [DecidableEq α] (ctx seq : List α) : Option (ℕ × ℕ) :=
  if ctx.length = 0 then some (0, 0)
  else winLoop ctx seq 0 none (seq.length + 1)

/-- Kernel-reducible natural power on rationals (Python `x ** n` for the
natural exponents the planner uses). -/
def ratPow (q : ℚ) : ℕ → ℚ
  | 0 => 1
  | n + 1 => q * ratPow q n

theorem ratPow_eq_pow (q : ℚ) : ∀ n : ℕ, ratPow q n = q ^ n
  | 0 => by simp [ratPow]
  | n + 1 => by rw [ratPow, ratPow_eq_pow q n, pow_succ, mul_comm]

/-- Embedding of `strict_order_match_score(context, edge_path_keys,
length_weight, early_tie_breaker, epsilon)`. Scores are exact rationals; the
float exponent `max(1.0, float(length_weight))` is modelled by the natural
exponent `max 1 lengthWeight` (the repository always uses the default `1.0`). -/
def strict_order_match_score {α : Type} [DecidableEq α] (ctx seq : List α)
    (lengthWeight : ℕ) (earlyTieBreaker epsilon : ℚ) : ℚ :=
  let m := ctx.length
  let n := seq.length
  if m = 0 then
    (if 0 < n then ratPow (epsilon / ((n : ℚ) + epsilon)) (Nat.max 1 lengthWeight) else 1)
  else
    match best_subsequence_window ctx seq with
    | none => 0
    | some (s, e) =>
      let spanLen := e - s + 1
      let gaps := spanLen - m
      let coverage := ratPow (((m : ℚ) + epsilon) / ((n : ℚ) + epsilon)) (Nat.max 1 lengthWeight)
      let compactness := 1 / (1 + (gaps : ℚ))
      let base := coverage * compactness
      if 0 < earlyTieBreaker then
        (base + earlyTieBreaker * (1 / (1 + (s : ℚ)))) / (1 + earlyTieBreaker)
      else base

/-! ### Scorer lemmas: appending irrelevant elements (claim C8) -/

section ScorerAppend

variable {α : Type} [DecidableEq α]

/-- Unfolding equation for `fwdScan` on a nonempty remaining context. -/
theorem fwdScan_cons_eq (seq : List α) (c : α) (cs : List α) (j : ℕ) :
    fwdScan seq (c :: cs) j =
      if h : j < seq.length then
        (if seq.get ⟨j, h⟩ = c then fwdScan seq cs (j + 1) else fwdScan seq (c :: cs) (j + 1))
      else none := by
  by_cases h : j < seq.length
  · obtain ⟨f, hf⟩ : ∃ f, seq.length - j = f + 1 := ⟨seq.length - j - 1, by omega⟩
    unfold fwdScan
    rw [hf, show seq.length - (j + 1) = f from by omega]
    simp only [fwdScanF]
  · unfold fwdScan
    rw [show seq.length - j = 0 from by omega, dif_neg h]
    rfl

/-- A successful forward scan is unaffected by appending to the sequence. -/
theorem fwdScan_append_some (seq junk : List α) :
    ∀ (k : ℕ) (ctxRem : List α) (j r : ℕ), seq.length - j ≤ k →
      fwdScan seq ctxRem j = some r → fwdScan (seq ++ junk) ctxRem j = some r := by
  intro k
  induction k with
  | zero =>
    intro ctxRem j r hk h
    match ctxRem with
    | [] => rw [fwdScan_nil_eq] at h; rw [fwdScan_nil_eq]; exact h
    | c :: cs =>
      rw [fwdScan_cons_eq] at h
      split at h
      · omega
      · exact absurd h (by simp)
  | succ k ih =>
    intro ctxRem j r hk h
    match ctxRem with
    | [] => rw [fwdScan_nil_eq] at h; rw [fwdScan_nil_eq]; exact h
    | c :: cs =>
      rw [fwdScan_cons_eq] at h
      split at h
      case isTrue hj =>
        have hj' : j < (seq ++ junk).length := by simp; omega
        rw [fwdScan_cons_eq, dif_pos hj']
        have hget : (seq ++ junk).get ⟨j, hj'⟩ = seq.get ⟨j, hj⟩ := by
          simp [List.getElem_append_left hj]
        rw [hget]
        split at h
        case isTrue heq =>
          rw [if_pos heq]
          exact ih cs (j + 1) r (by omega) h
        case isFalse heq =>
          rw [if_neg heq]
          exact ih (c :: cs) (j + 1) r (by omega) h
      case isFalse => exact absurd h (by simp)

/-- A failing forward scan still fails after appending elements that occur
nowhere in the remaining context. -/
theorem fwdScan_append_none (seq junk : List α) :
    ∀ (k : ℕ) (ctxRem : List α) (j : ℕ), (seq ++ junk).length - j ≤ k →
      (∀ x ∈ junk, x ∉ ctxRem) →
      fwdScan seq ctxRem j = none → fwdScan (seq ++ junk) ctxRem j = none := by
  intro k
  induction k with
  | zero =>
    intro ctxRem j hk hdisj h
    match ctxRem with
    | [] => rw [fwdScan_nil_eq] at h; simp at h
    | c :: cs =>
      rw [fwdScan_cons_eq]
      split
      case isTrue hj => simp at hj; omega
      case isFalse => rfl
  | succ k ih =>
    intro ctxRem j hk hdisj h
    match ctxRem with
    | [] => rw [fwdScan_nil_eq] at h; simp at h
    | c :: cs =>
      rw [fwdScan_cons_eq]
      split
      case isFalse => rfl
      case isTrue hj' =>
        by_cases hj : j < seq.length
        · rw [fwdScan_cons_eq, dif_pos hj] at h
          have hget : (seq ++ junk).get ⟨j, hj'⟩ = seq.get ⟨j, hj⟩ := by
            simp [List.getElem_append_left hj]
          rw [hget]
          split at h
          next heq =>
            rw [if_pos heq]
            exact ih cs (j + 1) (by omega) (fun x hx hmem => hdisj x hx (List.mem_cons_of_mem c hmem)) h
          next heq =>
            rw [if_neg heq]
            exact ih (c :: cs) (j + 1) (by omega) hdisj h
        · -- the scanned element lies in `junk`, so it matches nothing in the context
          have hjlen : seq.length ≤ j := by omega
          have hget : (seq ++ junk).get ⟨j, hj'⟩ = junk.get ⟨j - seq.length, by simp at hj'; omega⟩ := by
            simp [List.getElem_append_right hjlen]
          have hmem : (seq ++ junk).get ⟨j, hj'⟩ ∈ junk := by
            rw [hget]; exact List.get_mem _ _ _
          have hne : ¬((seq ++ junk).get ⟨j, hj'⟩ = c) := by
            intro hc
            exact hdisj _ hmem (hc ▸ List.mem_cons_self c cs)
          rw [if_neg hne]
          have hnone : fwdScan seq (c :: cs) (j + 1) = none := by
            rw [fwdScan_cons_eq, dif_neg (by omega)]
          exact ih (c :: cs) (j + 1) (by omega) hdisj hnone

/-- Bounds of a successful forward scan: on a nonempty context the result is
strictly beyond the start and within the sequence. -/
theorem fwdScan_some_bounds (seq : List α) :
    ∀ (k : ℕ) (ctxRem : List α) (j r : ℕ), seq.length - j ≤ k →
      fwdScan seq ctxRem j = some r →
      (ctxRem = [] ∧ r = j) ∨ (j < r ∧ r ≤ seq.length) := by
  intro k
  induction k with
  | zero =>
    intro ctxRem j r hk h
    match ctxRem with
    | [] => rw [fwdScan_nil_eq] at h; injection h with h; exact Or.inl ⟨rfl, h.symm⟩
    | c :: cs =>
      rw [fwdScan_cons_eq] at h
      split at h
      · omega
      · exact absurd h (by simp)
  | succ k ih =>
    intro ctxRem j r hk h
    match ctxRem with
    | [] => rw [fwdScan_nil_eq] at h; injection h with h; exact Or.inl ⟨rfl, h.symm⟩
    | c :: cs =>
      rw [fwdScan_cons_eq] at h
      split at h
      case isFalse => exact absurd h (by simp)
      case isTrue hj =>
        right
        split at h
        case isTrue heq =>
          rcases ih cs (j + 1) r (by omega) h with ⟨_, rfl⟩ | ⟨h1, h2⟩
          · omega
          · omega
        case isFalse heq =>
          rcases ih (c :: cs) (j + 1) r (by omega) h with ⟨hc, _⟩ | ⟨h1, h2⟩
          · simp at hc
          · omega

/-- Unfolding equation for `bwdScan` with remaining fuel. -/
theorem bwdScan_succ_eq (seq : List α) (iLow : ℕ) (ctxRev : List α) (k f : ℕ) :
    bwdScan seq iLow ctxRev k (f + 1) =
      (if k < iLow then none
       else
         match ctxRev with
         | [] => none
         | c :: cs =>
           if seq.get? k = some c then
             match cs with
             | [] => some k
             | _ :: _ => if k = 0 then none else bwdScan seq iLow cs (k - 1) f
           else
             if k = 0 then none else bwdScan seq iLow (c :: cs) (k - 1) f) := rfl

/-- Unfolding equation for `winLoop` with remaining fuel. -/
theorem winLoop_succ_eq (ctx seq : List α) (i : ℕ) (best : Option (ℕ × ℕ)) (f : ℕ) :
    winLoop ctx seq i best (f + 1) =
      (match fwdScan seq ctx i with
       | none => best
       | some j =>
         let e := j - 1
         match bwdScan seq i ctx.reverse e (e + 1) with
         | none => best
         | some s =>
           let keep : Bool :=
             match best with
             | none => true
             | some (bs, be) => decide (e - s < be - bs)
           let best' := if keep then some (s, e) else best
           if seq.length ≤ s + 1 then best' else winLoop ctx seq (s + 1) best' f) := rfl

/-- The backward tightening only inspects indices `≤ k`, so appending to the
sequence does not change it while `k` stays inside the original sequence. -/
theorem bwdScan_append (seq junk : List α) (iLow : ℕ) :
    ∀ (f : ℕ) (ctxRev : List α) (k : ℕ), k < seq.length →
      bwdScan (seq ++ junk) iLow ctxRev k f = bwdScan seq iLow ctxRev k f := by
  intro f
  induction f with
  | zero => intro ctxRev k hk; rfl
  | succ f ih =>
    intro ctxRev k hk
    rw [bwdScan_succ_eq, bwdScan_succ_eq]
    by_cases hki : k < iLow
    · rw [if_pos hki, if_pos hki]
    · rw [if_neg hki, if_neg hki]
      match ctxRev with
      | [] => rfl
      | c :: cs =>
        dsimp only
        have hget : (seq ++ junk).get? k = seq.get? k := by
          simp only [List.get?_eq_getElem?]
          exact List.getElem?_append_left hk
        rw [hget]
        by_cases heq : seq.get? k = some c
        · rw [if_pos heq, if_pos heq]
          match cs with
          | [] => rfl
          | c' :: cs' =>
            by_cases hk0 : k = 0
            · rw [if_pos hk0, if_pos hk0]
            · rw [if_neg hk0, if_neg hk0]
              exact ih (c' :: cs') (k - 1) (by omega)
        · rw [if_neg heq, if_neg heq]
          by_cases hk0 : k = 0
          · rw [if_pos hk0, if_pos hk0]
          · rw [if_neg hk0, if_neg hk0]
            exact ih (c :: cs) (k - 1) (by omega)

/-- A successful backward tightening returns a start inside `[iLow, k]`. -/
theorem bwdScan_some_bounds (seq : List α) (iLow : ℕ) :
    ∀ (f : ℕ) (ctxRev : List α) (k s : ℕ),
      bwdScan seq iLow ctxRev k f = some s → iLow ≤ s ∧ s ≤ k := by
  intro f
  induction f with
  | zero => intro ctxRev k s h; exact absurd h (by simp [bwdScan])
  | succ f ih =>
    intro ctxRev k s h
    rw [bwdScan_succ_eq] at h
    by_cases hki : k < iLow
    · rw [if_pos hki] at h; exact absurd h (by simp)
    · rw [if_neg hki] at h
      match ctxRev with
      | [] => exact absurd h (by simp)
      | c :: cs =>
        dsimp only at h
        by_cases heq : seq.get? k = some c
        · rw [if_pos heq] at h
          match cs with
          | [] =>
            simp at h
            omega
          | c' :: cs' =>
            by_cases hk0 : k = 0
            · rw [if_pos hk0] at h; exact absurd h (by simp)
            · rw [if_neg hk0] at h
              have := ih (c' :: cs') (k - 1) s h
              omega
        · rw [if_neg heq] at h
          by_cases hk0 : k = 0
          · rw [if_pos hk0] at h; exact absurd h (by simp)
          · rw [if_neg hk0] at h
            have := ih (c :: cs) (k - 1) s h
            omega

/-- On a start index at or beyond the original sequence, the forward scan over
the extended sequence fails when the appended elements never match the context. -/
theorem fwdScan_junk_region (seq junk : List α) (ctx : List α) (hctx : ctx ≠ [])
    (hdisj : ∀ x ∈ junk, x ∉ ctx) (i : ℕ) (hi : seq.length ≤ i) :
    fwdScan (seq ++ junk) ctx i = none := by
  match ctx, hctx with
  | c :: cs, _ =>
    have hbase : fwdScan seq (c :: cs) i = none := by
      rw [fwdScan_cons_eq, dif_neg (by omega)]
    exact fwdScan_append_none seq junk ((seq ++ junk).length - i) (c :: cs) i (by omega) hdisj hbase

/-- The window-search loop is unaffected by appending elements that occur
nowhere in the (nonempty) context, given sufficient fuel on both sides. -/
theorem winLoop_append (ctx seq junk : List α) (hctx : ctx ≠ [])
    (hdisj : ∀ x ∈ junk, x ∉ ctx) :
    ∀ (k i : ℕ) (best : Option (ℕ × ℕ)) (f₁ f₂ : ℕ),
      seq.length - i ≤ k → k + 1 ≤ f₁ → k + 2 ≤ f₂ →
      winLoop ctx (seq ++ junk) i best f₂ = winLoop ctx seq i best f₁ := by
  intro k
  induction k with
  | zero =>
    intro i best f₁ f₂ hk hf₁ hf₂
    -- from `seq.length ≤ i` the forward scan fails on both sides
    obtain ⟨a, rfl⟩ : ∃ a, f₁ = a + 1 := ⟨f₁ - 1, by omega⟩
    obtain ⟨b, rfl⟩ : ∃ b, f₂ = b + 1 := ⟨f₂ - 1, by omega⟩
    have h1 : fwdScan seq ctx i = none := by
      match ctx, hctx with
      | c :: cs, _ => rw [fwdScan_cons_eq, dif_neg (by omega)]
    have h2 : fwdScan (seq ++ junk) ctx i = none :=
      fwdScan_junk_region seq junk ctx hctx hdisj i (by omega)
    rw [winLoop_succ_eq, winLoop_succ_eq, h1, h2]
  | succ k ih =>
    intro i best f₁ f₂ hk hf₁ hf₂
    obtain ⟨a, rfl⟩ : ∃ a, f₁ = a + 1 := ⟨f₁ - 1, by omega⟩
    obtain ⟨b, rfl⟩ : ∃ b, f₂ = b + 1 := ⟨f₂ - 1, by omega⟩
    rw [winLoop_succ_eq, winLoop_succ_eq]
    cases hfs : fwdScan seq ctx i with
    | none =>
      rw [fwdScan_append_none seq junk ((seq ++ junk).length - i) ctx i (by omega) hdisj hfs]
    | some j =>
      rw [fwdScan_append_some seq junk (seq.length - i) ctx i j (by omega) hfs]
      dsimp only
      have hjb : i < j ∧ j ≤ seq.length := by
        rcases fwdScan_some_bounds seq (seq.length - i) ctx i j (by omega) hfs with ⟨hc, _⟩ | hb
        · exact absurd hc hctx
        · exact hb
      have hje : j - 1 < seq.length := by omega
      rw [bwdScan_append seq junk i (j - 1 + 1) ctx.reverse (j - 1) hje]
      cases hbs : bwdScan seq i ctx.reverse (j - 1) (j - 1 + 1) with
      | none => rfl
      | some s =>
        dsimp only
        have hsb : i ≤ s ∧ s ≤ j - 1 := bwdScan_some_bounds seq i _ _ _ s hbs
        by_cases hstop : seq.length ≤ s + 1
        · rw [if_pos hstop]
          by_cases hstop' : (seq ++ junk).length ≤ s + 1
          · rw [if_pos hstop']
          · rw [if_neg hstop']
            -- one more iteration on the extended side, which fails immediately
            obtain ⟨b', rfl⟩ : ∃ b', b = b' + 1 := ⟨b - 1, by omega⟩
            rw [winLoop_succ_eq, fwdScan_junk_region seq junk ctx hctx hdisj (s + 1) (by omega)]
        · rw [if_neg hstop]
          have hstop' : ¬((seq ++ junk).length ≤ s + 1) := by
            simp only [List.length_append]; omega
          rw [if_neg hstop']
          exact ih (s + 1) _ a b (by omega) (by omega) (by omega)

/-- Appending elements that occur nowhere in a nonempty context leaves the
best subsequence window unchanged. -/
theorem best_subsequence_window_append (ctx seq junk : List α) (hctx : ctx ≠ [])
    (hdisj : ∀ x ∈ junk, x ∉ ctx) :
    best_subsequence_window ctx (seq ++ junk) = best_subsequence_window ctx seq := by
  match junk with
  | [] => simp
  | x :: xs =>
    have hm : ¬(ctx.length = 0) := by simpa using hctx
    rw [best_subsequence_window, best_subsequence_window, if_neg hm, if_neg hm]
    exact winLoop_append ctx seq (x :: xs) hctx hdisj seq.length 0 none (seq.length + 1)
      ((seq ++ x :: xs).length + 1) (by omega) (by omega) (by simp)

end ScorerAppend

/-- Claim C8: appending contracts that occur nowhere in the context to the
scored sequence weakly decreases `strict_order_match_score`: the coverage
factor drops while the window (hence compactness and the early-window
tie-breaker) is unchanged. Stated for any positive `epsilon`, covering the
planner's parameters `epsilon = 1e-9`, `early_tie_breaker = 0.1`. -/
theorem C8_score_append_irrelevant (ctx seq junk : List Contract) (lengthWeight : ℕ)
    (earlyTieBreaker epsilon : ℚ) (heps : 0 < epsilon)
    (hdisj : ∀ x ∈ junk, x ∉ ctx) :
    strict_order_match_score ctx (seq ++ junk) lengthWeight earlyTieBreaker epsilon ≤
      strict_order_match_score ctx seq lengthWeight earlyTieBreaker epsilon := by
  by_cases hm : ctx.length = 0
  · simp only [strict_order_match_score, if_pos hm]
    by_cases hn : 0 < seq.length
    · have hn' : 0 < (seq ++ junk).length := by simp; omega
      rw [if_pos hn, if_pos hn', ratPow_eq_pow, ratPow_eq_pow]
      apply pow_le_pow_left₀ (by positivity)
      have h1 : (0:ℚ) < (seq.length : ℚ) + epsilon := by positivity
      have h2 : ((seq.length : ℚ) + epsilon) ≤ ((seq ++ junk).length : ℚ) + epsilon := by
        have : (seq.length : ℚ) ≤ ((seq ++ junk).length : ℚ) := by
          push_cast [List.length_append]
          have : (0:ℚ) ≤ (junk.length : ℚ) := by positivity
          linarith
        linarith
      exact div_le_div_of_nonneg_left heps.le h1 h2
    · rw [if_neg hn]
      by_cases hn' : 0 < (seq ++ junk).length
      · rw [if_pos hn', ratPow_eq_pow]
        apply pow_le_one₀ (by positivity)
        rw [div_le_one (by positivity)]
        have : (0:ℚ) ≤ ((seq ++ junk).length : ℚ) := by positivity
        linarith
      · rw [if_neg hn']
  · have hctx : ctx ≠ [] := by
      intro hc
      exact hm (by simp [hc])
    simp only [strict_order_match_score, if_neg hm]
    rw [best_subsequence_window_append ctx seq junk hctx hdisj]
    cases hw : best_subsequence_window ctx seq with
    | none => exact le_refl 0
    | some se =>
      obtain ⟨s, e⟩ := se
      dsimp only
      have hcov : ratPow (((ctx.length : ℚ) + epsilon) / (((seq ++ junk).length : ℚ) + epsilon)) (Nat.max 1 lengthWeight) ≤
          ratPow (((ctx.length : ℚ) + epsilon) / ((seq.length : ℚ) + epsilon)) (Nat.max 1 lengthWeight) := by
        rw [ratPow_eq_pow, ratPow_eq_pow]
        apply pow_le_pow_left₀ (by positivity)
        have h1 : (0:ℚ) < (seq.length : ℚ) + epsilon := by positivity
        have h2 : ((seq.length : ℚ) + epsilon) ≤ ((seq ++ junk).length : ℚ) + epsilon := by
          have : (seq.length : ℚ) ≤ ((seq ++ junk).length : ℚ) := by
            push_cast [List.length_append]
            have : (0:ℚ) ≤ (junk.length : ℚ) := by positivity
            linarith
          linarith
        exact div_le_div_of_nonneg_left (by positivity) h1 h2
      have hcomp : (0:ℚ) ≤ 1 / (1 + ((e - s + 1 - ctx.length : ℕ) : ℚ)) := by positivity
      have hbase : ratPow (((ctx.length : ℚ) + epsilon) / (((seq ++ junk).length : ℚ) + epsilon)) (Nat.max 1 lengthWeight) *
            (1 / (1 + ((e - s + 1 - ctx.length : ℕ) : ℚ))) ≤
          ratPow (((ctx.length : ℚ) + epsilon) / ((seq.length : ℚ) + epsilon)) (Nat.max 1 lengthWeight) *
            (1 / (1 + ((e - s + 1 - ctx.length : ℕ) : ℚ))) :=
        mul_le_mul_of_nonneg_right hcov hcomp
      by_cases htb' : 0 < earlyTieBreaker
      · rw [if_pos htb', if_pos htb']
        have hden : (0:ℚ) < 1 + earlyTieBreaker := by linarith
        apply div_le_div_of_nonneg_right ?_ hden.le
        · linarith
      · rw [if_neg htb', if_neg htb']
        exact hbase

/-- Witness for claim C8 at a concrete input: appending the irrelevant
contract `(2, none)` to the sequence does not increase the score of context
`[(1, none)]`, with the planner's scorer parameters. -/
theorem C8_witness :
    (0:ℚ) < 1/1000000000 ∧
      strict_order_match_score [((1:ℕ), (none : Option String))]
          ([((1:ℕ), (none : Option String))] ++ [((2:ℕ), (none : Option String))]) 1 (1/10) (1/1000000000) ≤
        strict_order_match_score [((1:ℕ), (none : Option String))]
          [((1:ℕ), (none : Option String))] 1 (1/10) (1/1000000000) :=
  ⟨by norm_num,
   C8_score_append_irrelevant _ _ _ _ _ _ (by norm_num) (by decide)⟩

/-! ### Graph model (`networkx.MultiDiGraph` as used by the algorithm) -/

/-- A planning graph node (`GraphNode` in `algorithm.py`). The source class is
`@dataclass(frozen=True, eq=False)`: identity is by object reference, so we
carry a unique `nodeId` allocated from the algorithm's counter. -/
structure GraphNode where
  nodeId : ℕ
  recipe : RecipeId
  context : CtxSet
deriving DecidableEq, Repr

/-- A multigraph edge `(producer, consumer, contract)`; the contract is the
networkx edge key (`MultiPathNode` in `algorithm.py`). -/
abbrev PEdge := GraphNode × GraphNode × Contract

/-- The planning multigraph: node list and edge list in insertion order. -/
structure Graph where
  nodes : List GraphNode
  edges : List PEdge
deriving DecidableEq, Repr

/-- Add a node (`networkx` auto-deduplicates). -/
def Graph.addNode (g : Graph) (n : GraphNode) : Graph :=
  if n ∈ g.nodes then g else { g with nodes := g.nodes ++ [n] }

/-- Add an edge with its key, auto-adding endpoints as `networkx.add_edge`
does; re-adding the same `(u, v, key)` triple is a no-op (`addNode` leaves
the edge list unchanged, so membership is tested on `g.edges`). -/
def Graph.addEdge (g : Graph) (e : PEdge) : Graph :=
  if e ∈ g.edges then (g.addNode e.1).addNode e.2.1
  else { nodes := ((g.addNode e.1).addNode e.2.1).nodes, edges := g.edges ++ [e] }

/-- Remove the edge with the given `(u, v, key)` triple. -/
def Graph.removeEdge (g : Graph) (e : PEdge) : Graph :=
  { g with edges := g.edges.filter (fun e' => e' ≠ e) }

/-- In-edges of a node, in insertion order (`G.in_edges(v, keys=True)`). -/
def Graph.inEdges (g : Graph) (v : GraphNode) : List PEdge :=
  g.edges.filter (fun e => e.2.1 = v)

/-- Out-degree counting parallel edges (`G.out_degree`). -/
def Graph.outDeg (g : Graph) (u : GraphNode) : ℕ :=
  (g.edges.filter (fun e => e.1 = u)).length

/-- Fuel-bounded reachability along directed edges: `reachb g f u v` holds
when there is a directed path of at most `f` edges from `u` to `v`. With
`f = g.nodes.length` this coincides with graph reachability (any path can be
shortened to a simple one). -/
def reachb (g : Graph) : ℕ → GraphNode → GraphNode → Bool
  | 0, u, v => u = v
  | f + 1, u, v => u = v || g.edges.any (fun e => e.1 = u && reachb g f e.2.1 v)

/-- Nodes kept by the final pruning in `_PlanningAlgorithm.run`:
`nx.ancestors(G, target) | {target}`, i.e. the nodes that reach the target. -/
def pruneKeep (g : Graph) (tgt : GraphNode) : List GraphNode :=
  g.nodes.filter (fun n => reachb g g.nodes.length n tgt)

/-- The pruned graph (`G.remove_nodes_from(set(G) - keep)`): kept nodes and
the edges among them. -/
def pruneG (g : Graph) (tgt : GraphNode) : Graph :=
  { nodes := pruneKeep g tgt
    edges := g.edges.filter (fun e => e.1 ∈ pruneKeep g tgt ∧ e.2.1 ∈ pruneKeep g tgt) }

/-- Acyclicity check (`nx.is_directed_acyclic_graph`): no node lies on a
directed cycle. -/
def Graph.isAcyclic (g : Graph) : Bool :=
  g.nodes.all (fun n => !(g.edges.any (fun e => e.1 = n && reachb g g.nodes.length e.2.1 n)))

/-- The sink nodes (`{node for node, deg in graph.out_degree if deg == 0}`). -/
def Graph.sinks (g : Graph) : List GraphNode :=
  g.nodes.filter (fun n => g.outDeg n = 0)

/-- Well-formedness: every edge endpoint is a node of the graph (maintained
by all `networkx` mutations the algorithm uses). -/
def Graph.wf (g : Graph) : Prop :=
  ∀ e ∈ g.edges, e.1 ∈ g.nodes ∧ e.2.1 ∈ g.nodes

/-! ### Planning algorithm (`plan/algorithm.py`) -/

/-- `RecipePick` from `algorithm.py`. -/
structure RecipePick where
  recipe : RecipeId
  fitness : ℚ
deriving DecidableEq, Repr

/-- `ExistingNodePick` from `algorithm.py`. -/
structure ExistingNodePick where
  node : GraphNode
  fitness : ℚ
deriving DecidableEq, Repr

/-- The planner's error variants (the source raises `ValueError`s and a
`RuntimeError` with distinguishing messages; `assertFailed` stands for the
`assert`s in `Plan.__init__`; `fuelOut` is a modelling artefact of the
fuel-bounded greedy-cover loop, unreachable with the fuel supplied). -/
inductive PlanErr
  | missingRecipe
  | ambiguousRecipe
  | doubleContract
  | cycle
  | noIsolatingEdge
  | ambiguousTarget
  | missingTarget
  | assertFailed
  | fuelOut
deriving DecidableEq, Repr

/-- The registry data passed to `_PlanningAlgorithm.__init__`: the recipe
class attributes, `contract_to_recipes` (an empty list models an absent key),
`recipe_to_context`, and the chosen target recipe. -/
structure AlgoCtx where
  rinfo : RecipeId → RecipeDecl
  contract_to_recipes : Contract → List RecipeId
  recipe_to_context : RecipeId → CtxSet

/-- The target node `GraphNode(target_recipe, context={()})`, allocated first
(id 0; the fresh-id counter starts at 1). -/
def targetNode (tr : RecipeId) : GraphNode := ⟨0, tr, [[]]⟩

/-- Mutable state of `_PlanningAlgorithm`: graph, planning-path queue and the
fresh-identity counter; `splits` is a ghost counter of `perform_split`
invocations used only in statements about runs. -/
structure AlgoState where
  G : Graph
  queue : List (List PEdge)
  nextId : ℕ
  splits : ℕ
deriving DecidableEq, Repr

/-- `compute_fitness`: score each context path of the set against the
contract path (the path's edge keys plus the target's produced contract),
both reversed, and take the maximum. Registered context sets are nonempty
(`assert context_paths` in `Planner._add`) and scores are nonnegative, so
folding `max` over `0` agrees with Python's `max`. -/
def compute_fitness (tr : RecipeId) (A : AlgoCtx) (context : CtxSet) (path : List PEdge) : ℚ :=
  let contracts_path := path.map (fun e => e.2.2) ++ [((A.rinfo tr).makes, none)]
  (context.map
    (fun context_path =>
      strict_order_match_score context_path.reverse contracts_path.reverse 1 (1/10) (1/1000000000))).foldr max 0

/-- Accumulator of the `pick_recipe` loop (`max_fitness`, `best_recipes`). -/
structure PickAcc where
  maxFitness : ℚ
  best : List RecipeId
deriving DecidableEq, Repr

/-- One iteration of the `pick_recipe` loop: skip zero fitness, extend the
tied set on equality, restart it on strict improvement. -/
def pickStep (fit : RecipeId → ℚ) (acc : PickAcc) (r : RecipeId) : PickAcc :=
  let f := fit r
  if f = 0 then acc
  else if f = acc.maxFitness then
    { acc with best := if r ∈ acc.best then acc.best else acc.best ++ [r] }
  else if acc.maxFitness < f then { maxFitness := f, best := [r] }
  else acc

/-- `pick_recipe`: among the recipes registered for the contract, keep those
of strictly maximal positive fitness. More than one tied best raises
(`RuntimeError`, modelled `ambiguousRecipe`); none yields `none`. -/
def pick_recipe (tr : RecipeId) (A : AlgoCtx) (contract : Contract) (path : List PEdge) :
    Except PlanErr (Option RecipePick) :=
  let acc := (A.contract_to_recipes contract).foldl
    (pickStep (fun r => compute_fitness tr A (A.recipe_to_context r) path)) ⟨0, []⟩
  if 1 < acc.best.length then .error .ambiguousRecipe
  else
    match acc.best with
    | [] => .ok none
    | r :: _ => .ok (some ⟨r, acc.maxFitness⟩)

/-- `pick_existing_node`: scan the graph's nodes in insertion order for one
with the picked recipe and fitness at least the picked fitness, keeping the
first node of each strictly increasing fitness (`_fitness > picked_fitness`). -/
def pick_existing_node (tr : RecipeId) (A : AlgoCtx) (g : Graph) (picked : RecipePick)
    (path : List PEdge) : Option ExistingNodePick :=
  g.nodes.foldl
    (fun acc node =>
      if node.recipe = picked.recipe then
        let f := compute_fitness tr A node.context path
        if decide (picked.fitness ≤ f) &&
            (match acc with
             | none => true
             | some p => decide (p.fitness < f)) then
          some ⟨node, f⟩
        else acc
      else acc)
    none

/-- `use_edge`: refuse a path already containing the edge (`Cycle detected`),
otherwise enqueue the extended planning path. -/
def use_edge (st : AlgoState) (child parent : GraphNode) (contract : Contract)
    (parentPath : List PEdge) : Except PlanErr AlgoState :=
  if (child, parent, contract) ∈ parentPath then .error .cycle
  else .ok { st with queue := st.queue ++ [(child, parent, contract) :: parentPath] }

/-- `add_edge`: raise `DoubleContract` when the parent already has an in-edge
carrying the contract, otherwise add the edge and enqueue via `use_edge`. -/
def add_edge (st : AlgoState) (child parent : GraphNode) (contract : Contract)
    (parentPath : List PEdge) : Except PlanErr AlgoState :=
  if contract ∈ (st.G.inEdges parent).map (fun e => e.2.2) then .error .doubleContract
  else use_edge { st with G := st.G.addEdge (child, parent, contract) } child parent contract parentPath

/-- Simple edge paths from `u` ending at `tgt` (no repeated nodes), the DFS
behind `nx.all_simple_edge_paths`; `fuel` bounds the recursion depth
(`g.nodes.length + 1` suffices since simple paths repeat no node). -/
def simplePathsAux (g : Graph) (tgt : GraphNode) : ℕ → GraphNode → List GraphNode → List (List PEdge)
  | 0, _, _ => []
  | f + 1, u, visited =>
    (g.edges.filter (fun e => e.1 = u && e.2.1 ∉ visited)).flatMap
      (fun e =>
        if e.2.1 = tgt then [[e]]
        else (simplePathsAux g tgt f e.2.1 (visited ++ [e.2.1])).map (fun p => e :: p))

/-- `nx.all_simple_edge_paths(G, src, tgt)`: for `src = tgt` the single empty
path, otherwise the DFS enumeration. -/
def allSimpleEdgePaths (g : Graph) (src tgt : GraphNode) : List (List PEdge) :=
  if src = tgt then [[]] else simplePathsAux g tgt (g.nodes.length + 1) src [src]

/-- Accumulator of the classification loop in `compute_isolating_edge`:
`matching_paths`, the insertion-ordered map `isolating_edges`, and the
`nonmatching` edge set. -/
structure IsoAcc where
  matching : List (List PEdge)
  isoMap : List (PEdge × List (List PEdge))
  nonmatching : List PEdge

/-- `isolating_edges.setdefault(edge, set()).add(path)` on the ordered map. -/
def isoInsert : List (PEdge × List (List PEdge)) → PEdge → List PEdge → List (PEdge × List (List PEdge))
  | [], e, p => [(e, [p])]
  | (e', ps) :: rest, e, p =>
    if e' = e then (e', if p ∈ ps then ps else ps ++ [p]) :: rest
    else (e', ps) :: isoInsert rest e p

/-- `del isolating_edges[edge]` on the ordered map. -/
def isoErase (m : List (PEdge × List (List PEdge))) (e : PEdge) : List (PEdge × List (List PEdge)) :=
  m.filter (fun x => x.1 ≠ e)

/-- One path of the classification loop of `compute_isolating_edge`
(`algorithm.py` lines 256-280): a path is matching when the candidate
context's fitness is positive and strictly above the current child's; its
edges become isolating-edge candidates unless already on a non-matching
path. A non-matching path bans all its edges. -/
def classifyStep (tr : RecipeId) (A : AlgoCtx) (currCtx ctx : CtxSet) (acc : IsoAcc)
    (p : List PEdge) : IsoAcc :=
  let currFit := compute_fitness tr A currCtx p
  let fit := compute_fitness tr A ctx p
  if 0 < fit ∧ currFit < fit then
    { matching := acc.matching ++ [p]
      isoMap := p.foldl (fun m e => if e ∈ acc.nonmatching then m else isoInsert m e p) acc.isoMap
      nonmatching := acc.nonmatching }
  else
    { matching := acc.matching
      isoMap := p.foldl (fun m e => isoErase m e) acc.isoMap
      nonmatching := acc.nonmatching ++ p }

/-- Python's `max(isolating_edges, key=lambda e: len(isolating_edges[e]))`:
first entry with the maximal covered-path count, in insertion order. -/
def argmaxFirst (m : List (PEdge × List (List PEdge))) : Option (PEdge × List (List PEdge)) :=
  m.foldl
    (fun acc x =>
      match acc with
      | none => some x
      | some b => if b.2.length < x.2.length then some x else acc)
    none

/-- The greedy cover loop of `compute_isolating_edge`: repeatedly pick the
candidate edge covering the most still-uncovered matching paths, remove those
paths everywhere, and drop emptied entries; when no candidates remain, any
uncovered matching path raises `NoIsolatingEdge` (each step removes the
picked entry, so `isoMap.length + 1` fuel never runs out). -/
def greedyCover : ℕ → List (List PEdge) → List (PEdge × List (List PEdge)) → List PEdge →
    Except PlanErr (List PEdge)
  | 0, matching, isoMap, picked =>
    (match isoMap with
     | [] => if matching = [] then .ok picked else .error .noIsolatingEdge
     | _ => .error .fuelOut)
  | f + 1, matching, isoMap, picked =>
    match argmaxFirst isoMap with
    | none => if matching = [] then .ok picked else .error .noIsolatingEdge
    | some best =>
      let covered := best.2
      let matching' := matching.filter (fun p => p ∉ covered)
      let isoMap' := (isoMap.map (fun x => (x.1, x.2.filter (fun p => p ∉ covered)))).filter
        (fun x => x.2 ≠ [])
      greedyCover f matching' isoMap' (picked ++ [best.1])

/-- `compute_isolating_edge`: classify the simple paths from the parent to
the target, then greedily cover the matching paths by isolating edges. -/
def compute_isolating_edge (tr : RecipeId) (A : AlgoCtx) (g : Graph) (context : CtxSet)
    (parent_node curr_child_node : GraphNode) : Except PlanErr (List PEdge) :=
  let paths := allSimpleEdgePaths g parent_node (targetNode tr)
  let acc := paths.foldl (classifyStep tr A curr_child_node.context context) ⟨[], [], []⟩
  greedyCover (acc.isoMap.length + 1) acc.matching acc.isoMap []

/-- `nx.descendants(G, n)`: nodes reachable from `n`, excluding `n`. -/
def descendantsOf (g : Graph) (n : GraphNode) : List GraphNode :=
  g.nodes.filter (fun m => m ≠ n && reachb g g.nodes.length n m)

/-- `nx.ancestors(G, n)`: nodes that reach `n`, excluding `n`. -/
def ancestorsOf (g : Graph) (n : GraphNode) : List GraphNode :=
  g.nodes.filter (fun m => m ≠ n && reachb g g.nodes.length m n)

/-- Lookup in the `_node_copies` mapping (`_node_copies[n]`; total with
identity fallback, never consulted outside the mapping's domain). -/
def copyLookup (cmap : List (GraphNode × GraphNode)) (n : GraphNode) : GraphNode :=
  ((cmap.find? (fun x => x.1 = n)).map Prod.snd).getD n

/-- `perform_split`: duplicate the slice `H` between the parent and the
isolating edges, tag the copies with the candidate context, replicate
interior and boundary-in edges (except the edge currently providing the
contract), rewire the isolating edges onto the copies, and return the
parent's copy. The boundary is taken on the original edge set: the copy
edges added just before have their heads outside `H`, so `nx.edge_boundary`
never yields them. -/
def perform_split (st : AlgoState) (parent_node : GraphNode) (isolating_edges : List PEdge)
    (context : CtxSet) (curr_child_edge : PEdge) : GraphNode × AlgoState :=
  let g0 := st.G
  let ancs := isolating_edges.foldl
    (fun s e => s ++ (ancestorsOf g0 e.2.1).filter (fun n => n ∉ s)) []
  let Hnodes := g0.nodes.filter
    (fun n => (decide (n ∈ descendantsOf g0 parent_node) && decide (n ∈ ancs)) || n = parent_node)
  let copies := Hnodes.foldl
    (fun (acc : List (GraphNode × GraphNode) × ℕ) n =>
      (acc.1 ++ [(n, ⟨acc.2, n.recipe, context⟩)], acc.2 + 1))
    ([], st.nextId)
  let cmap := copies.1
  let copyOf := copyLookup cmap
  let g1 := cmap.foldl (fun (g : Graph) x => g.addNode x.2) g0
  let Hedges := g0.edges.filter (fun e => e.1 ∈ Hnodes && e.2.1 ∈ Hnodes)
  let g2 := Hedges.foldl (fun (g : Graph) e => g.addEdge (copyOf e.1, copyOf e.2.1, e.2.2)) g1
  let bedges := g0.edges.filter
    (fun e => !decide (e.1 ∈ Hnodes) && decide (e.2.1 ∈ Hnodes) && e ≠ curr_child_edge)
  let g3 := bedges.foldl (fun (g : Graph) e => g.addEdge (e.1, copyOf e.2.1, e.2.2)) g2
  let g4 := isolating_edges.foldl
    (fun (g : Graph) e => (g.removeEdge e).addEdge (copyOf e.1, e.2.1, e.2.2)) g3
  (copyOf parent_node, { st with G := g4, nextId := copies.2, splits := st.splits + 1 })

/-- `satisfy_dependency` (`algorithm.py` lines 82-175): pick a best-fit
recipe, look for a reusable node, inspect the in-edge currently carrying the
contract, and either add, reuse, split, or keep. -/
def satisfy_dependency (tr : RecipeId) (A : AlgoCtx) (st : AlgoState) (parent_node : GraphNode)
    (contract : Contract) (parent_path : List PEdge) : Except PlanErr AlgoState :=
  match pick_recipe tr A contract parent_path with
  | .error e => .error e
  | .ok none => .error .missingRecipe
  | .ok (some picked) =>
    let reuse := pick_existing_node tr A st.G picked parent_path
    let currChild := ((st.G.inEdges parent_node).find? (fun e => e.2.2 = contract)).map (fun e => e.1)
    match currChild with
    | none =>
      (match reuse with
       | some ru => add_edge st ru.node parent_node contract parent_path
       | none =>
         let child : GraphNode := ⟨st.nextId, picked.recipe, A.recipe_to_context picked.recipe⟩
         add_edge { st with nextId := st.nextId + 1 } child parent_node contract parent_path)
    | some curr =>
      let currFitness := compute_fitness tr A curr.context parent_path
      match reuse with
      | some ru =>
        if currFitness < ru.fitness then
          match compute_isolating_edge tr A st.G ru.node.context parent_node curr with
          | .error e => .error e
          | .ok iso =>
            let pr := perform_split st parent_node iso ru.node.context (curr, parent_node, contract)
            add_edge pr.2 ru.node pr.1 contract parent_path
        else if currFitness < picked.fitness then
          match compute_isolating_edge tr A st.G (A.recipe_to_context picked.recipe) parent_node curr with
          | .error e => .error e
          | .ok iso =>
            let pr := perform_split st parent_node iso (A.recipe_to_context picked.recipe)
              (curr, parent_node, contract)
            let child : GraphNode := ⟨pr.2.nextId, picked.recipe, A.recipe_to_context picked.recipe⟩
            add_edge { pr.2 with nextId := pr.2.nextId + 1 } child pr.1 contract parent_path
        else use_edge st curr parent_node contract parent_path
      | none =>
        if currFitness < picked.fitness then
          match compute_isolating_edge tr A st.G (A.recipe_to_context picked.recipe) parent_node curr with
          | .error e => .error e
          | .ok iso =>
            let pr := perform_split st parent_node iso (A.recipe_to_context picked.recipe)
              (curr, parent_node, contract)
            let child : GraphNode := ⟨pr.2.nextId, picked.recipe, A.recipe_to_context picked.recipe⟩
            add_edge { pr.2 with nextId := pr.2.nextId + 1 } child pr.1 contract parent_path
        else use_edge st curr parent_node contract parent_path

/-- The dependency loop of `run`: `for dep in _parse_dependencies(...)`. -/
def process_deps (tr : RecipeId) (A : AlgoCtx) (parent : GraphNode) (path : List PEdge) :
    AlgoState → List Dependency → Except PlanErr AlgoState
  | st, [] => .ok st
  | st, d :: ds =>
    match satisfy_dependency tr A st parent d.contract path with
    | .error e => .error e
    | .ok st' => process_deps tr A parent path st' ds

/-- The main `while self.queue` loop of `run`, fuel bounded: pop a planning
path, drop it when stale (an edge on it was removed by a split), otherwise
satisfy every dependency of its frontier node. `ok none` means the fuel ran
out before the queue emptied. -/
def runLoop (tr : RecipeId) (A : AlgoCtx) : ℕ → AlgoState → Except PlanErr (Option AlgoState)
  | 0, _ => .ok none
  | f + 1, st =>
    match st.queue with
    | [] => .ok (some st)
    | p :: rest =>
      let st' := { st with queue := rest }
      let parent := match p with | [] => targetNode tr | e :: _ => e.1
      if p.all (fun e => e ∈ st'.G.edges) then
        match process_deps tr A parent p st' (A.rinfo parent.recipe).deps with
        | .error e => .error e
        | .ok st'' => runLoop tr A f st''
      else runLoop tr A f st'

/-- Initial algorithm state: the target node, a queue holding the empty path,
the fresh-id counter at 1. -/
def initState (tr : RecipeId) : AlgoState :=
  { G := { nodes := [targetNode tr], edges := [] }, queue := [[]], nextId := 1, splits := 0 }

/-- `_PlanningAlgorithm.run`: drive the queue, then prune to the nodes that
reach the target. -/
def algoRun (tr : RecipeId) (A : AlgoCtx) (fuel : ℕ) : Except PlanErr (Option (AlgoState × Graph)) :=
  match runLoop tr A fuel (initState tr) with
  | .error e => .error e
  | .ok none => .ok none
  | .ok (some st) => .ok (some (st, pruneG st.G (targetNode tr)))

/-- Target-recipe selection in `Planner.plan`: the recipes registered for the
target contract whose context set contains the empty path; zero or more than
one is an error. -/
def planTargetRecipe (A : AlgoCtx) (targetContract : Contract) : Except PlanErr RecipeId :=
  let cands := (A.contract_to_recipes targetContract).filter (fun r => [] ∈ A.recipe_to_context r)
  if 1 < cands.length then .error .ambiguousTarget
  else
    match cands with
    | [] => .error .missingTarget
    | r :: _ => .ok r

/-- The `assert`s of `Plan.__init__`: acyclic and exactly one sink. -/
def planValidate (g : Graph) : Bool := g.isAcyclic && g.sinks.length = 1

/-- `Planner.plan` composed with `Plan.__init__`: select the target recipe,
run the planning algorithm, prune, and validate. `ok none` is fuel
exhaustion (the modelled run did not terminate within `fuel` iterations). -/
def plannerPlan (A : AlgoCtx) (targetContract : Contract) (fuel : ℕ) :
    Except PlanErr (Option (AlgoState × Graph)) :=
  match planTargetRecipe A targetContract with
  | .error e => .error e
  | .ok tr =>
    match algoRun tr A fuel with
    | .error e => .error e
    | .ok none => .ok none
    | .ok (some (st, g)) => if planValidate g then .ok (some (st, g)) else .error .assertFailed

/-! ### Graph lemmas for the plan invariants (claim C1) -/

theorem Graph.addNode_nodes_sub (g : Graph) (n : GraphNode) : g.nodes ⊆ (g.addNode n).nodes := by
  unfold Graph.addNode
  split
  · exact fun x hx => hx
  · exact fun x hx => List.mem_append_left _ hx

theorem Graph.addNode_mem_self (g : Graph) (n : GraphNode) : n ∈ (g.addNode n).nodes := by
  unfold Graph.addNode
  split
  next h => exact h
  next h => exact List.mem_append_right _ (List.mem_singleton.mpr rfl)

theorem Graph.addNode_edges (g : Graph) (n : GraphNode) : (g.addNode n).edges = g.edges := by
  unfold Graph.addNode
  split <;> rfl

theorem Graph.addNode_wf (g : Graph) (n : GraphNode) (h : g.wf) : (g.addNode n).wf := by
  intro e he
  rw [Graph.addNode_edges] at he
  exact ⟨g.addNode_nodes_sub n (h e he).1, g.addNode_nodes_sub n (h e he).2⟩

theorem Graph.addEdge_nodes_sub (g : Graph) (e : PEdge) : g.nodes ⊆ (g.addEdge e).nodes := by
  unfold Graph.addEdge
  intro x hx
  have h1 := (g.addNode e.1).addNode_nodes_sub e.2.1 (g.addNode_nodes_sub e.1 hx)
  split
  · exact h1
  · exact h1

theorem Graph.addEdge_nodes (g : Graph) (e : PEdge) :
    (g.addEdge e).nodes = ((g.addNode e.1).addNode e.2.1).nodes := by
  unfold Graph.addEdge
  split <;> rfl

theorem Graph.addEdge_edges_sub (g : Graph) (e : PEdge) : g.edges ⊆ (g.addEdge e).edges := by
  unfold Graph.addEdge
  intro x hx
  split
  · simpa [Graph.addNode_edges] using hx
  · exact List.mem_append_left _ hx

theorem Graph.addEdge_wf (g : Graph) (e : PEdge) (h : g.wf) : (g.addEdge e).wf := by
  have hn1 : e.1 ∈ ((g.addNode e.1).addNode e.2.1).nodes :=
    (g.addNode e.1).addNode_nodes_sub e.2.1 (g.addNode_mem_self e.1)
  have hn2 : e.2.1 ∈ ((g.addNode e.1).addNode e.2.1).nodes :=
    (g.addNode e.1).addNode_mem_self e.2.1
  have hwf : ((g.addNode e.1).addNode e.2.1).wf :=
    Graph.addNode_wf _ _ (Graph.addNode_wf _ _ h)
  intro x hx
  unfold Graph.addEdge at hx
  rw [Graph.addEdge_nodes]
  split at hx
  · exact hwf x hx
  · rcases List.mem_append.mp hx with hx' | hx'
    · have := h x (by simpa using hx')
      exact ⟨(g.addNode e.1).addNode_nodes_sub e.2.1 (g.addNode_nodes_sub e.1 this.1),
             (g.addNode e.1).addNode_nodes_sub e.2.1 (g.addNode_nodes_sub e.1 this.2)⟩
    · rw [List.mem_singleton.mp hx']; exact ⟨hn1, hn2⟩

theorem Graph.removeEdge_nodes (g : Graph) (e : PEdge) : (g.removeEdge e).nodes = g.nodes := rfl

theorem Graph.removeEdge_wf (g : Graph) (e : PEdge) (h : g.wf) : (g.removeEdge e).wf := by
  intro x hx
  exact h x (List.mem_of_mem_filter hx)

/-- Generic preservation of well-formedness and node growth along a fold. -/
theorem foldl_wf_sub {X : Type} (step : Graph → X → Graph)
    (hwf : ∀ g x, g.wf → (step g x).wf)
    (hsub : ∀ g x, g.nodes ⊆ (step g x).nodes) :
    ∀ (l : List X) (g : Graph), g.wf → (l.foldl step g).wf ∧ g.nodes ⊆ (l.foldl step g).nodes := by
  intro l
  induction l with
  | nil => exact fun g h => ⟨h, fun x hx => hx⟩
  | cons a l ih =>
    intro g h
    have := ih (step g a) (hwf g a h)
    exact ⟨this.1, fun x hx => this.2 (hsub g a hx)⟩

/-- The four graph-rewriting folds of `perform_split` preserve
well-formedness and only grow the node set. -/
theorem split_chain_wf (g : Graph) (cmap : List (GraphNode × GraphNode))
    (Hedges bedges iso : List PEdge) (cf : GraphNode → GraphNode) (h : g.wf) :
    (iso.foldl (fun (g : Graph) e => (g.removeEdge e).addEdge (cf e.1, e.2.1, e.2.2))
      (bedges.foldl (fun (g : Graph) e => g.addEdge (e.1, cf e.2.1, e.2.2))
        (Hedges.foldl (fun (g : Graph) e => g.addEdge (cf e.1, cf e.2.1, e.2.2))
          (cmap.foldl (fun (g : Graph) x => g.addNode x.2) g)))).wf ∧
    g.nodes ⊆
      (iso.foldl (fun (g : Graph) e => (g.removeEdge e).addEdge (cf e.1, e.2.1, e.2.2))
        (bedges.foldl (fun (g : Graph) e => g.addEdge (e.1, cf e.2.1, e.2.2))
          (Hedges.foldl (fun (g : Graph) e => g.addEdge (cf e.1, cf e.2.1, e.2.2))
            (cmap.foldl (fun (g : Graph) x => g.addNode x.2) g)))).nodes := by
  obtain ⟨w1, s1⟩ := foldl_wf_sub (fun (g : Graph) (x : GraphNode × GraphNode) => g.addNode x.2)
    (fun g x => Graph.addNode_wf g x.2) (fun g x => Graph.addNode_nodes_sub g x.2) cmap g h
  obtain ⟨w2, s2⟩ := foldl_wf_sub (fun (g : Graph) (e : PEdge) => g.addEdge (cf e.1, cf e.2.1, e.2.2))
    (fun g e => Graph.addEdge_wf g _) (fun g e => Graph.addEdge_nodes_sub g _) Hedges _ w1
  obtain ⟨w3, s3⟩ := foldl_wf_sub (fun (g : Graph) (e : PEdge) => g.addEdge (e.1, cf e.2.1, e.2.2))
    (fun g e => Graph.addEdge_wf g _) (fun g e => Graph.addEdge_nodes_sub g _) bedges _ w2
  obtain ⟨w4, s4⟩ := foldl_wf_sub
    (fun (g : Graph) (e : PEdge) => (g.removeEdge e).addEdge (cf e.1, e.2.1, e.2.2))
    (fun g e hg => Graph.addEdge_wf _ _ (Graph.removeEdge_wf g e hg))
    (fun g e x hx => Graph.addEdge_nodes_sub _ _ (by rw [Graph.removeEdge_nodes]; exact hx)) iso _ w3
  exact ⟨w4, fun x hx => s4 (s3 (s2 (s1 hx)))⟩

/-- `perform_split` preserves well-formedness and only grows the node set. -/
theorem perform_split_wf (st : AlgoState) (p : GraphNode) (iso : List PEdge) (ctx : CtxSet)
    (ce : PEdge) (h : st.G.wf) :
    (perform_split st p iso ctx ce).2.G.wf ∧
      st.G.nodes ⊆ (perform_split st p iso ctx ce).2.G.nodes := by
  unfold perform_split
  dsimp only
  exact split_chain_wf st.G _ _ _ _ _ h

/-- A successful `use_edge` leaves the graph unchanged. -/
theorem use_edge_ok_G (st : AlgoState) (c p : GraphNode) (k : Contract) (path : List PEdge)
    (st' : AlgoState) (h : use_edge st c p k path = .ok st') : st'.G = st.G := by
  unfold use_edge at h
  split at h
  · simp at h
  · cases h; rfl

/-- A successful `add_edge` produces exactly the graph with the new edge. -/
theorem add_edge_ok_G (st : AlgoState) (c p : GraphNode) (k : Contract) (path : List PEdge)
    (st' : AlgoState) (h : add_edge st c p k path = .ok st') :
    st'.G = st.G.addEdge (c, p, k) := by
  unfold add_edge use_edge at h
  split at h
  · simp at h
  · split at h
    · simp at h
    · cases h; rfl

/-- A successful `satisfy_dependency` preserves graph well-formedness and
only grows the node set. -/
theorem satisfy_dependency_wf (tr : RecipeId) (A : AlgoCtx) (st : AlgoState) (p : GraphNode)
    (c : Contract) (path : List PEdge) (st' : AlgoState)
    (h : satisfy_dependency tr A st p c path = .ok st') (hw : st.G.wf) :
    st'.G.wf ∧ st.G.nodes ⊆ st'.G.nodes := by
  unfold satisfy_dependency at h
  split at h
  · simp at h
  · simp at h
  next picked _ =>
    dsimp only at h
    split at h
    -- currChild = none
    · split at h
      -- reuse = some
      next ru _ =>
        rw [add_edge_ok_G _ _ _ _ _ _ h]
        exact ⟨Graph.addEdge_wf _ _ hw, Graph.addEdge_nodes_sub _ _⟩
      -- reuse = none: fresh child on the nextId-bumped state
      next =>
        rw [add_edge_ok_G _ _ _ _ _ _ h]
        exact ⟨Graph.addEdge_wf _ _ hw, Graph.addEdge_nodes_sub _ _⟩
    -- currChild = some curr
    next curr _ =>
      split at h
      -- reuse = some ru
      next ru _ =>
        split at h
        -- split onto the reuse node
        · split at h
          · simp at h
          next iso _ =>
            rw [add_edge_ok_G _ _ _ _ _ _ h]
            have hs := perform_split_wf st p iso ru.node.context (curr, p, c) hw
            exact ⟨Graph.addEdge_wf _ _ hs.1,
                   fun x hx => Graph.addEdge_nodes_sub _ _ (hs.2 hx)⟩
        · split at h
          -- split then fresh node for the picked recipe
          · split at h
            · simp at h
            next iso _ =>
              rw [add_edge_ok_G _ _ _ _ _ _ h]
              have hs := perform_split_wf st p iso (A.recipe_to_context picked.recipe)
                (curr, p, c) hw
              exact ⟨Graph.addEdge_wf _ _ hs.1,
                     fun x hx => Graph.addEdge_nodes_sub _ _ (hs.2 hx)⟩
          -- keep the current child
          · rw [use_edge_ok_G _ _ _ _ _ _ h]
            exact ⟨hw, fun x hx => hx⟩
      -- reuse = none
      next =>
        split at h
        · split at h
          · simp at h
          next iso _ =>
            rw [add_edge_ok_G _ _ _ _ _ _ h]
            have hs := perform_split_wf st p iso (A.recipe_to_context picked.recipe)
              (curr, p, c) hw
            exact ⟨Graph.addEdge_wf _ _ hs.1,
                   fun x hx => Graph.addEdge_nodes_sub _ _ (hs.2 hx)⟩
        · rw [use_edge_ok_G _ _ _ _ _ _ h]
          exact ⟨hw, fun x hx => hx⟩

/-- `process_deps` preserves graph well-formedness and node growth. -/
theorem process_deps_wf (tr : RecipeId) (A : AlgoCtx) (p : GraphNode) (path : List PEdge) :
    ∀ (ds : List Dependency) (st st' : AlgoState),
      process_deps tr A p path st ds = .ok st' → st.G.wf →
      st'.G.wf ∧ st.G.nodes ⊆ st'.G.nodes := by
  intro ds
  induction ds with
  | nil =>
    intro st st' h hw
    cases h; exact ⟨hw, fun x hx => hx⟩
  | cons d ds ih =>
    intro st st' h hw
    unfold process_deps at h
    split at h
    · simp at h
    next st₁ hsat =>
      have h1 := satisfy_dependency_wf tr A st p d.contract path st₁ hsat hw
      have h2 := ih st₁ st' h h1.1
      exact ⟨h2.1, fun x hx => h2.2 (h1.2 hx)⟩

/-- `runLoop` preserves graph well-formedness and node growth. -/
theorem runLoop_wf (tr : RecipeId) (A : AlgoCtx) :
    ∀ (fuel : ℕ) (st st' : AlgoState),
      runLoop tr A fuel st = .ok (some st') → st.G.wf →
      st'.G.wf ∧ st.G.nodes ⊆ st'.G.nodes := by
  intro fuel
  induction fuel with
  | zero => intro st st' h; simp [runLoop] at h
  | succ f ih =>
    intro st st' h hw
    unfold runLoop at h
    split at h
    · cases h; exact ⟨hw, fun x hx => hx⟩
    all_goals
      dsimp only at h
      split at h
      · split at h
        · simp at h
        · rename_i st₁ hdeps
          have h1 := process_deps_wf tr A _ _ _ _ st₁ hdeps (by exact hw)
          have h2 := ih st₁ st' h h1.1
          exact ⟨h2.1, fun x hx => h2.2 (h1.2 hx)⟩
      · have h2 := ih _ st' h (by exact hw)
        exact h2

/-- Reachability is monotone in the fuel. -/
theorem reachb_mono (g : Graph) :
    ∀ (f f' : ℕ) (u v : GraphNode), f ≤ f' → reachb g f u v = true → reachb g f' u v = true := by
  intro f
  induction f with
  | zero =>
    intro f' u v hf h
    simp [reachb] at h
    cases f' with
    | zero => simp [reachb, h]
    | succ f' => simp [reachb, h]
  | succ f ih =>
    intro f' u v hf h
    cases f' with
    | zero => omega
    | succ f' =>
      simp only [reachb, Bool.or_eq_true, List.any_eq_true, Bool.and_eq_true, decide_eq_true_eq] at h ⊢
      rcases h with h | ⟨e, he, h1, h2⟩
      · exact Or.inl h
      · exact Or.inr ⟨e, he, h1, ih f' _ _ (by omega) h2⟩

/-- A node reaches itself with any fuel. -/
theorem reachb_refl (g : Graph) (f : ℕ) (u : GraphNode) : reachb g f u u = true := by
  cases f with
  | zero => simp [reachb]
  | succ f => simp [reachb]

/-- Every sink of the pruned graph is the pruning target: any other kept node
reaches the target, so its first step survives pruning and gives it an
out-edge. -/
theorem pruneG_sinks_eq_target (g : Graph) (tgt : GraphNode) (hw : g.wf) :
    ∀ s ∈ (pruneG g tgt).sinks, s = tgt := by
  intro s hs
  by_contra hne
  have hs' : s ∈ (pruneG g tgt).nodes ∧ (pruneG g tgt).outDeg s = 0 := by
    unfold Graph.sinks at hs
    exact ⟨List.mem_of_mem_filter hs, by simpa using (List.of_mem_filter hs)⟩
  have hkeep : s ∈ pruneKeep g tgt := hs'.1
  have hsg : s ∈ g.nodes ∧ reachb g g.nodes.length s tgt = true := by
    unfold pruneKeep at hkeep
    exact ⟨List.mem_of_mem_filter hkeep, by simpa using (List.of_mem_filter hkeep)⟩
  have hlen : g.nodes.length ≠ 0 := by
    intro h0
    rw [List.length_eq_zero] at h0
    rw [h0] at hsg
    exact absurd hsg.1 (List.not_mem_nil s)
  obtain ⟨m, hm⟩ : ∃ m, g.nodes.length = m + 1 := ⟨g.nodes.length - 1, by omega⟩
  have hr := hsg.2
  rw [hm] at hr
  simp only [reachb, Bool.or_eq_true, List.any_eq_true, Bool.and_eq_true, decide_eq_true_eq] at hr
  rcases hr with hr | ⟨e, he, h1, h2⟩
  · exact hne hr
  · -- the first edge of the path survives pruning, so `s` has an out-edge
    have hmem2 : e.2.1 ∈ pruneKeep g tgt := by
      unfold pruneKeep
      refine List.mem_filter.mpr ⟨(hw e he).2, ?_⟩
      simpa using reachb_mono g m g.nodes.length e.2.1 tgt (by omega) h2
    have hmem1 : e.1 ∈ pruneKeep g tgt := by rw [h1]; exact hkeep
    have hedge : e ∈ (pruneG g tgt).edges := by
      unfold pruneG
      exact List.mem_filter.mpr ⟨he, by simp [hmem1, hmem2]⟩
    have : (pruneG g tgt).outDeg s ≠ 0 := by
      unfold Graph.outDeg
      intro hd
      rw [List.length_eq_zero] at hd
      have : e ∈ ((pruneG g tgt).edges.filter (fun e' => e'.1 = s)) :=
        List.mem_filter.mpr ⟨hedge, by simp [h1]⟩
      rw [hd] at this
      exact absurd this (List.not_mem_nil e)
    exact this hs'.2

/-- The initial planning state is well formed and contains the target node. -/
theorem initState_wf (tr : RecipeId) : (initState tr).G.wf :=
  fun e he => absurd he (List.not_mem_nil e)

/-- Claim C1: whenever `plan()` succeeds (target selection, planning run,
pruning and the `Plan.__init__` asserts all pass), the returned graph is
acyclic and has exactly one sink, which is the target node — the node running
the selected target recipe. -/
theorem C1_plan_dag_unique_sink (A : AlgoCtx) (tc : Contract) (fuel : ℕ)
    (st : AlgoState) (g : Graph)
    (h : plannerPlan A tc fuel = .ok (some (st, g))) :
    g.isAcyclic = true ∧
      ∃ tr, planTargetRecipe A tc = .ok tr ∧ g.sinks = [targetNode tr] ∧
        (targetNode tr).recipe = tr := by
  unfold plannerPlan at h
  split at h
  · simp at h
  next tr htr =>
    split at h
    · simp at h
    · simp at h
    next st₀ g₀ halgo =>
      split at h
      next hval =>
        injection h with h1
        injection h1 with h2
        cases h2
        unfold algoRun at halgo
        split at halgo
        · simp at halgo
        · simp at halgo
        next st₁ hrun =>
          injection halgo with ha1
          injection ha1 with ha2
          cases ha2
          have hwf := runLoop_wf tr A fuel (initState tr) st hrun (initState_wf tr)
          have hval' : (pruneG st.G (targetNode tr)).isAcyclic = true ∧
              (pruneG st.G (targetNode tr)).sinks.length = 1 := by
            unfold planValidate at hval
            simpa using hval
          refine ⟨hval'.1, tr, htr, ?_, rfl⟩
          have hall := pruneG_sinks_eq_target st.G (targetNode tr) hwf.1
          have hlen1 := hval'.2
          rcases hlist : (pruneG st.G (targetNode tr)).sinks with _ | ⟨x, _ | ⟨y, ys⟩⟩
          · rw [hlist] at hlen1; simp at hlen1
          · rw [hall x (by rw [hlist]; exact List.mem_singleton.mpr rfl)]
          · rw [hlist] at hlen1; simp at hlen1
      · simp at h

/-! ### Concrete registries used as witnesses -/

/-- Decidable equality for `Except`, used to evaluate the embedded planner on
concrete registries inside proofs. -/
instance {ε α : Type} [DecidableEq ε] [DecidableEq α] : DecidableEq (Except ε α) := fun a b =>
  match a, b with
  | .error e, .error e' =>
    if h : e = e' then isTrue (by rw [h]) else isFalse (by intro hc; cases hc; exact h rfl)
  | .ok x, .ok y =>
    if h : x = y then isTrue (by rw [h]) else isFalse (by intro hc; cases hc; exact h rfl)
  | .error _, .ok _ => isFalse (by intro hc; cases hc)
  | .ok _, .error _ => isFalse (by intro hc; cases hc)

/-- Single-chain registry: recipe 0 produces asset 0 from asset 1, recipe 1
produces asset 1 with no dependencies; both with the default empty context. -/
def chainInfo : RecipeId → RecipeDecl := fun r =>
  if r = 0 then ⟨0, [⟨"b", (1, none)⟩]⟩ else ⟨1, []⟩

/-- Contract table of the single-chain registry. -/
def chainCtr : Contract → List RecipeId := fun c =>
  if c = (0, none) then [0] else if c = (1, none) then [1] else []

/-- All recipes registered with the default empty context path. -/
def defaultCtx : RecipeId → CtxSet := fun _ => [[]]

/-- The single-chain registry. -/
def chainA : AlgoCtx := ⟨chainInfo, chainCtr, defaultCtx⟩

/-- The final planning state of the single-chain registry. -/
def chainSt : AlgoState :=
  ⟨⟨[⟨0, 0, [[]]⟩, ⟨1, 1, [[]]⟩], [(⟨1, 1, [[]]⟩, ⟨0, 0, [[]]⟩, (1, none))]⟩, [], 2, 0⟩

/-- The plan graph of the single-chain registry: `R1 → R0`. -/
def chainG : Graph :=
  ⟨[⟨0, 0, [[]]⟩, ⟨1, 1, [[]]⟩], [(⟨1, 1, [[]]⟩, ⟨0, 0, [[]]⟩, (1, none))]⟩

/-- Witness for claim C1: on the single-chain registry the plan succeeds and
the theorem yields acyclicity and the unique target sink. -/
theorem C1_witness :
    plannerPlan chainA (0, none) 10 = .ok (some (chainSt, chainG)) ∧
      (chainG.isAcyclic = true ∧
        ∃ tr, planTargetRecipe chainA (0, none) = .ok tr ∧
          chainG.sinks = [targetNode tr] ∧ (targetNode tr).recipe = tr) :=
  ⟨by with_unfolding_all decide,
   C1_plan_dag_unique_sink chainA (0, none) 10 chainSt chainG (by with_unfolding_all decide)⟩

/-! ### Recipe picking (claim C4) -/

/-- Invariant of the `pick_recipe` loop over the processed prefix: either no
recipe so far had positive fitness (accumulator untouched), or the maximum is
positive, attained, bounds every processed fitness, and `best` is exactly the
set of its achievers in order. -/
def PickInv (fit : RecipeId → ℚ) (processed : List RecipeId) (acc : PickAcc) : Prop :=
  (acc.maxFitness = 0 ∧ acc.best = [] ∧ ∀ r ∈ processed, fit r ≤ 0) ∨
  (0 < acc.maxFitness ∧ acc.best = processed.filter (fun r => fit r = acc.maxFitness) ∧
    (∃ r ∈ processed, fit r = acc.maxFitness) ∧ ∀ r ∈ processed, fit r ≤ acc.maxFitness)

theorem pickStep_inv (fit : RecipeId → ℚ) (processed : List RecipeId) (acc : PickAcc)
    (a : RecipeId) (ha : a ∉ processed) (hI : PickInv fit processed acc) :
    PickInv fit (processed ++ [a]) (pickStep fit acc a) := by
  unfold pickStep
  by_cases h0 : fit a = 0
  · rw [if_pos h0]
    rcases hI with ⟨h1, h2, h3⟩ | ⟨h1, h2, h3, h4⟩
    · exact Or.inl ⟨h1, h2, fun r hr => by
        rcases List.mem_append.mp hr with hr | hr
        · exact h3 r hr
        · rw [List.mem_singleton.mp hr, h0]⟩
    · refine Or.inr ⟨h1, ?_, ?_, ?_⟩
      · rw [List.filter_append, h2]
        simp only [List.filter_cons, List.filter_nil]
        have : ¬(fit a = acc.maxFitness) := by rw [h0]; exact fun hc => absurd hc.symm (ne_of_gt h1)
        simp [this]
      · obtain ⟨r, hr, hf⟩ := h3
        exact ⟨r, List.mem_append_left _ hr, hf⟩
      · intro r hr
        rcases List.mem_append.mp hr with hr | hr
        · exact h4 r hr
        · rw [List.mem_singleton.mp hr, h0]; exact le_of_lt h1
  · rw [if_neg h0]
    by_cases heq : fit a = acc.maxFitness
    · rw [if_pos heq]
      rcases hI with ⟨h1, h2, h3⟩ | ⟨h1, h2, h3, h4⟩
      · exact absurd (heq.trans h1) h0
      · have hnotmem : a ∉ acc.best := by
          rw [h2]
          exact fun hc => ha (List.mem_of_mem_filter hc)
        refine Or.inr ⟨h1, ?_, ?_, ?_⟩
        · simp only [if_neg hnotmem]
          rw [List.filter_append, h2]
          simp only [List.filter_cons, List.filter_nil]
          simp [heq]
        · obtain ⟨r, hr, hf⟩ := h3
          exact ⟨r, List.mem_append_left _ hr, hf⟩
        · intro r hr
          rcases List.mem_append.mp hr with hr | hr
          · exact h4 r hr
          · rw [List.mem_singleton.mp hr]; exact le_of_eq heq
    · rw [if_neg heq]
      by_cases hlt : acc.maxFitness < fit a
      · rw [if_pos hlt]
        rcases hI with ⟨h1, h2, h3⟩ | ⟨h1, h2, h3, h4⟩
        · refine Or.inr ⟨by rw [← h1]; exact hlt, ?_, ?_, ?_⟩
          · show [a] = (processed ++ [a]).filter (fun r => fit r = fit a)
            rw [List.filter_append]
            have hproc : processed.filter (fun r => fit r = fit a) = [] := by
              apply List.filter_eq_nil.mpr
              intro r hr
              simp only [decide_eq_true_eq]
              intro hc
              have := h3 r hr
              rw [hc] at this
              rw [h1] at hlt
              exact absurd (lt_of_lt_of_le hlt this) (lt_irrefl 0)
            rw [hproc]
            simp
          · exact ⟨a, List.mem_append_right _ (List.mem_singleton.mpr rfl), rfl⟩
          · intro r hr
            rcases List.mem_append.mp hr with hr | hr
            · exact le_trans (h3 r hr) (by rw [← h1]; exact le_of_lt hlt)
            · rw [List.mem_singleton.mp hr]
        · refine Or.inr ⟨lt_trans h1 hlt, ?_, ?_, ?_⟩
          · show [a] = (processed ++ [a]).filter (fun r => fit r = fit a)
            rw [List.filter_append]
            have hproc : processed.filter (fun r => fit r = fit a) = [] := by
              apply List.filter_eq_nil.mpr
              intro r hr
              simp only [decide_eq_true_eq]
              intro hc
              have := h4 r hr
              rw [hc] at this
              exact absurd (lt_of_lt_of_le hlt this) (lt_irrefl _)
            rw [hproc]
            simp
          · exact ⟨a, List.mem_append_right _ (List.mem_singleton.mpr rfl), rfl⟩
          · intro r hr
            rcases List.mem_append.mp hr with hr | hr
            · exact le_trans (h4 r hr) (le_of_lt hlt)
            · rw [List.mem_singleton.mp hr]
      · rw [if_neg hlt]
        rcases hI with ⟨h1, h2, h3⟩ | ⟨h1, h2, h3, h4⟩
        · refine Or.inl ⟨h1, h2, ?_⟩
          intro r hr
          rcases List.mem_append.mp hr with hr | hr
          · exact h3 r hr
          · rw [List.mem_singleton.mp hr]
            rw [h1] at hlt
            exact le_of_not_lt hlt
        · refine Or.inr ⟨h1, ?_, ?_, ?_⟩
          · rw [List.filter_append, h2]
            simp only [List.filter_cons, List.filter_nil]
            simp [heq]
          · obtain ⟨r, hr, hf⟩ := h3
            exact ⟨r, List.mem_append_left _ hr, hf⟩
          · intro r hr
            rcases List.mem_append.mp hr with hr | hr
            · exact h4 r hr
            · rw [List.mem_singleton.mp hr]
              exact le_of_not_lt hlt

theorem pickFold_inv (fit : RecipeId → ℚ) :
    ∀ (l processed : List RecipeId) (acc : PickAcc),
      (processed ++ l).Nodup → PickInv fit processed acc →
      PickInv fit (processed ++ l) (l.foldl (pickStep fit) acc) := by
  intro l
  induction l with
  | nil => intro processed acc _ hI; simpa using hI
  | cons a l ih =>
    intro processed acc hnd hI
    have ha : a ∉ processed := by
      intro hc
      have hd := List.disjoint_of_nodup_append hnd
      exact (hd hc) (List.mem_cons_self a l)
    have hstep := pickStep_inv fit processed acc a ha hI
    have hnd' : ((processed ++ [a]) ++ l).Nodup := by
      simpa using hnd
    have := ih (processed ++ [a]) (pickStep fit acc a) hnd' hstep
    simpa using this

/-- Two distinct members exist in a nodup list of length at least two. -/
theorem nodup_two_mem {l : List RecipeId} (hnd : l.Nodup) (hlen : 2 ≤ l.length) :
    ∃ x ∈ l, ∃ y ∈ l, x ≠ y := by
  match l, hnd, hlen with
  | x :: y :: rest, hnd, _ =>
    refine ⟨x, List.mem_cons_self x _, y, List.mem_cons_of_mem x (List.mem_cons_self y rest), ?_⟩
    intro hc
    rw [hc] at hnd
    exact (List.nodup_cons.mp hnd).1 (List.mem_cons_self y rest)

/-- Claim C4: `pick_recipe` keeps exactly the registered recipes of strictly
maximal positive fitness on the path. No candidate with positive fitness (or
no registration at all, modelled by the empty candidate list) yields `none`,
which `satisfy_dependency` turns into the MissingRecipe error; a tie at the
positive maximum raises the AmbiguousRecipe error, which `satisfy_dependency`
propagates; otherwise the unique maximizer is returned with its fitness. -/
theorem C4_pick_recipe_selection (tr : RecipeId) (A : AlgoCtx) (contract : Contract)
    (path : List PEdge) (hnd : (A.contract_to_recipes contract).Nodup) :
    (pick_recipe tr A contract path = .error .ambiguousRecipe ↔
      ∃ f : ℚ, 0 < f ∧
        2 ≤ ((A.contract_to_recipes contract).filter
              (fun r => compute_fitness tr A (A.recipe_to_context r) path = f)).length ∧
        ∀ r ∈ A.contract_to_recipes contract,
          compute_fitness tr A (A.recipe_to_context r) path ≤ f) ∧
    (pick_recipe tr A contract path = .ok none ↔
      ∀ r ∈ A.contract_to_recipes contract,
        compute_fitness tr A (A.recipe_to_context r) path ≤ 0) ∧
    (∀ (r : RecipeId) (f : ℚ), pick_recipe tr A contract path = .ok (some ⟨r, f⟩) ↔
      (r ∈ A.contract_to_recipes contract ∧
       compute_fitness tr A (A.recipe_to_context r) path = f ∧ 0 < f ∧
       (∀ r' ∈ A.contract_to_recipes contract,
          compute_fitness tr A (A.recipe_to_context r') path ≤ f) ∧
       (∀ r' ∈ A.contract_to_recipes contract,
          compute_fitness tr A (A.recipe_to_context r') path = f → r' = r))) ∧
    (∀ (st : AlgoState) (p : GraphNode), pick_recipe tr A contract path = .ok none →
      satisfy_dependency tr A st p contract path = .error .missingRecipe) ∧
    (∀ (st : AlgoState) (p : GraphNode), pick_recipe tr A contract path = .error .ambiguousRecipe →
      satisfy_dependency tr A st p contract path = .error .ambiguousRecipe) := by
  have hInv : PickInv (fun r => compute_fitness tr A (A.recipe_to_context r) path)
      (A.contract_to_recipes contract)
      ((A.contract_to_recipes contract).foldl
        (pickStep (fun r => compute_fitness tr A (A.recipe_to_context r) path)) ⟨0, []⟩) := by
    have := pickFold_inv (fun r => compute_fitness tr A (A.recipe_to_context r) path)
      (A.contract_to_recipes contract) [] ⟨0, []⟩ (by simpa using hnd)
      (Or.inl ⟨rfl, rfl, by simp⟩)
    simpa using this
  unfold PickInv at hInv
  beta_reduce at hInv
  refine ⟨?_, ?_, ?_, ?_, ?_⟩ <;> try intro st p hp
  case _ =>
    -- ambiguous characterization
    constructor
    · intro h
      unfold pick_recipe at h
      dsimp only at h
      split at h
      next hlen =>
        rcases hInv with ⟨h1, h2, h3⟩ | ⟨h1, h2, h3, h4⟩
        · rw [h2] at hlen; simp at hlen
        · exact ⟨_, h1, by rw [← h2]; omega, h4⟩
      next => split at h <;> simp at h
    · rintro ⟨f, hf, hlen, hbound⟩
      rcases hInv with ⟨h1, h2, h3⟩ | ⟨h1, h2, h3, h4⟩
      · obtain ⟨x, hx, y, hy, hxy⟩ := nodup_two_mem (hnd.filter _) hlen
        have := h3 x (List.mem_of_mem_filter hx)
        have hfx : compute_fitness tr A (A.recipe_to_context x) path = f := by
          simpa using List.of_mem_filter hx
        rw [hfx] at this
        exact absurd (lt_of_lt_of_le hf this) (lt_irrefl 0)
      · -- f equals the attained maximum
        obtain ⟨rm, hrm, hrmf⟩ := h3
        have hfm : f = ((A.contract_to_recipes contract).foldl
            (pickStep (fun r => compute_fitness tr A (A.recipe_to_context r) path)) ⟨0, []⟩).maxFitness := by
          obtain ⟨x, hx, y, hy, hxy⟩ := nodup_two_mem (hnd.filter _) hlen
          have hfx : compute_fitness tr A (A.recipe_to_context x) path = f := by
            simpa using List.of_mem_filter hx
          have hle1 : f ≤ _ := hfx ▸ h4 x (List.mem_of_mem_filter hx)
          have hle2 := hrmf ▸ hbound rm hrm
          exact le_antisymm hle1 hle2
        unfold pick_recipe
        dsimp only
        rw [if_pos (by rw [h2, ← hfm]; omega)]
  case _ =>
    -- missing characterization
    constructor
    · intro h
      unfold pick_recipe at h
      dsimp only at h
      split at h
      · simp at h
      next hlen =>
        rcases hInv with ⟨h1, h2, h3⟩ | ⟨h1, h2, h3, h4⟩
        · exact h3
        · obtain ⟨rm, hrm, hrmf⟩ := h3
          split at h
          next hb =>
            have : rm ∈ ((A.contract_to_recipes contract).filter
                (fun r => compute_fitness tr A (A.recipe_to_context r) path =
                  ((A.contract_to_recipes contract).foldl
                    (pickStep (fun r => compute_fitness tr A (A.recipe_to_context r) path)) ⟨0, []⟩).maxFitness)) :=
              List.mem_filter.mpr ⟨hrm, by simpa using hrmf⟩
            rw [← h2, hb] at this
            exact absurd this (List.not_mem_nil rm)
          next => simp at h
    · intro hall
      rcases hInv with ⟨h1, h2, h3⟩ | ⟨h1, h2, h3, h4⟩
      · unfold pick_recipe
        dsimp only
        rw [h2]
        simp
      · obtain ⟨rm, hrm, hrmf⟩ := h3
        have := hall rm hrm
        rw [hrmf] at this
        exact absurd (lt_of_lt_of_le h1 this) (lt_irrefl _)
  case _ =>
    intro r f
    constructor
    · intro h
      unfold pick_recipe at h
      dsimp only at h
      split at h
      · simp at h
      next hlen =>
        rcases hInv with ⟨h1, h2, h3⟩ | ⟨h1, h2, h3, h4⟩
        · rw [h2] at h; simp at h
        · obtain ⟨rm, hrm, hrmf⟩ := h3
          have hmem : rm ∈ ((A.contract_to_recipes contract).filter
              (fun r' => compute_fitness tr A (A.recipe_to_context r') path =
                ((A.contract_to_recipes contract).foldl
                  (pickStep (fun r' => compute_fitness tr A (A.recipe_to_context r') path)) ⟨0, []⟩).maxFitness)) :=
            List.mem_filter.mpr ⟨hrm, by simpa using hrmf⟩
          split at h
          next hb => rw [← h2, hb] at hmem; exact absurd hmem (List.not_mem_nil rm)
          next b rest hb =>
            -- best = b :: rest with length ≤ 1, so rest = [] and the result is b
            injection h with h'
            injection h' with h''
            have hrest : rest = [] := by
              rw [hb] at hlen
              simp at hlen
              first
              | exact hlen
              | exact List.length_eq_zero.mp (by omega)
            have hbmem : b ∈ ((A.contract_to_recipes contract).filter
                (fun r' => compute_fitness tr A (A.recipe_to_context r') path =
                  ((A.contract_to_recipes contract).foldl
                    (pickStep (fun r' => compute_fitness tr A (A.recipe_to_context r') path)) ⟨0, []⟩).maxFitness)) := by
              rw [← h2, hb]; exact List.mem_cons_self b rest
            have hbr : b = r ∧ ((A.contract_to_recipes contract).foldl
                (pickStep (fun r' => compute_fitness tr A (A.recipe_to_context r') path)) ⟨0, []⟩).maxFitness = f := by
              have := congrArg RecipePick.recipe h''
              have h2' := congrArg RecipePick.fitness h''
              exact ⟨this, h2'⟩
            obtain ⟨rfl, hmf⟩ := hbr
            refine ⟨List.mem_of_mem_filter hbmem, ?_, hmf ▸ h1, fun r' hr' => hmf ▸ h4 r' hr', ?_⟩
            · have := List.of_mem_filter hbmem
              simpa [hmf] using this
            · intro r' hr' hf'
              have : r' ∈ ((A.contract_to_recipes contract).filter
                  (fun r'' => compute_fitness tr A (A.recipe_to_context r'') path =
                    ((A.contract_to_recipes contract).foldl
                      (pickStep (fun r'' => compute_fitness tr A (A.recipe_to_context r'') path)) ⟨0, []⟩).maxFitness)) :=
                List.mem_filter.mpr ⟨hr', by simp [hf', hmf]⟩
              rw [← h2, hb, hrest] at this
              simpa using this
    · rintro ⟨hr, hrf, hf, hbound, huniq⟩
      rcases hInv with ⟨h1, h2, h3⟩ | ⟨h1, h2, h3, h4⟩
      · have := h3 r hr
        rw [hrf] at this
        exact absurd (lt_of_lt_of_le hf this) (lt_irrefl 0)
      · obtain ⟨rm, hrm, hrmf⟩ := h3
        have hfm : ((A.contract_to_recipes contract).foldl
            (pickStep (fun r' => compute_fitness tr A (A.recipe_to_context r') path)) ⟨0, []⟩).maxFitness = f := by
          have hle1 : f ≤ _ := hrf ▸ h4 r hr
          have hle2 := hrmf ▸ hbound rm hrm
          exact le_antisymm hle2 hle1
        have hfilter : ((A.contract_to_recipes contract).filter
            (fun r' => compute_fitness tr A (A.recipe_to_context r') path =
              ((A.contract_to_recipes contract).foldl
                (pickStep (fun r' => compute_fitness tr A (A.recipe_to_context r') path)) ⟨0, []⟩).maxFitness)) = [r] := by
          rw [hfm]
          have hmem : r ∈ (A.contract_to_recipes contract).filter
              (fun r' => compute_fitness tr A (A.recipe_to_context r') path = f) :=
            List.mem_filter.mpr ⟨hr, by simpa using hrf⟩
          have hall : ∀ x ∈ (A.contract_to_recipes contract).filter
              (fun r' => compute_fitness tr A (A.recipe_to_context r') path = f), x = r := by
            intro x hx
            exact huniq x (List.mem_of_mem_filter hx) (by simpa using List.of_mem_filter hx)
          have hndf := hnd.filter (fun r' => decide (compute_fitness tr A (A.recipe_to_context r') path = f))
          rcases hlist : (A.contract_to_recipes contract).filter
              (fun r' => compute_fitness tr A (A.recipe_to_context r') path = f) with _ | ⟨x, _ | ⟨y, ys⟩⟩
          · rw [hlist] at hmem; exact absurd hmem (List.not_mem_nil r)
          · rw [hall x (by rw [hlist]; exact List.mem_cons_self x [])]
          · exfalso
            rw [hlist] at hndf hall
            have hx := hall x (List.mem_cons_self x _)
            have hy := hall y (List.mem_cons_of_mem x (List.mem_cons_self y ys))
            have hxy : x = y := hx.trans hy.symm
            rw [hxy] at hndf
            exact (List.nodup_cons.mp hndf).1 (List.mem_cons_self y ys)
        unfold pick_recipe
        dsimp only
        rw [if_neg (by rw [h2, hfilter]; simp)]
        rw [h2, hfilter, hfm]
  case _ =>
    unfold satisfy_dependency
    rw [hp]
  case _ =>
    unfold satisfy_dependency
    rw [hp]

/-- Witness for claim C4: on the single-chain registry, an unregistered
contract makes `pick_recipe` return no candidate and `satisfy_dependency`
fail with the MissingRecipe error, as the selection theorem states. -/
theorem C4_witness :
    (chainA.contract_to_recipes (9, none)).Nodup ∧
      satisfy_dependency 0 chainA (initState 0) (targetNode 0) (9, none) [] =
        .error .missingRecipe :=
  ⟨by decide,
   (C4_pick_recipe_selection 0 chainA (9, none) [] (by decide)).2.2.2.1
     (initState 0) (targetNode 0) (by with_unfolding_all decide)⟩

/-! ### Path classification in the isolating-edge computation (claim C3) -/

/-- The classification loop marks a path matching exactly when the candidate
context's fitness on it is positive and strictly above the current child's
(`if _fitness > 0 and _fitness > _curr_fitness` in the source); membership in
the accumulated matching set is pointwise. -/
theorem classify_matching_iff (tr : RecipeId) (A : AlgoCtx) (currCtx ctx : CtxSet) :
    ∀ (paths : List (List PEdge)) (acc : IsoAcc) (p : List PEdge),
      p ∈ (paths.foldl (classifyStep tr A currCtx ctx) acc).matching ↔
        p ∈ acc.matching ∨
          (p ∈ paths ∧ 0 < compute_fitness tr A ctx p ∧
            compute_fitness tr A currCtx p < compute_fitness tr A ctx p) := by
  intro paths
  induction paths with
  | nil => intro acc p; simp
  | cons q paths ih =>
    intro acc p
    rw [List.foldl_cons, ih]
    have hstep : (classifyStep tr A currCtx ctx acc q).matching =
        if 0 < compute_fitness tr A ctx q ∧
            compute_fitness tr A currCtx q < compute_fitness tr A ctx q then
          acc.matching ++ [q]
        else acc.matching := by
      unfold classifyStep
      split
      next hc => rw [if_pos hc]
      next hc => rw [if_neg hc]
    rw [hstep]
    split
    next hc =>
      simp only [List.mem_append, List.mem_singleton, List.mem_cons, List.not_mem_nil, or_false]
      constructor
      · rintro ((h | rfl) | h)
        · exact Or.inl h
        · exact Or.inr ⟨Or.inl rfl, hc⟩
        · exact Or.inr ⟨Or.inr h.1, h.2⟩
      · rintro (h | ⟨(rfl | h), hcond⟩)
        · exact Or.inl (Or.inl h)
        · exact Or.inl (Or.inr rfl)
        · exact Or.inr ⟨h, hcond⟩
    next hc =>
      simp only [List.mem_cons]
      constructor
      · rintro (h | h)
        · exact Or.inl h
        · exact Or.inr ⟨Or.inr h.1, h.2⟩
      · rintro (h | ⟨(rfl | h), hcond⟩)
        · exact Or.inl h
        · exact absurd hcond hc
        · exact Or.inr ⟨h, hcond⟩

/-- The concrete path used to refute claim C3 as stated. -/
def c3Path : List PEdge := [(⟨1, 1, [[]]⟩, ⟨0, 0, [[]]⟩, (1, none))]

/-- A current-child context that matches the path not at all (fitness 0). -/
def c3CurrCtx : CtxSet := [[(9, none)]]

/-- A candidate context set containing the empty path (tiny positive fitness). -/
def c3CandCtx : CtxSet := [[]]

/-- Counterexample to claim C3 as stated: in the isolating-edge
classification, this simple path is classified as matching by the code,
although `fitness(candidate) > fitness(currentChild) > 0` fails — the current
child's fitness on the path is 0. The source condition is
`fitness > 0 and fitness > curr_fitness`, not the chained comparison. -/
theorem C3_counterexample :
    c3Path ∈ ((allSimpleEdgePaths chainG ⟨1, 1, [[]]⟩ (targetNode 0)).foldl
        (classifyStep 0 chainA c3CurrCtx c3CandCtx) ⟨[], [], []⟩).matching ∧
      ¬(compute_fitness 0 chainA c3CandCtx c3Path > compute_fitness 0 chainA c3CurrCtx c3Path ∧
        compute_fitness 0 chainA c3CurrCtx c3Path > 0) := by
  constructor
  · with_unfolding_all decide
  · with_unfolding_all decide

/-- Claim C3 (amended): during isolating-edge computation, a simple edge path
from the parent to the sink is classified as matching iff the candidate
context's fitness on it is positive and strictly greater than the current
child's fitness — with no requirement that the current child's fitness be
positive. -/
theorem C3_matching_classification (tr : RecipeId) (A : AlgoCtx) (g : Graph)
    (parent curr_child : GraphNode) (ctx : CtxSet) (p : List PEdge) :
    p ∈ ((allSimpleEdgePaths g parent (targetNode tr)).foldl
        (classifyStep tr A curr_child.context ctx) ⟨[], [], []⟩).matching ↔
      (p ∈ allSimpleEdgePaths g parent (targetNode tr) ∧
        0 < compute_fitness tr A ctx p ∧
        compute_fitness tr A curr_child.context p < compute_fitness tr A ctx p) := by
  rw [classify_matching_iff]
  simp

/-! ### Registry registration (`plan/planner.py`, claim C9) -/

/-- Registry state of `Planner` (insertion-ordered dicts). -/
structure PlannerSt where
  contract_to_recipes : List (Contract × List RecipeId)
  recipe_to_context : List (RecipeId × CtxSet)
deriving DecidableEq, Repr

/-- Ordered-dict lookup. -/
def alistFind {β : Type} (l : List (Contract × β)) (k : Contract) : Option β :=
  (l.find? (fun x => x.1 = k)).map Prod.snd

/-- `self.contract_to_recipes[contract].add(recipe)` with `setdefault`-style
creation, preserving dict insertion order. -/
def registerContract : List (Contract × List RecipeId) → Contract → RecipeId →
    List (Contract × List RecipeId)
  | [], c, r => [(c, [r])]
  | (c', rs) :: rest, c, r =>
    if c' = c then (c', if r ∈ rs then rs else rs ++ [r]) :: rest
    else (c', rs) :: registerContract rest c r

/-- `self.recipe_to_context[recipe] |= context_paths` with `setdefault`-style
creation. -/
def registerContext : List (RecipeId × CtxSet) → RecipeId → CtxSet →
    List (RecipeId × CtxSet)
  | [], r, cps => [(r, cps)]
  | (r', cs) :: rest, r, cps =>
    if r' = r then (r', cs ++ cps.filter (fun cp => cp ∉ cs)) :: rest
    else (r', cs) :: registerContext rest r cps

/-- The registration part of `Planner._add` (planner.py lines 108-117): the
recipe is registered under the contract `(recipe._makes, key)` and its
context-path set is extended. The resolution of the context spec into
`context_paths` (`resolve_contract_def` plus the sequence fallback) is
orthogonal to this claim and is taken as an input. -/
def planner_add1 (rinfo : RecipeId → RecipeDecl) (st : PlannerSt) (recipe : RecipeId)
    (key : Option String) (context_paths : CtxSet) : PlannerSt :=
  { contract_to_recipes := registerContract st.contract_to_recipes ((rinfo recipe).makes, key) recipe
    recipe_to_context := registerContext st.recipe_to_context recipe context_paths }

/-- Python truthiness of `key or r[1]` in `Planner.add`: the member key is
used exactly when the outer key is falsy (`None` or the empty string). -/
def pyOrKey (key memberKey : Option String) : Option String :=
  match key with
  | none => memberKey
  | some s => if s = "" then memberKey else some s

/-- `Planner.add` on a `RecipeBundle` (planner.py lines 88-90): each
`(recipe, key)` member is registered individually with `key=key or r[1]`. -/
def planner_add_bundle (rinfo : RecipeId → RecipeDecl) (st : PlannerSt)
    (bundle : List (RecipeId × Option String)) (key : Option String)
    (context_paths : CtxSet) : PlannerSt :=
  bundle.foldl (fun st rk => planner_add1 rinfo st rk.1 (pyOrKey key rk.2) context_paths) st

/-- Registering a recipe makes it a member of its contract's recipe set. -/
theorem registerContract_mem_self :
    ∀ (m : List (Contract × List RecipeId)) (c : Contract) (r : RecipeId),
      r ∈ (alistFind (registerContract m c r) c).getD [] := by
  intro m
  induction m with
  | nil =>
    intro c r
    simp [registerContract, alistFind]
  | cons e rest ih =>
    intro c r
    obtain ⟨c₀, rs⟩ := e
    unfold registerContract
    by_cases hc : c₀ = c
    · rw [if_pos hc]
      unfold alistFind
      rw [List.find?_cons_of_pos _ (by simpa using hc)]
      dsimp only [Option.map, Option.getD]
      split
      next h => exact h
      next h => exact List.mem_append_right _ (List.mem_singleton.mpr rfl)
    · rw [if_neg hc]
      unfold alistFind
      rw [List.find?_cons_of_neg _ (by simpa using hc)]
      exact ih c r

/-- Registration preserves every earlier membership. -/
theorem registerContract_preserve :
    ∀ (m : List (Contract × List RecipeId)) (c : Contract) (r : RecipeId)
      (c' : Contract) (x : RecipeId),
      x ∈ (alistFind m c').getD [] → x ∈ (alistFind (registerContract m c r) c').getD [] := by
  intro m
  induction m with
  | nil => intro c r c' x hx; simp [alistFind] at hx
  | cons e rest ih =>
    intro c r c' x hx
    obtain ⟨c₀, rs⟩ := e
    unfold registerContract
    by_cases hc : c₀ = c
    · rw [if_pos hc]
      by_cases hc' : c₀ = c'
      · unfold alistFind at hx ⊢
        rw [List.find?_cons_of_pos _ (by simpa using hc')] at hx ⊢
        dsimp only [Option.map, Option.getD] at hx ⊢
        split
        next => exact hx
        next => exact List.mem_append_left _ hx
      · unfold alistFind at hx ⊢
        rw [List.find?_cons_of_neg _ (by simpa using hc')] at hx ⊢
        exact hx
    · rw [if_neg hc]
      by_cases hc' : c₀ = c'
      · unfold alistFind at hx ⊢
        rw [List.find?_cons_of_pos _ (by simpa using hc')] at hx ⊢
        exact hx
      · unfold alistFind at hx ⊢
        rw [List.find?_cons_of_neg _ (by simpa using hc')] at hx ⊢
        exact ih c r c' x hx

/-- Memberships survive the whole bundle fold. -/
theorem planner_add_bundle_preserve (rinfo : RecipeId → RecipeDecl) :
    ∀ (bundle : List (RecipeId × Option String)) (st : PlannerSt) (key : Option String)
      (cps : CtxSet) (c : Contract) (x : RecipeId),
      x ∈ (alistFind st.contract_to_recipes c).getD [] →
      x ∈ (alistFind (planner_add_bundle rinfo st bundle key cps).contract_to_recipes c).getD [] := by
  intro bundle
  induction bundle with
  | nil => intro st key cps c x hx; exact hx
  | cons rk rest ih =>
    intro st key cps c x hx
    exact ih _ key cps c x (registerContract_preserve _ _ _ c x hx)

/-- Claim C9 (amended): `add()` on a `RecipeBundle` registers every member
individually, under the contract `(member._makes, key or memberKey)` — the
outer `key` argument overrides a member's own key whenever the outer key is
truthy (not `None` and not the empty string); a member's own key is used only
when the outer key is falsy. -/
theorem C9_bundle_registration (rinfo : RecipeId → RecipeDecl) (st : PlannerSt)
    (bundle : List (RecipeId × Option String)) (key : Option String) (cps : CtxSet) :
    ∀ rk ∈ bundle,
      rk.1 ∈ (alistFind (planner_add_bundle rinfo st bundle key cps).contract_to_recipes
        ((rinfo rk.1).makes, pyOrKey key rk.2)).getD [] := by
  induction bundle generalizing st with
  | nil => intro rk hrk; exact absurd hrk (List.not_mem_nil rk)
  | cons rk₀ rest ih =>
    intro rk hrk
    rcases List.mem_cons.mp hrk with rfl | hrk'
    · exact planner_add_bundle_preserve rinfo rest _ key cps _ rk.1
        (registerContract_mem_self _ _ _)
    · exact ih _ rk hrk'

/-- Recipe table for the C9 witnesses: every recipe produces asset 7. -/
def c9Info : RecipeId → RecipeDecl := fun _ => ⟨7, []⟩

/-- Counterexample to claim C9 as stated: registering the bundle member
`(recipe 5, key "a")` with outer key `"b"` registers it under `(7, "b")` and
NOT under `(7, "a")` — the outer key overrides the member's own non-None key
(`key=key or r[1]` in `Planner.add`), contrary to the claim that a member
whose own key is not None keeps its own key. -/
theorem C9_counterexample :
    alistFind (planner_add_bundle c9Info ⟨[], []⟩ [(5, some "a")] (some "b") [[]]).contract_to_recipes
        (7, some "a") = none ∧
      alistFind (planner_add_bundle c9Info ⟨[], []⟩ [(5, some "a")] (some "b") [[]]).contract_to_recipes
        (7, some "b") = some [5] := by
  constructor
  · decide
  · decide

/-- Witness for claim C9 at a concrete input: the member is registered under
the effective key computed by the Python truthiness rule. -/
theorem C9_witness :
    ((5 : RecipeId), (some "a" : Option String)) ∈ [((5 : RecipeId), (some "a" : Option String))] ∧
      (5 : RecipeId) ∈ (alistFind (planner_add_bundle c9Info ⟨[], []⟩ [(5, some "a")]
        (some "b") [[]]).contract_to_recipes (7, pyOrKey (some "b") (some "a"))).getD [] :=
  ⟨by decide,
   C9_bundle_registration c9Info ⟨[], []⟩ [(5, some "a")] (some "b") [[]]
     (5, some "a") (by decide)⟩

/-! ### Plan executor (`plan/execution.py`) -/

/-- Observable executor events: a node's `make()` completing, and an
`AssetRecord` release (`rec._cleanup`). -/
inductive Ev
  | build (n : GraphNode)
  | release (n : GraphNode)
deriving DecidableEq, Repr

/-- The executor's inputs: the plan graph, the topological sequence computed
by `Plan.run`, and the behaviour of the user-supplied `make()` and release
hooks (an error id for a raising call, `none` for success). -/
structure ExecEnv where
  g : Graph
  seq : List GraphNode
  buildErr : GraphNode → Option ℕ
  releaseErr : GraphNode → Option ℕ

/-- `self.target = self.seq[-1]` (total via a dummy for the empty sequence,
which the Python code never runs). -/
def ExecEnv.target (env : ExecEnv) : GraphNode := (env.seq.getLast?).getD ⟨0, 0, []⟩

/-- Executor state: `node_to_asset` (keys, insertion order), `remaining_uses`,
`_cleanup_errors`, and the event trace. -/
structure ExecSt where
  held : List GraphNode
  remaining : List (GraphNode × ℕ)
  errors : List ℕ
  trace : List Ev
deriving DecidableEq, Repr

/-- `remaining_uses[n]` lookup. -/
def remGet (m : List (GraphNode × ℕ)) (n : GraphNode) : ℕ :=
  ((m.find? (fun x => x.1 = n)).map Prod.snd).getD 0

/-- `remaining_uses[u] -= 1`. -/
def remDec (m : List (GraphNode × ℕ)) (n : GraphNode) : List (GraphNode × ℕ) :=
  m.map (fun x => if x.1 = n then (x.1, x.2 - 1) else x)

/-- `rec = node_to_asset.pop(n, None); if rec is not None: rec._cleanup(...)`
with error collection (`execution.py` lines 90-100 and 112-123). -/
def releaseRec (env : ExecEnv) (st : ExecSt) (n : GraphNode) : ExecSt :=
  if n ∈ st.held then
    { st with
      held := st.held.filter (fun m => m ≠ n)
      trace := st.trace ++ [.release n]
      errors := st.errors ++ (match env.releaseErr n with | some e => [e] | none => []) }
  else st

/-- The in-edge bookkeeping after building `n` (`execution.py` lines 84-100):
decrement each producer's remaining uses and, in eager mode, release a
producer that reaches zero and is not the target. -/
def processIncoming (env : ExecEnv) (defer : Bool) (n : GraphNode) (st : ExecSt) : ExecSt :=
  (env.g.inEdges n).foldl
    (fun st e =>
      let st' := { st with remaining := remDec st.remaining e.1 }
      if !defer && decide (remGet st'.remaining e.1 = 0) && decide (e.1 ≠ env.target) then
        releaseRec env st' e.1
      else st')
    st

/-- The `for node in self.seq` loop of `run`: build each node (a failing
`make()` aborts with the wrapped error and the state at that point),
then process its in-edges. -/
def runExecGo (env : ExecEnv) (defer : Bool) : List GraphNode → ExecSt → Except (ℕ × ExecSt) ExecSt
  | [], st => .ok st
  | n :: rest, st =>
    match env.buildErr n with
    | some e => .error (e, st)
    | none =>
      runExecGo env defer rest
        (processIncoming env defer n
          { st with held := st.held ++ [n], trace := st.trace ++ [.build n] })

/-- `PlanExecution.run` with `remaining_uses` initialised to out-degrees. -/
def runExec (env : ExecEnv) (defer : Bool) : Except (ℕ × ExecSt) ExecSt :=
  runExecGo env defer env.seq ⟨[], env.seq.map (fun n => (n, env.g.outDeg n)), [], []⟩

/-- `PlanExecution._cleanup`: release the surviving records in reverse
sequence order, collecting failures. -/
def cleanupExec (env : ExecEnv) (st : ExecSt) : ExecSt :=
  env.seq.reverse.foldl (releaseRec env) st

/-- What propagates out of the `Plan.run` scope. -/
inductive RunOutcome
  | success
  | buildFailed (e : ℕ)
  | cleanupFailed (errs : List ℕ)
deriving DecidableEq, Repr

/-- `PlanExecution.__enter__/__exit__` around `run` (`execution.py` lines
55-66 plus the `ExceptionGroup` raise in `_cleanup`): cleanup always runs; a
cleanup exception is swallowed when a build error is in flight (the original
error propagates), and is raised as the aggregate only on a normal run. -/
def scopedRun (env : ExecEnv) (defer : Bool) : RunOutcome × List Ev :=
  match runExec env defer with
  | .error (e, st) => (.buildFailed e, (cleanupExec env st).trace)
  | .ok st =>
    if (cleanupExec env st).errors = [] then (.success, (cleanupExec env st).trace)
    else (.cleanupFailed (cleanupExec env st).errors, (cleanupExec env st).trace)

/-- `Plan.run`: runs the execution with `PlanExecution`'s defaults — in
particular `defer_cleanup = False` (eager); `Plan.run` itself accepts no
cleanup option. -/
def planRun (env : ExecEnv) : RunOutcome × List Ev := scopedRun env false

/-- Claim C6: a build error propagates out of the run scope even when
releases fail during cleanup; the aggregate cleanup error is raised out of
the scope only when the run itself exited normally. -/
theorem C6_error_propagation (env : ExecEnv) (defer : Bool) :
    (∀ e st, runExec env defer = .error (e, st) →
      (scopedRun env defer).1 = .buildFailed e ∧
        (scopedRun env defer).2 = (cleanupExec env st).trace) ∧
    (∀ st, runExec env defer = .ok st → (cleanupExec env st).errors ≠ [] →
      (scopedRun env defer).1 = .cleanupFailed (cleanupExec env st).errors) ∧
    (∀ st, runExec env defer = .ok st → (cleanupExec env st).errors = [] →
      (scopedRun env defer).1 = .success) := by
  refine ⟨?_, ?_, ?_⟩
  · intro e st h
    unfold scopedRun
    rw [h]
    exact ⟨rfl, rfl⟩
  · intro st h hne
    unfold scopedRun
    rw [h]
    simp only [if_neg hne]
  · intro st h he
    unfold scopedRun
    rw [h]
    simp only [if_pos he]

/-- Releasing preserves distinctness of held records and only removes. -/
theorem releaseRec_held (env : ExecEnv) (st : ExecSt) (n : GraphNode) :
    (st.held.Nodup → (releaseRec env st n).held.Nodup) ∧
      (∀ x ∈ (releaseRec env st n).held, x ∈ st.held) := by
  unfold releaseRec
  split
  · exact ⟨fun h => h.filter _, fun x hx => List.mem_of_mem_filter hx⟩
  · exact ⟨fun h => h, fun x hx => hx⟩

/-- The in-edge bookkeeping preserves distinctness of held records and only
removes. -/
theorem processIncoming_held (env : ExecEnv) (defer : Bool) (n : GraphNode) :
    ∀ (es : List PEdge) (st : ExecSt),
      st.held.Nodup →
      ((es.foldl
          (fun st e =>
            let st' := { st with remaining := remDec st.remaining e.1 }
            if !defer && decide (remGet st'.remaining e.1 = 0) && decide (e.1 ≠ env.target) then
              releaseRec env st' e.1
            else st')
          st).held.Nodup ∧
        ∀ x ∈ (es.foldl
          (fun st e =>
            let st' := { st with remaining := remDec st.remaining e.1 }
            if !defer && decide (remGet st'.remaining e.1 = 0) && decide (e.1 ≠ env.target) then
              releaseRec env st' e.1
            else st')
          st).held, x ∈ st.held) := by
  intro es
  induction es with
  | nil => intro st h; exact ⟨h, fun x hx => hx⟩
  | cons e es ih =>
    intro st h
    simp only [List.foldl_cons]
    set st₁ := { st with remaining := remDec st.remaining e.1 } with hst₁
    have hheld₁ : st₁.held = st.held := rfl
    split
    · have h1 := releaseRec_held env st₁ e.1
      have h2 := ih (releaseRec env st₁ e.1) (h1.1 (hheld₁ ▸ h))
      exact ⟨h2.1, fun x hx => hheld₁ ▸ h1.2 x (h2.2 x hx)⟩
    · have h2 := ih st₁ (hheld₁ ▸ h)
      exact ⟨h2.1, fun x hx => hheld₁ ▸ h2.2 x hx⟩

/-- Held records after a successful run are distinct and drawn from the
sequence. -/
theorem runExecGo_held (env : ExecEnv) (defer : Bool) :
    ∀ (l : List GraphNode) (st st' : ExecSt),
      runExecGo env defer l st = .ok st' →
      st.held.Nodup → (∀ n ∈ st.held, n ∈ env.seq) →
      (∀ n ∈ l, n ∈ env.seq) → (∀ n ∈ l, n ∉ st.held) → l.Nodup →
      st'.held.Nodup ∧ ∀ n ∈ st'.held, n ∈ env.seq := by
  intro l
  induction l with
  | nil =>
    intro st st' h h1 h2 _ _ _
    cases h
    exact ⟨h1, h2⟩
  | cons n rest ih =>
    intro st st' h h1 h2 h3 h4 h5
    unfold runExecGo at h
    split at h
    · simp at h
    · set st₁ : ExecSt :=
        { st with held := st.held ++ [n], trace := st.trace ++ [.build n] } with hst₁
      have hnd₁ : st₁.held.Nodup := by
        simp only [hst₁, List.nodup_append]
        refine ⟨h1, List.nodup_singleton n, ?_⟩
        intro x hx
        simp only [List.mem_singleton]
        intro hc
        exact (h4 n (List.mem_cons_self n rest)) (hc ▸ hx)
      have hp := processIncoming_held env defer n (env.g.inEdges n) st₁ hnd₁
      refine ih _ st' h hp.1 ?_ (fun m hm => h3 m (List.mem_cons_of_mem n hm)) ?_ (List.nodup_cons.mp h5).2
      · intro m hm
        have := hp.2 m hm
        rcases List.mem_append.mp this with hm' | hm'
        · exact h2 m hm'
        · rw [List.mem_singleton.mp hm']
          exact h3 n (List.mem_cons_self n rest)
      · intro m hm hmem
        have := hp.2 m hmem
        rcases List.mem_append.mp this with hm' | hm'
        · exact h4 m (List.mem_cons_of_mem n hm) hm'
        · rw [List.mem_singleton.mp hm'] at hm
          exact (List.nodup_cons.mp h5).1 hm

/-- The cleanup fold releases, in order, exactly the held records it meets. -/
theorem release_fold_trace (env : ExecEnv) :
    ∀ (L : List GraphNode) (st : ExecSt), st.held.Nodup → L.Nodup →
      (L.foldl (releaseRec env) st).trace =
          st.trace ++ (L.filter (fun n => n ∈ st.held)).map Ev.release ∧
        (L.foldl (releaseRec env) st).held = st.held.filter (fun n => n ∉ L) := by
  intro L
  induction L with
  | nil =>
    intro st h1 h2
    constructor
    · simp
    · simp
  | cons a rest ih =>
    intro st h1 h2
    simp only [List.foldl_cons]
    have hanotin : a ∉ rest := (List.nodup_cons.mp h2).1
    by_cases ha : a ∈ st.held
    · have hrel : releaseRec env st a =
          { st with
              held := st.held.filter (fun m => m ≠ a),
              trace := st.trace ++ [.release a],
              errors := st.errors ++ (match env.releaseErr a with | some e => [e] | none => []) } := by
        unfold releaseRec
        rw [if_pos ha]
      rw [hrel]
      obtain ⟨iht, ihh⟩ := ih
        { st with
            held := st.held.filter (fun m => m ≠ a),
            trace := st.trace ++ [.release a],
            errors := st.errors ++ (match env.releaseErr a with | some e => [e] | none => []) }
        (h1.filter _) (List.nodup_cons.mp h2).2
      have hfeq : rest.filter (fun n => n ∈ st.held.filter (fun m => m ≠ a)) =
          rest.filter (fun n => n ∈ st.held) := by
        apply List.filter_congr
        intro x hx
        have hxa : x ≠ a := fun hc => hanotin (hc ▸ hx)
        simp [List.mem_filter, hxa]
      constructor
      · rw [iht]
        dsimp only
        rw [hfeq]
        simp [List.filter_cons, ha]
      · rw [ihh]
        dsimp only
        rw [List.filter_filter]
        apply List.filter_congr
        intro x hx
        by_cases hxa : x = a
        · simp [hxa, ha]
        · simp [hxa]
    · have hrel : releaseRec env st a = st := by
        unfold releaseRec
        rw [if_neg ha]
      rw [hrel]
      obtain ⟨iht, ihh⟩ := ih st h1 (List.nodup_cons.mp h2).2
      constructor
      · rw [iht]
        simp [List.filter_cons, ha]
      · rw [ihh]
        apply List.filter_congr
        intro x hx
        by_cases hxa : x = a
        · rw [hxa] at hx
          exact absurd hx ha
        · simp [hxa]

/-- Claim C7: on normal exit, every surviving `AssetRecord` is released, and
the releases happen in reverse order of the build sequence (the reverse
topological order computed by `Plan.run`). -/
theorem C7_reverse_release (env : ExecEnv) (defer : Bool) (st : ExecSt)
    (hrun : runExec env defer = .ok st) (hnd : env.seq.Nodup) :
    (cleanupExec env st).trace =
        st.trace ++ (env.seq.reverse.filter (fun n => n ∈ st.held)).map Ev.release ∧
      (cleanupExec env st).held = [] := by
  have hheld := runExecGo_held env defer env.seq
    ⟨[], env.seq.map (fun n => (n, env.g.outDeg n)), [], []⟩ st hrun
    (by simp) (by simp) (fun n hn => hn) (by simp) hnd
  obtain ⟨ht, hh⟩ := release_fold_trace env env.seq.reverse st hheld.1 (by simpa using hnd)
  refine ⟨ht, ?_⟩
  unfold cleanupExec
  rw [hh]
  apply List.filter_eq_nil.mpr
  intro n hn
  simp only [decide_eq_true_eq, List.mem_reverse]
  intro hc
  exact hc (hheld.2 n hn)

/-- Producer node of the two-node executor environments. -/
def execA : GraphNode := ⟨1, 1, [[]]⟩

/-- Target node of the two-node executor environments. -/
def execB : GraphNode := ⟨0, 0, [[]]⟩

/-- Executor environment where the target's `make()` raises error 7 and every
release raises error 9. -/
def envFail : ExecEnv :=
  ⟨chainG, [execA, execB], fun n => if n = execB then some 7 else none, fun _ => some 9⟩

/-- The executor state at the moment the build of the target fails. -/
def stFail : ExecSt := ⟨[execA], [(execA, 1), (execB, 0)], [], [.build execA]⟩

/-- Witness for claim C6: the build error 7 propagates out of the scope even
though the cleanup release of the surviving record also fails (error 9). -/
theorem C6_witness :
    runExec envFail false = .error (7, stFail) ∧
      (scopedRun envFail false).1 = .buildFailed 7 :=
  ⟨by with_unfolding_all decide,
   ((C6_error_propagation envFail false).1 7 stFail (by with_unfolding_all decide)).1⟩

/-- Executor environment with no failures, run in deferred-cleanup mode. -/
def envOk : ExecEnv := ⟨chainG, [execA, execB], fun _ => none, fun _ => none⟩

/-- The final run state of `envOk` in deferred mode: both records survive. -/
def stOk : ExecSt :=
  ⟨[execA, execB], [(execA, 0), (execB, 0)], [], [.build execA, .build execB]⟩

/-- Witness for claim C7: on the two-node chain, cleanup releases both
surviving records in reverse build order. -/
theorem C7_witness :
    runExec envOk true = .ok stOk ∧
      ((cleanupExec envOk stOk).trace =
          stOk.trace ++ (envOk.seq.reverse.filter (fun n => n ∈ stOk.held)).map Ev.release ∧
        (cleanupExec envOk stOk).held = []) :=
  ⟨by with_unfolding_all decide,
   C7_reverse_release envOk true stOk (by with_unfolding_all decide) (by decide)⟩

/-! ### Eager-release characterization (claim C5) -/

/-- Event `a` occurs strictly before event `b` in the trace. -/
def evBefore (t : List Ev) (a b : Ev) : Prop :=
  ∃ t₁ t₂ t₃, t = t₁ ++ a :: t₂ ++ b :: t₃

theorem evBefore_append (t s : List Ev) (a b : Ev) (h : evBefore t a b) :
    evBefore (t ++ s) a b := by
  obtain ⟨t₁, t₂, t₃, rfl⟩ := h
  exact ⟨t₁, t₂, t₃ ++ s, by simp⟩

theorem evBefore_snoc_of_mem (t : List Ev) (a b : Ev) (h : a ∈ t) :
    evBefore (t ++ [b]) a b := by
  obtain ⟨s₁, s₂, rfl⟩ := List.append_of_mem h
  exact ⟨s₁, s₂, [], by simp⟩

/-- Length of a filter by a disjunction of disjoint predicates. -/
theorem length_filter_or_disjoint {α : Type} (p q : α → Bool) :
    ∀ (l : List α), (∀ x ∈ l, ¬(p x = true ∧ q x = true)) →
      (l.filter (fun x => p x || q x)).length = (l.filter p).length + (l.filter q).length := by
  intro l
  induction l with
  | nil => intro h; simp
  | cons a l ih =>
    intro h
    have hrest := ih (fun x hx => h x (List.mem_cons_of_mem a hx))
    have hha := h a (List.mem_cons_self a l)
    simp only [List.filter_cons]
    cases hp : p a <;> cases hq : q a <;> simp_all <;> omega

/-- A list that two decompositions split at the same (unique) element is
split identically. -/
theorem nodup_split_eq {α : Type} : ∀ (A C : List α) (x : α) (B D : List α),
    A ++ x :: B = C ++ x :: D → x ∉ A → x ∉ C → A = C ∧ B = D := by
  intro A
  induction A with
  | nil =>
    intro C x B D h hA hC
    match C, h with
    | [], h => exact ⟨rfl, by simpa using h⟩
    | c :: C', h =>
      injection h with h1 h2
      exact absurd (h1 ▸ List.mem_cons_self c C' : x ∈ c :: C') (h1 ▸ hC)
  | cons a A' ih =>
    intro C x B D h hA hC
    match C, h with
    | [], h =>
      injection h with h1 _
      exact absurd (List.mem_cons_self a A') (h1 ▸ hA)
    | c :: C', h =>
      injection h with h1 h2
      have := ih C' x B D h2 (fun hc => hA (List.mem_cons_of_mem a hc))
        (fun hc => hC (List.mem_cons_of_mem c hc))
      exact ⟨by rw [h1, this.1], this.2⟩

/-- Count of `u`'s out-edges whose consumer lies in `P`. -/
def countFrom (env : ExecEnv) (P : List GraphNode) (u : GraphNode) : ℕ :=
  (env.g.edges.filter (fun e => e.1 = u && decide (e.2.1 ∈ P))).length
theorem remGet_map (f : GraphNode → ℕ) :
    ∀ (l : List GraphNode), ∀ u ∈ l, remGet (l.map (fun n => (n, f n))) u = f u := by
  intro l
  induction l with
  | nil => intro u hu; exact absurd hu (List.not_mem_nil u)
  | cons a l ih =>
    intro u hu
    simp only [List.map_cons]
    unfold remGet
    by_cases hau : a = u
    · rw [List.find?_cons_of_pos _ (by simpa using hau)]
      simp [hau]
    · rw [List.find?_cons_of_neg _ (by simpa using hau)]
      rcases List.mem_cons.mp hu with h | h
      · exact absurd h.symm hau
      · exact ih u h

/-- The final run state of `envOk` in eager (default) mode: the producer
`execA` is released during the run, right after its consumer builds. -/
def stEag : ExecSt :=
  ⟨[execB], [(execA, 0), (execB, 0)], [], [.build execA, .build execB, .release execA]⟩

/-- Counterexample for claim C5: `Plan.run` takes no cleanup argument — it is
`scopedRun · false` by definition, always eager. On the two-node chain the
parameterless `Plan.run` produces the eager trace (the producer is released
during the run), which differs from the deferred trace; no call of `Plan.run`
can defer the releases. -/
theorem C5_counterexample :
    planRun envOk = scopedRun envOk false ∧
      (planRun envOk).2 =
        [.build execA, .build execB, .release execA, .release execB] ∧
      (scopedRun envOk true).2 =
        [.build execA, .build execB, .release execB, .release execA] ∧
      (planRun envOk).2 ≠ (scopedRun envOk true).2 := by
  refine ⟨rfl, ?_, ?_, ?_⟩ <;> with_unfolding_all decide

theorem processIncoming_defer_aux (env : ExecEnv) :
    ∀ (E : List PEdge) (st : ExecSt),
      ((E.foldl
        (fun st e =>
          let st' := { st with remaining := remDec st.remaining e.1 }
          if !true && decide (remGet st'.remaining e.1 = 0) && decide (e.1 ≠ env.target) then
            releaseRec env st' e.1
          else st')
        st).trace = st.trace ∧
       (E.foldl
        (fun st e =>
          let st' := { st with remaining := remDec st.remaining e.1 }
          if !true && decide (remGet st'.remaining e.1 = 0) && decide (e.1 ≠ env.target) then
            releaseRec env st' e.1
          else st')
        st).held = st.held) := by
  intro E
  induction E with
  | nil => intro st; exact ⟨rfl, rfl⟩
  | cons e E ih =>
    intro st
    simp only [List.foldl_cons, Bool.not_true, Bool.false_and, Bool.and_eq_true,
      if_neg (by simp : ¬(false && decide (e.1 ≠ env.target) = true))]
    exact ih _

theorem processIncoming_defer (env : ExecEnv) (n : GraphNode) (st : ExecSt) :
    (processIncoming env true n st).trace = st.trace ∧
      (processIncoming env true n st).held = st.held := by
  unfold processIncoming
  exact processIncoming_defer_aux env (env.g.inEdges n) st

theorem runExecGo_defer_trace (env : ExecEnv) :
    ∀ (l : List GraphNode) (st st' : ExecSt),
      runExecGo env true l st = .ok st' →
      ∃ bs : List GraphNode, st'.trace = st.trace ++ bs.map Ev.build := by
  intro l
  induction l with
  | nil =>
    intro st st' h
    injection h with h
    exact ⟨[], by simp [← h]⟩
  | cons n rest ih =>
    intro st st' h
    unfold runExecGo at h
    cases hb : env.buildErr n with
    | some e => rw [hb] at h; exact absurd h (by simp)
    | none =>
      rw [hb] at h
      obtain ⟨bs, hbs⟩ := ih _ _ h
      refine ⟨n :: bs, ?_⟩
      rw [hbs, (processIncoming_defer env n _).1]
      simp


/-- The preconditions `Plan.run` establishes before `PlanExecution.run`:
`seq` is a duplicate-free topological order of the (duplicate-free) edge
list — every edge's producer appears strictly before its consumer. -/
def ExecWF (env : ExecEnv) : Prop :=
  env.seq.Nodup ∧ env.g.edges.Nodup ∧
    ∀ e ∈ env.g.edges, ∃ P₁ P₂ P₃, env.seq = P₁ ++ e.1 :: P₂ ++ e.2.1 :: P₃

theorem remDec_keys (m : List (GraphNode × ℕ)) (n : GraphNode) :
    (remDec m n).map Prod.fst = m.map Prod.fst := by
  unfold remDec
  rw [List.map_map]
  apply List.map_congr_left
  intro x _
  by_cases h : x.1 = n <;> simp [h]

theorem remGet_remDec_self (m : List (GraphNode × ℕ)) (n : GraphNode) :
    remGet (remDec m n) n = remGet m n - 1 := by
  induction m with
  | nil => rfl
  | cons x m ih =>
    unfold remDec remGet
    by_cases h : x.1 = n
    · simp only [List.map_cons, if_pos h]
      rw [List.find?_cons_of_pos _ (by simpa using h), List.find?_cons_of_pos _ (by simpa using h)]
      simp
    · simp only [List.map_cons, if_neg h]
      rw [List.find?_cons_of_neg _ (by simpa using h), List.find?_cons_of_neg _ (by simpa using h)]
      exact ih

theorem remGet_remDec_other (m : List (GraphNode × ℕ)) (n u : GraphNode) (hne : u ≠ n) :
    remGet (remDec m n) u = remGet m u := by
  induction m with
  | nil => rfl
  | cons x m ih =>
    unfold remDec remGet
    by_cases h : x.1 = n
    · simp only [List.map_cons, if_pos h]
      rw [List.find?_cons_of_neg _ (by simp [h]; exact fun he => hne he.symm),
        List.find?_cons_of_neg _ (by simp [h]; exact fun he => hne he.symm)]
      exact ih
    · simp only [List.map_cons, if_neg h]
      by_cases hxu : x.1 = u
      · rw [List.find?_cons_of_pos _ (by simpa using hxu),
          List.find?_cons_of_pos _ (by simpa using hxu)]
      · rw [List.find?_cons_of_neg _ (by simpa using hxu),
          List.find?_cons_of_neg _ (by simpa using hxu)]
        exact ih

/-- Number of in-edge entries of the current fold prefix produced by `u`. -/
def MidCount (F : List PEdge) (u : GraphNode) : ℕ :=
  (F.filter (fun e => e.1 = u)).length

theorem MidCount_append (F G : List PEdge) (u : GraphNode) :
    MidCount (F ++ G) u = MidCount F u + MidCount G u := by
  unfold MidCount
  rw [List.filter_append, List.length_append]

theorem MidCount_single_self (e : PEdge) (u : GraphNode) (h : e.1 = u) :
    MidCount [e] u = 1 := by
  unfold MidCount
  simp [h]

theorem MidCount_single_other (e : PEdge) (u : GraphNode) (h : e.1 ≠ u) :
    MidCount [e] u = 0 := by
  unfold MidCount
  simp [h]

theorem nodup_split_not_mem {α : Type} (l A B : List α) (x : α)
    (h : l = A ++ x :: B) (hnd : l.Nodup) : x ∉ A ∧ x ∉ B := by
  subst h
  rw [List.nodup_append] at hnd
  obtain ⟨_, hx, hdisj⟩ := hnd
  exact ⟨fun hA => hdisj hA (List.mem_cons_self x B), (List.nodup_cons.mp hx).1⟩

/-- In a topologically ordered run, every in-edge of the node currently being
built has its producer among the already-built nodes. -/
theorem producer_in_processed (env : ExecEnv) (hwf : ExecWF env)
    (processed pending : List GraphNode) (n : GraphNode)
    (hseq : env.seq = processed ++ n :: pending)
    (e : PEdge) (he : e ∈ env.g.edges) (hcons : e.2.1 = n) : e.1 ∈ processed := by
  obtain ⟨hnd, _, htopo⟩ := hwf
  obtain ⟨P₁, P₂, P₃, hdec⟩ := htopo e he
  rw [hcons] at hdec
  have hdec' : env.seq = (P₁ ++ e.1 :: P₂) ++ n :: P₃ := by
    simp [hdec]
  have h1 := nodup_split_not_mem env.seq (P₁ ++ e.1 :: P₂) P₃ n hdec' hnd
  have h2 := nodup_split_not_mem env.seq processed pending n hseq hnd
  have := nodup_split_eq (P₁ ++ e.1 :: P₂) processed n P₃ pending
    (hdec' ▸ hseq) h1.1 h2.1
  rw [← this.1]
  simp

/-- Conversely, an out-edge of the node currently being built has its consumer
strictly later in the sequence: not yet built, and not the node itself. -/
theorem consumer_not_processed (env : ExecEnv) (hwf : ExecWF env)
    (processed pending : List GraphNode) (n : GraphNode)
    (hseq : env.seq = processed ++ n :: pending)
    (e : PEdge) (he : e ∈ env.g.edges) (hsrc : e.1 = n) :
    e.2.1 ∉ processed ∧ e.2.1 ≠ n := by
  obtain ⟨hnd, _, htopo⟩ := hwf
  obtain ⟨P₁, P₂, P₃, hdec⟩ := htopo e he
  rw [hsrc] at hdec
  have hdec' : env.seq = P₁ ++ n :: (P₂ ++ e.2.1 :: P₃) := by
    simp [hdec]
  have h1 := nodup_split_not_mem env.seq P₁ (P₂ ++ e.2.1 :: P₃) n hdec' hnd
  have h2 := nodup_split_not_mem env.seq processed pending n hseq hnd
  have heq := nodup_split_eq P₁ processed n (P₂ ++ e.2.1 :: P₃) pending
    (hdec' ▸ hseq) h1.1 h2.1
  have hvpend : e.2.1 ∈ pending := by
    rw [← heq.2]; simp
  constructor
  · intro hvproc
    have : env.seq.Nodup := hnd
    rw [hseq, List.nodup_append] at this
    exact this.2.2 hvproc (List.mem_cons_of_mem n hvpend)
  · intro hvn
    exact h2.2 (hvn ▸ hvpend)

theorem edge_endpoints_in_seq (env : ExecEnv) (hwf : ExecWF env)
    (e : PEdge) (he : e ∈ env.g.edges) : e.1 ∈ env.seq ∧ e.2.1 ∈ env.seq := by
  obtain ⟨P₁, P₂, P₃, hdec⟩ := hwf.2.2 e he
  rw [hdec]
  constructor <;> simp

theorem countFrom_nil (env : ExecEnv) (u : GraphNode) : countFrom env [] u = 0 := by
  unfold countFrom
  simp

theorem countFrom_eq (env : ExecEnv) (P : List GraphNode) (u : GraphNode) :
    countFrom env P u =
      ((env.g.edges.filter (fun e => decide (e.1 = u))).filter
        (fun e => decide (e.2.1 ∈ P))).length := by
  conv_rhs => rw [List.filter_filter]
  unfold countFrom
  congr 1
  apply List.filter_congr
  intro x _
  exact Bool.and_comm _ _

theorem MidCount_le (env : ExecEnv) (F : List PEdge) (n : GraphNode)
    (hF : F.Sublist (env.g.inEdges n)) (u : GraphNode) :
    MidCount F u ≤
      ((env.g.edges.filter (fun e => decide (e.1 = u))).filter
        (fun e => decide (e.2.1 = n))).length := by
  unfold MidCount
  have h1 := (hF.filter (fun e => decide (e.1 = u))).length_le
  refine le_trans h1 (le_of_eq ?_)
  unfold Graph.inEdges
  congr 1
  exact List.filter_comm _ _ _

theorem count_bound (env : ExecEnv) (P : List GraphNode) (n : GraphNode) (hnP : n ∉ P)
    (F : List PEdge) (hF : F.Sublist (env.g.inEdges n)) (u : GraphNode) :
    countFrom env P u + MidCount F u ≤ env.g.outDeg u := by
  rw [countFrom_eq env P u]
  have hm := MidCount_le env F n hF u
  have hsum := length_filter_or_disjoint (fun e : PEdge => decide (e.2.1 ∈ P))
    (fun e : PEdge => decide (e.2.1 = n))
    (env.g.edges.filter (fun e => decide (e.1 = u)))
    (by
      intro x hx h
      have ha : x.2.1 ∈ P := of_decide_eq_true h.1
      have hb : x.2.1 = n := of_decide_eq_true h.2
      exact hnP (hb ▸ ha))
  beta_reduce at hsum
  have hle := List.length_filter_le
    (fun e : PEdge => decide (e.2.1 ∈ P) || decide (e.2.1 = n))
    (env.g.edges.filter (fun e => decide (e.1 = u)))
  have hout : env.g.outDeg u =
      (env.g.edges.filter (fun e => decide (e.1 = u))).length := rfl
  omega

theorem count_saturated (env : ExecEnv) (P : List GraphNode) (n : GraphNode) (hnP : n ∉ P)
    (F : List PEdge) (hF : F.Sublist (env.g.inEdges n)) (u : GraphNode)
    (hsum : countFrom env P u + MidCount F u = env.g.outDeg u) :
    ∀ e ∈ env.g.edges, e.1 = u → (e.2.1 ∈ P ∨ e.2.1 = n) := by
  have hc := countFrom_eq env P u
  have hm := MidCount_le env F n hF u
  have hor := length_filter_or_disjoint (fun e : PEdge => decide (e.2.1 ∈ P))
    (fun e : PEdge => decide (e.2.1 = n))
    (env.g.edges.filter (fun e => decide (e.1 = u)))
    (by
      intro x hx h
      have ha : x.2.1 ∈ P := of_decide_eq_true h.1
      have hb : x.2.1 = n := of_decide_eq_true h.2
      exact hnP (hb ▸ ha))
  beta_reduce at hor
  have hout : env.g.outDeg u =
      (env.g.edges.filter (fun e => decide (e.1 = u))).length := rfl
  have hfull :
      (env.g.edges.filter (fun e => decide (e.1 = u))).filter
        (fun e => decide (e.2.1 ∈ P) || decide (e.2.1 = n)) =
      env.g.edges.filter (fun e => decide (e.1 = u)) := by
    apply (List.filter_sublist _).eq_of_length_le
    omega
  intro e he heu
  have heS : e ∈ env.g.edges.filter (fun e => decide (e.1 = u)) :=
    List.mem_filter.mpr ⟨he, by simp [heu]⟩
  have hr := List.filter_eq_self.mp hfull e heS
  simp only [Bool.or_eq_true, decide_eq_true_eq] at hr
  exact hr

theorem countFrom_append_node (env : ExecEnv) (P : List GraphNode) (n : GraphNode)
    (hnP : n ∉ P) (u : GraphNode) :
    countFrom env (P ++ [n]) u = countFrom env P u + MidCount (env.g.inEdges n) u := by
  unfold countFrom
  have h1 : ∀ x ∈ env.g.edges,
      (decide (x.1 = u) && decide (x.2.1 ∈ P ++ [n]))
        = ((fun e : PEdge => decide (e.1 = u) && decide (e.2.1 ∈ P)) x
            || (fun e : PEdge => decide (e.1 = u) && decide (e.2.1 = n)) x) := by
    intro x _
    by_cases ha : x.1 = u <;> by_cases hb : x.2.1 ∈ P <;> by_cases hc : x.2.1 = n <;>
      simp [ha, hb, hc]
  have hdisj : ∀ x ∈ env.g.edges,
      ¬((fun e : PEdge => decide (e.1 = u) && decide (e.2.1 ∈ P)) x = true ∧
        (fun e : PEdge => decide (e.1 = u) && decide (e.2.1 = n)) x = true) := by
    intro x hx h
    simp only [Bool.and_eq_true, decide_eq_true_eq] at h
    exact hnP (h.2.2 ▸ h.1.2)
  have h2 : MidCount (env.g.inEdges n) u =
      (env.g.edges.filter
        (fun e : PEdge => decide (e.1 = u) && decide (e.2.1 = n))).length := by
    unfold MidCount Graph.inEdges
    rw [List.filter_filter]
  rw [List.filter_congr h1, length_filter_or_disjoint _ _ _ hdisj, h2]

theorem countFrom_full (env : ExecEnv) (hwf : ExecWF env) (u : GraphNode) :
    countFrom env env.seq u = env.g.outDeg u := by
  unfold countFrom Graph.outDeg
  congr 1
  apply List.filter_congr
  intro x hx
  have h := (edge_endpoints_in_seq env hwf x hx).2
  simp [h]

theorem mem_snoc_build_build (t : List Ev) (n u : GraphNode) :
    (Ev.build u ∈ t ++ [Ev.build n]) ↔ (Ev.build u ∈ t ∨ u = n) := by
  simp

theorem mem_snoc_build_release (t : List Ev) (n u : GraphNode) :
    (Ev.release u ∈ t ++ [Ev.build n]) ↔ Ev.release u ∈ t := by
  simp

theorem mem_snoc_release_build (t : List Ev) (n u : GraphNode) :
    (Ev.build u ∈ t ++ [Ev.release n]) ↔ Ev.build u ∈ t := by
  simp

theorem mem_snoc_release_release (t : List Ev) (n u : GraphNode) :
    (Ev.release u ∈ t ++ [Ev.release n]) ↔ (Ev.release u ∈ t ∨ u = n) := by
  simp

/-- Between-builds invariant of the eager run: `processed` nodes are built, a
node's record is released exactly when it is a fully consumed non-target
producer, the held records are the built-but-unreleased ones, the remaining-use
counters track not-yet-built consumers, and every release follows all of its
consumers' builds. -/
def EagerInv (env : ExecEnv) (processed : List GraphNode) (st : ExecSt) : Prop :=
  st.remaining.map Prod.fst = env.seq ∧
  (∀ u ∈ env.seq, remGet st.remaining u = env.g.outDeg u - countFrom env processed u) ∧
  (∀ u, Ev.build u ∈ st.trace ↔ u ∈ processed) ∧
  (∀ u, Ev.release u ∈ st.trace ↔
    (u ≠ env.target ∧ 0 < env.g.outDeg u ∧ u ∈ processed ∧
      countFrom env processed u = env.g.outDeg u)) ∧
  (∀ u, u ∈ st.held ↔ (u ∈ processed ∧ Ev.release u ∉ st.trace)) ∧
  (∀ u v c, (u, v, c) ∈ env.g.edges → Ev.release u ∈ st.trace →
    evBefore st.trace (Ev.build v) (Ev.release u))

/-- The same invariant in the middle of `process-incoming` for node `n`, with
`F` the prefix of `n`'s in-edges already folded over. -/
def MidInv (env : ExecEnv) (processed : List GraphNode) (n : GraphNode)
    (F : List PEdge) (st : ExecSt) : Prop :=
  st.remaining.map Prod.fst = env.seq ∧
  (∀ u ∈ env.seq, remGet st.remaining u =
      env.g.outDeg u - (countFrom env processed u + MidCount F u)) ∧
  (∀ u, Ev.build u ∈ st.trace ↔ (u ∈ processed ∨ u = n)) ∧
  (∀ u, Ev.release u ∈ st.trace ↔
    (u ≠ env.target ∧ 0 < env.g.outDeg u ∧ u ∈ processed ∧
      countFrom env processed u + MidCount F u = env.g.outDeg u)) ∧
  (∀ u, u ∈ st.held ↔ ((u ∈ processed ∨ u = n) ∧ Ev.release u ∉ st.trace)) ∧
  (∀ u v c, (u, v, c) ∈ env.g.edges → Ev.release u ∈ st.trace →
    evBefore st.trace (Ev.build v) (Ev.release u))

theorem midStep_one (env : ExecEnv) (hwf : ExecWF env)
    (processed pending : List GraphNode) (n : GraphNode)
    (hseq : env.seq = processed ++ n :: pending)
    (F G : List PEdge) (e : PEdge) (hFe : env.g.inEdges n = F ++ e :: G)
    (st : ExecSt) (hinv : MidInv env processed n F st) :
    MidInv env processed n (F ++ [e])
      (if decide (remGet (remDec st.remaining e.1) e.1 = 0) && decide (e.1 ≠ env.target) then
        releaseRec env { st with remaining := remDec st.remaining e.1 } e.1
      else { st with remaining := remDec st.remaining e.1 }) := by
  obtain ⟨hkeys, hrem, hbld, hrel, hheld, hord⟩ := hinv
  have hnP : n ∉ processed := (nodup_split_not_mem env.seq processed pending n hseq hwf.1).1
  have heIn : e ∈ env.g.inEdges n := by rw [hFe]; simp
  have heE : e ∈ env.g.edges := (List.mem_filter.mp heIn).1
  have hecons : e.2.1 = n := by
    have := (List.mem_filter.mp heIn).2
    simpa using this
  have hu0proc : e.1 ∈ processed :=
    producer_in_processed env hwf processed pending n hseq e heE hecons
  have hu0seq : e.1 ∈ env.seq := by
    rw [hseq]; exact List.mem_append_left _ hu0proc
  have hFsub : (F ++ [e]).Sublist (env.g.inEdges n) := by
    rw [hFe]
    exact ((List.nil_sublist G).cons₂ e).append_left F
  have hbound : countFrom env processed e.1 + MidCount (F ++ [e]) e.1 ≤ env.g.outDeg e.1 :=
    count_bound env processed n hnP (F ++ [e]) hFsub e.1
  have hMCself : MidCount (F ++ [e]) e.1 = MidCount F e.1 + 1 := by
    rw [MidCount_append, MidCount_single_self e e.1 rfl]
  have hMCoth : ∀ u, u ≠ e.1 → MidCount (F ++ [e]) u = MidCount F u := by
    intro u hu
    rw [MidCount_append, MidCount_single_other e u (fun h => hu h.symm)]
    omega
  have hkeys' : (remDec st.remaining e.1).map Prod.fst = env.seq := by
    rw [remDec_keys]; exact hkeys
  have hrem' : ∀ u ∈ env.seq, remGet (remDec st.remaining e.1) u =
      env.g.outDeg u - (countFrom env processed u + MidCount (F ++ [e]) u) := by
    intro u hu
    by_cases hue : u = e.1
    · subst hue
      rw [remGet_remDec_self, hrem e.1 hu, hMCself]
      omega
    · rw [remGet_remDec_other _ _ _ hue, hrem u hu, hMCoth u hue]
  have hnotrel : Ev.release e.1 ∉ st.trace := by
    intro hmem
    have := (hrel e.1).mp hmem
    omega
  by_cases hc : (decide (remGet (remDec st.remaining e.1) e.1 = 0)
      && decide (e.1 ≠ env.target)) = true
  · rw [if_pos hc]
    simp only [Bool.and_eq_true, decide_eq_true_eq] at hc
    obtain ⟨hzero, htgt⟩ := hc
    have hsat : countFrom env processed e.1 + MidCount (F ++ [e]) e.1 = env.g.outDeg e.1 := by
      rw [hrem' e.1 hu0seq] at hzero
      omega
    have hcover := count_saturated env processed n hnP (F ++ [e]) hFsub e.1 hsat
    have hheldu : e.1 ∈ st.held := (hheld e.1).mpr ⟨Or.inl hu0proc, hnotrel⟩
    unfold releaseRec
    rw [if_pos (by exact hheldu : e.1 ∈ ({ st with remaining := remDec st.remaining e.1 } : ExecSt).held)]
    refine ⟨hkeys', hrem', ?_, ?_, ?_, ?_⟩
    · intro u
      rw [mem_snoc_release_build]
      exact hbld u
    · intro u
      rw [mem_snoc_release_release]
      by_cases hue : u = e.1
      · subst hue
        constructor
        · intro _
          exact ⟨htgt, by omega, hu0proc, hsat⟩
        · intro _
          exact Or.inr rfl
      · constructor
        · intro h
          rcases h with h | h
          · have := (hrel u).mp h
            rw [hMCoth u hue]
            exact this
          · exact absurd h hue
        · intro h
          rw [hMCoth u hue] at h
          exact Or.inl ((hrel u).mpr h)
    · intro u
      simp only [List.mem_filter, decide_eq_true_eq]
      rw [mem_snoc_release_release]
      constructor
      · intro ⟨hu, hune⟩
        have := (hheld u).mp hu
        exact ⟨this.1, fun hr => (by
          rcases hr with hr | hr
          · exact this.2 hr
          · exact hune hr)⟩
      · intro ⟨hu, hnr⟩
        have hune : u ≠ e.1 := fun h => hnr (Or.inr h)
        exact ⟨(hheld u).mpr ⟨hu, fun hr => hnr (Or.inl hr)⟩, hune⟩
    · intro u v c hedge hr
      rw [mem_snoc_release_release] at hr
      rcases hr with hr | hr
      · exact evBefore_append _ _ _ _ (hord u v c hedge hr)
      · subst hr
        have hvn := hcover (e.1, v, c) hedge rfl
        have hbv : Ev.build v ∈ st.trace := by
          rcases hvn with h | h
          · exact (hbld v).mpr (Or.inl h)
          · exact (hbld v).mpr (Or.inr h)
        exact evBefore_snoc_of_mem _ _ _ hbv
  · rw [if_neg hc]
    simp only [Bool.and_eq_true, decide_eq_true_eq, not_and_or] at hc
    refine ⟨hkeys', hrem', hbld, ?_, hheld, hord⟩
    intro u
    by_cases hue : u = e.1
    · subst hue
      constructor
      · intro h
        have hold := (hrel e.1).mp h
        omega
      · intro h
        rcases hc with hc | hc
        · rw [hrem' e.1 hu0seq] at hc
          omega
        · rw [not_not] at hc
          exact absurd hc h.1
    · rw [hMCoth u hue]
      exact hrel u

theorem MidCount_nil (u : GraphNode) : MidCount [] u = 0 := rfl

theorem midFold (env : ExecEnv) (hwf : ExecWF env)
    (processed pending : List GraphNode) (n : GraphNode)
    (hseq : env.seq = processed ++ n :: pending) :
    ∀ (E F : List PEdge), env.g.inEdges n = F ++ E →
      ∀ st : ExecSt, MidInv env processed n F st →
      MidInv env processed n (F ++ E)
        (E.foldl
          (fun (st : ExecSt) (e : PEdge) =>
            if decide (remGet (remDec st.remaining e.1) e.1 = 0)
                && decide (e.1 ≠ env.target) then
              releaseRec env { st with remaining := remDec st.remaining e.1 } e.1
            else { st with remaining := remDec st.remaining e.1 })
          st) := by
  intro E
  induction E with
  | nil =>
    intro F hF st hinv
    rw [List.foldl_nil, List.append_nil]
    exact hinv
  | cons e E ih =>
    intro F hF st hinv
    rw [List.foldl_cons, show F ++ e :: E = (F ++ [e]) ++ E by simp]
    exact ih (F ++ [e]) (by rw [hF]; simp) _
      (midStep_one env hwf processed pending n hseq F E e hF st hinv)

theorem processIncoming_eager_eq (env : ExecEnv) (n : GraphNode) (st : ExecSt) :
    processIncoming env false n st =
      (env.g.inEdges n).foldl
        (fun (st : ExecSt) (e : PEdge) =>
          if decide (remGet (remDec st.remaining e.1) e.1 = 0)
              && decide (e.1 ≠ env.target) then
            releaseRec env { st with remaining := remDec st.remaining e.1 } e.1
          else { st with remaining := remDec st.remaining e.1 })
        st := by
  unfold processIncoming
  congr 1

theorem buildAppend_mid (env : ExecEnv) (hwf : ExecWF env)
    (processed pending : List GraphNode) (n : GraphNode)
    (hseq : env.seq = processed ++ n :: pending)
    (st : ExecSt) (hinv : EagerInv env processed st) :
    MidInv env processed n []
      { st with held := st.held ++ [n], trace := st.trace ++ [.build n] } := by
  obtain ⟨hkeys, hrem, hbld, hrel, hheld, hord⟩ := hinv
  have hnP : n ∉ processed := (nodup_split_not_mem env.seq processed pending n hseq hwf.1).1
  have hnrel : Ev.release n ∉ st.trace := by
    intro h
    exact hnP ((hrel n).mp h).2.2.1
  refine ⟨hkeys, ?_, ?_, ?_, ?_, ?_⟩
  · intro u hu
    rw [hrem u hu, MidCount_nil]
    omega
  · intro u
    rw [mem_snoc_build_build]
    constructor
    · intro h
      rcases h with h | h
      · exact Or.inl ((hbld u).mp h)
      · exact Or.inr h
    · intro h
      rcases h with h | h
      · exact Or.inl ((hbld u).mpr h)
      · exact Or.inr h
  · intro u
    rw [mem_snoc_build_release, hrel u, MidCount_nil, Nat.add_zero]
  · intro u
    rw [List.mem_append, List.mem_singleton, mem_snoc_build_release]
    constructor
    · intro h
      rcases h with h | h
      · have := (hheld u).mp h
        exact ⟨Or.inl this.1, this.2⟩
      · subst h
        exact ⟨Or.inr rfl, hnrel⟩
    · intro ⟨h1, h2⟩
      rcases h1 with h1 | h1
      · exact Or.inl ((hheld u).mpr ⟨h1, h2⟩)
      · exact Or.inr h1
  · intro u v c hedge hr
    rw [mem_snoc_build_release] at hr
    exact evBefore_append _ _ _ _ (hord u v c hedge hr)

theorem mid_to_eager (env : ExecEnv) (hwf : ExecWF env)
    (processed pending : List GraphNode) (n : GraphNode)
    (hseq : env.seq = processed ++ n :: pending)
    (st : ExecSt) (hinv : MidInv env processed n (env.g.inEdges n) st) :
    EagerInv env (processed ++ [n]) st := by
  obtain ⟨hkeys, hrem, hbld, hrel, hheld, hord⟩ := hinv
  have hnP : n ∉ processed := (nodup_split_not_mem env.seq processed pending n hseq hwf.1).1
  have hCF := countFrom_append_node env processed n hnP
  have hmemPn : ∀ u : GraphNode, u ∈ processed ++ [n] ↔ (u ∈ processed ∨ u = n) := by
    intro u
    rw [List.mem_append, List.mem_singleton]
  have hCFn : countFrom env processed n = 0 := by
    unfold countFrom
    rw [List.length_eq_zero, List.filter_eq_nil_iff]
    intro e he hp
    simp only [Bool.and_eq_true, decide_eq_true_eq] at hp
    exact (consumer_not_processed env hwf processed pending n hseq e he hp.1).1 hp.2
  have hMCn : MidCount (env.g.inEdges n) n = 0 := by
    unfold MidCount
    rw [List.length_eq_zero, List.filter_eq_nil_iff]
    intro e he hp
    simp only [decide_eq_true_eq] at hp
    have heE : e ∈ env.g.edges := (List.mem_filter.mp he).1
    have hecons : e.2.1 = n := by
      have := (List.mem_filter.mp he).2
      simpa using this
    exact (consumer_not_processed env hwf processed pending n hseq e heE hp).2 hecons
  refine ⟨hkeys, ?_, ?_, ?_, ?_, hord⟩
  · intro u hu
    rw [hrem u hu, hCF u]
  · intro u
    rw [hbld u, hmemPn u]
  · intro u
    rw [hrel u, hCF u]
    constructor
    · intro ⟨h1, h2, h3, h4⟩
      exact ⟨h1, h2, (hmemPn u).mpr (Or.inl h3), h4⟩
    · intro ⟨h1, h2, h3, h4⟩
      rcases (hmemPn u).mp h3 with h | h
      · exact ⟨h1, h2, h, h4⟩
      · subst h
        rw [hCFn, hMCn] at h4
        omega
  · intro u
    rw [hheld u, hmemPn u]

theorem buildStep (env : ExecEnv) (hwf : ExecWF env)
    (processed pending : List GraphNode) (n : GraphNode)
    (hseq : env.seq = processed ++ n :: pending)
    (st : ExecSt) (hinv : EagerInv env processed st) :
    EagerInv env (processed ++ [n])
      (processIncoming env false n
        { st with held := st.held ++ [n], trace := st.trace ++ [.build n] }) := by
  rw [processIncoming_eager_eq]
  apply mid_to_eager env hwf processed pending n hseq
  have h := midFold env hwf processed pending n hseq (env.g.inEdges n) [] (by simp) _
    (buildAppend_mid env hwf processed pending n hseq st hinv)
  rw [List.nil_append] at h
  exact h

theorem runExecGo_eager (env : ExecEnv) (hwf : ExecWF env) :
    ∀ (pending processed : List GraphNode) (st st' : ExecSt),
      env.seq = processed ++ pending →
      EagerInv env processed st →
      runExecGo env false pending st = .ok st' →
      EagerInv env env.seq st' := by
  intro pending
  induction pending with
  | nil =>
    intro processed st st' hseq hinv hrun
    injection hrun with h
    subst h
    rw [hseq, List.append_nil]
    exact hinv
  | cons n rest ih =>
    intro processed st st' hseq hinv hrun
    unfold runExecGo at hrun
    cases hb : env.buildErr n with
    | some e => rw [hb] at hrun; exact absurd hrun (by simp)
    | none =>
      rw [hb] at hrun
      exact ih (processed ++ [n]) _ st' (by rw [hseq]; simp)
        (buildStep env hwf processed rest n hseq st hinv) hrun

theorem initInv (env : ExecEnv) :
    EagerInv env [] ⟨[], env.seq.map (fun n => (n, env.g.outDeg n)), [], []⟩ := by
  refine ⟨?_, ?_, ?_, ?_, ?_, ?_⟩
  · rw [List.map_map]
    exact List.map_id'' (fun n => rfl) env.seq
  · intro u hu
    have h := remGet_map env.g.outDeg env.seq u hu
    rw [h, countFrom_nil]
    omega
  · intro u; simp
  · intro u; simp
  · intro u; simp
  · intro u v c _ hr
    exact absurd hr (List.not_mem_nil _)

theorem eager_release_char (env : ExecEnv) (hwf : ExecWF env) (st : ExecSt)
    (hrun : runExec env false = .ok st) :
    (∀ u, Ev.release u ∈ st.trace ↔ (u ≠ env.target ∧ 0 < env.g.outDeg u)) ∧
    (∀ u v c, (u, v, c) ∈ env.g.edges → Ev.release u ∈ st.trace →
      evBefore st.trace (Ev.build v) (Ev.release u)) := by
  unfold runExec at hrun
  have hinv := runExecGo_eager env hwf env.seq [] _ st (by simp) (initInv env) hrun
  obtain ⟨_, _, hbld, hrel, _, hord⟩ := hinv
  refine ⟨?_, hord⟩
  intro u
  rw [hrel u]
  constructor
  · intro ⟨h1, h2, _, _⟩
    exact ⟨h1, h2⟩
  · intro ⟨h1, h2⟩
    have huseq : u ∈ env.seq := by
      have hne : env.g.edges.filter (fun e => decide (e.1 = u)) ≠ [] := by
        intro hnil
        unfold Graph.outDeg at h2
        rw [hnil] at h2
        simp at h2
      obtain ⟨e, he⟩ := List.exists_mem_of_ne_nil _ hne
      have heE := List.mem_filter.mp he
      have heu : e.1 = u := by simpa using heE.2
      exact heu ▸ (edge_endpoints_in_seq env hwf e heE.1).1
    exact ⟨h1, h2, huseq, countFrom_full env hwf u⟩

/-- Claim C5 (corrected): `Plan.run` itself accepts no cleanup option — it
always runs `PlanExecution` with its default `defer_cleanup = False`, i.e.
eagerly. In the (directly constructed) deferred mode no record is released
during the run; in the default eager mode, over a well-formed topological
sequence, a record is released during the run exactly when its node is a
non-target producer all of whose consumers have built: every such producer is
released, and each release comes strictly after every consumer's build. -/
theorem C5_cleanup_modes (env : ExecEnv) :
    planRun env = scopedRun env false ∧
    (∀ st, runExec env true = .ok st → ∀ u, Ev.release u ∉ st.trace) ∧
    (∀ st, runExec env false = .ok st → ExecWF env →
      (∀ u, Ev.release u ∈ st.trace ↔ (u ≠ env.target ∧ 0 < env.g.outDeg u)) ∧
      (∀ u v c, (u, v, c) ∈ env.g.edges → Ev.release u ∈ st.trace →
        evBefore st.trace (Ev.build v) (Ev.release u))) := by
  refine ⟨rfl, ?_, ?_⟩
  · intro st hrun u hmem
    unfold runExec at hrun
    obtain ⟨bs, hbs⟩ := runExecGo_defer_trace env env.seq _ st hrun
    rw [hbs] at hmem
    simp at hmem
  · intro st hrun hwf
    exact eager_release_char env hwf st hrun

/-- Witness for claim C5 at the concrete two-node chain environment: the eager
run releases the producer `execA` during the run, after its consumer's build. -/
theorem C5_witness :
    Ev.release execA ∈ stEag.trace ∧
      evBefore stEag.trace (Ev.build execB) (Ev.release execA) := by
  have hrun : runExec envOk false = .ok stEag := by with_unfolding_all decide
  have hwf : ExecWF envOk := by
    refine ⟨by with_unfolding_all decide, by with_unfolding_all decide, ?_⟩
    intro e he
    have hedges : envOk.g.edges = [(execA, execB, ((1 : ℕ), (none : Option String)))] := by
      with_unfolding_all decide
    rw [hedges, List.mem_singleton] at he
    subst he
    exact ⟨[], [], [], rfl⟩
  obtain ⟨-, -, h3⟩ := C5_cleanup_modes envOk
  obtain ⟨h1, h2⟩ := h3 stEag hrun hwf
  have hmem : Ev.release execA ∈ stEag.trace := by
    apply (h1 execA).mpr
    refine ⟨by with_unfolding_all decide, by with_unfolding_all decide⟩
  refine ⟨hmem, h2 execA execB ((1 : ℕ), (none : Option String)) ?_ hmem⟩
  with_unfolding_all decide

/-! ### Duplicate-contract dependencies (claim C10) -/

/-- Registry where target recipe 0 declares two injected fields `a` and `b`
carrying the same contract `(1, none)`; recipe 1 produces asset 1. -/
def dupInfo : RecipeId → RecipeDecl := fun r =>
  if r = 0 then ⟨0, [⟨"a", (1, none)⟩, ⟨"b", (1, none)⟩]⟩ else ⟨1, []⟩

/-- Contract table of the duplicate-contract registry. -/
def dupCtr : Contract → List RecipeId := fun c =>
  if c = (0, none) then [0] else if c = (1, none) then [1] else []

/-- The duplicate-contract registry. -/
def dupA : AlgoCtx := ⟨dupInfo, dupCtr, defaultCtx⟩

/-- The target node and the shared producer of the duplicate-contract plan. -/
def dupTarget : GraphNode := ⟨0, 0, [[]]⟩

def dupProducer : GraphNode := ⟨1, 1, [[]]⟩

/-- The final planning state for the duplicate-contract registry: the second
request for `(1, none)` finds the contract already satisfied, so no second
edge and no split. -/
def dupSt : AlgoState :=
  ⟨⟨[dupTarget, dupProducer], [(dupProducer, dupTarget, (1, none))]⟩, [], 2, 0⟩

/-- The resulting plan graph: one producer, one edge. -/
def dupG : Graph :=
  ⟨[dupTarget, dupProducer], [(dupProducer, dupTarget, (1, none))]⟩

/-- Python-dict lookup on an insertion-ordered association list: the last
binding of a key wins (later comprehension entries overwrite earlier ones). -/
def dictGet {α β : Type} [DecidableEq α] (l : List (α × β)) (k : α) : Option β :=
  (l.reverse.find? (fun x => x.1 = k)).map Prod.snd

/-- `input_assets` of `PlanExecution._build_node` (execution.py lines 142-145):
one entry per in-edge, keyed by the edge's contract, valued by the producer
node (standing for `node_to_asset[u]`). -/
def input_assets (g : Graph) (node : GraphNode) : List (Contract × GraphNode) :=
  (g.inEdges node).map (fun e => (e.2.2, e.1))

/-- `recipe_kwargs` of `_build_node` (execution.py lines 146-149): every
injected dependency field is bound by looking its contract up in
`input_assets`. -/
def recipe_kwargs (A : AlgoCtx) (g : Graph) (node : GraphNode) :
    List (String × Option GraphNode) :=
  (A.rinfo node.recipe).deps.map (fun d => (d.name, dictGet (input_assets g node) d.contract))

/-! ### In-edge coverage (claim C2) -/

/-- The contracts labelling a node's in-edges, in insertion order. -/
def inContracts (g : Graph) (n : GraphNode) : List Contract :=
  (g.inEdges n).map (fun e => e.2.2)

/-- The contracts of the dependencies declared by a node's recipe. -/
def depContracts (A : AlgoCtx) (n : GraphNode) : List Contract :=
  ((A.rinfo n.recipe).deps).map (fun d => d.contract)

/-- The frontier node of a queued planning path (`node = path[0][0] if path
else self.target_node`). -/
def pathFrontier (tr : RecipeId) (p : List PEdge) : GraphNode :=
  match p with
  | [] => targetNode tr
  | e :: _ => e.1

/-- Registry forcing a context split: the target needs assets 1 and 2, the
asset-1 recipe (1) needs asset 3, the asset-2 recipe (2) needs asset 1
(shared, so node 1 is planned twice over two paths), and asset 3 has a
generic recipe (3, no deps) plus a context-specific one (4, preferred under
contract `(2, none)`, declaring a dependency on asset 4). -/
def splitInfo : RecipeId → RecipeDecl := fun r =>
  if r = 0 then ⟨0, [⟨"x", (1, none)⟩, ⟨"y", (2, none)⟩]⟩
  else if r = 1 then ⟨1, [⟨"b", (3, none)⟩]⟩
  else if r = 2 then ⟨2, [⟨"a", (1, none)⟩]⟩
  else if r = 3 then ⟨3, []⟩
  else ⟨3, [⟨"d", (4, none)⟩]⟩

/-- Contract table of the split registry. -/
def splitCtr : Contract → List RecipeId := fun c =>
  if c = (0, none) then [0]
  else if c = (1, none) then [1]
  else if c = (2, none) then [2]
  else if c = (3, none) then [3, 4]
  else []

/-- Context sets of the split registry: recipe 4 prefers the `(2, none)`
context, all others register the default empty context path. -/
def splitCtx : RecipeId → CtxSet := fun r =>
  if r = 4 then [[(2, none)]] else [[]]

/-- The split registry. -/
def splitA : AlgoCtx := ⟨splitInfo, splitCtr, splitCtx⟩

/-- The child added by the split for the context-specific recipe 4: its
planning path embeds the isolating edge the split just removed, so the path
is dropped as stale and this node's declared dependency is never satisfied. -/
def splitStale : GraphNode := ⟨5, 4, [[(2, none)]]⟩

/-- The final (and pruned) graph of the split run. -/
def splitG : Graph :=
  ⟨[⟨0, 0, [[]]⟩, ⟨1, 1, [[]]⟩, ⟨2, 2, [[]]⟩, ⟨3, 3, [[]]⟩,
    ⟨4, 1, [[(2, none)]]⟩, splitStale],
   [(⟨1, 1, [[]]⟩, ⟨0, 0, [[]]⟩, (1, none)),
    (⟨2, 2, [[]]⟩, ⟨0, 0, [[]]⟩, (2, none)),
    (⟨3, 3, [[]]⟩, ⟨1, 1, [[]]⟩, (3, none)),
    (⟨4, 1, [[(2, none)]]⟩, ⟨2, 2, [[]]⟩, (1, none)),
    (splitStale, ⟨4, 1, [[(2, none)]]⟩, (3, none))]⟩

/-- The final planning state of the split run (one split performed). -/
def splitSt : AlgoState := ⟨splitG, [], 6, 1⟩

/-- Counterexample for claim C2, in two parts. (1) Two declared dependencies
with the same contract give the node one in-edge, so the in-edge contract
multiset differs from the declared dependency contract multiset: a dependency
is not "satisfied exactly once" per declaration, only per distinct contract.
(2) In a successful run that performs a context split, even set coverage
fails: the planning path enqueued for the split's new child contains the
isolating edge the split removed, so it is dropped as stale and the child's
declared dependency contract `(4, none)` gets no in-edge at all in the
returned graph. -/
theorem C2_counterexample :
    (plannerPlan dupA (0, none) 10 = .ok (some (dupSt, dupG)) ∧
      dupTarget ∈ dupG.nodes ∧
      inContracts dupG dupTarget = [(1, none)] ∧
      depContracts dupA dupTarget = [(1, none), (1, none)] ∧
      ¬ (inContracts dupG dupTarget).Perm (depContracts dupA dupTarget)) ∧
    (plannerPlan splitA (0, none) 30 = .ok (some (splitSt, splitG)) ∧
      splitSt.splits = 1 ∧
      splitStale ∈ splitG.nodes ∧
      depContracts splitA splitStale = [(4, none)] ∧
      inContracts splitG splitStale = []) := by
  refine ⟨⟨?_, ?_, ?_, ?_, ?_⟩, ⟨?_, ?_, ?_, ?_, ?_⟩⟩
  · with_unfolding_all decide
  · with_unfolding_all decide
  · with_unfolding_all decide
  · with_unfolding_all decide
  · intro hperm
    have := hperm.length_eq
    rw [show inContracts dupG dupTarget = [(1, none)] by with_unfolding_all decide,
      show depContracts dupA dupTarget = [(1, none), (1, none)] by with_unfolding_all decide] at this
    simp at this
  · with_unfolding_all decide
  · with_unfolding_all decide
  · with_unfolding_all decide
  · with_unfolding_all decide
  · with_unfolding_all decide

theorem Graph.addNode_mem_iff (g : Graph) (n x : GraphNode) :
    x ∈ (g.addNode n).nodes ↔ (x ∈ g.nodes ∨ x = n) := by
  unfold Graph.addNode
  split
  · next h =>
    constructor
    · exact Or.inl
    · intro hx
      rcases hx with hx | hx
      · exact hx
      · exact hx ▸ h
  · simp

theorem Graph.addEdge_mem_iff (g : Graph) (e : PEdge) (x : GraphNode) :
    x ∈ (g.addEdge e).nodes ↔ (x ∈ g.nodes ∨ x = e.1 ∨ x = e.2.1) := by
  have h : (g.addEdge e).nodes = ((g.addNode e.1).addNode e.2.1).nodes := Graph.addEdge_nodes g e
  rw [h, Graph.addNode_mem_iff, Graph.addNode_mem_iff]
  tauto

theorem Graph.addEdge_new (g : Graph) (e : PEdge) (h : e ∉ g.edges) :
    (g.addEdge e).edges = g.edges ++ [e] := by
  unfold Graph.addEdge
  rw [if_neg h]

theorem inEdges_of_edges_app (g g' : Graph) (extra : List PEdge)
    (h : g'.edges = g.edges ++ extra) (n : GraphNode) :
    g'.inEdges n = g.inEdges n ++ extra.filter (fun e => decide (e.2.1 = n)) := by
  unfold Graph.inEdges
  rw [h, List.filter_append]

theorem inContracts_snoc (g g' : Graph) (ch p : GraphNode) (k : Contract)
    (h : g'.edges = g.edges ++ [(ch, p, k)]) :
    inContracts g' p = inContracts g p ++ [k] ∧
      ∀ n, n ≠ p → inContracts g' n = inContracts g n := by
  constructor
  · unfold inContracts
    rw [inEdges_of_edges_app g g' _ h p]
    simp
  · intro n hn
    unfold inContracts
    rw [inEdges_of_edges_app g g' _ h n]
    have : ([(ch, p, k)].filter (fun e => decide (e.2.1 = n))) = [] := by
      simp
      exact fun hh => hn hh.symm
    rw [this, List.append_nil]

theorem currChild_none_iff (g : Graph) (p : GraphNode) (c : Contract) :
    ((g.inEdges p).find? (fun e => e.2.2 = c) = none) ↔ c ∉ inContracts g p := by
  rw [List.find?_eq_none]
  unfold inContracts
  constructor
  · intro h hc
    obtain ⟨e, he, hec⟩ := List.mem_map.mp hc
    have := h e he
    simp only [decide_eq_true_eq] at this
    exact this hec
  · intro h e he
    simp only [decide_eq_true_eq]
    intro hec
    exact h (List.mem_map.mpr ⟨e, he, hec⟩)

theorem currChild_some (g : Graph) (p : GraphNode) (c : Contract) (e : PEdge)
    (h : (g.inEdges p).find? (fun e => e.2.2 = c) = some e) :
    e ∈ g.edges ∧ e.2.1 = p ∧ e.2.2 = c ∧ c ∈ inContracts g p := by
  have hmem := List.mem_of_find?_eq_some h
  have hpred := List.find?_some h
  have he : e ∈ g.edges ∧ e.2.1 = p := by
    unfold Graph.inEdges at hmem
    have := List.mem_filter.mp hmem
    exact ⟨this.1, by simpa using this.2⟩
  have hc : e.2.2 = c := by simpa using hpred
  refine ⟨he.1, he.2, hc, ?_⟩
  unfold inContracts
  exact List.mem_map.mpr ⟨e, hmem, hc⟩

theorem pick_existing_node_mem (tr : RecipeId) (A : AlgoCtx) (g : Graph)
    (picked : RecipePick) (path : List PEdge) (ru : ExistingNodePick)
    (h : pick_existing_node tr A g picked path = some ru) : ru.node ∈ g.nodes := by
  unfold pick_existing_node at h
  suffices haux : ∀ (l : List GraphNode) (acc : Option ExistingNodePick),
      (∀ x ∈ l, x ∈ g.nodes) →
      (∀ r, acc = some r → r.node ∈ g.nodes) →
      ∀ r, (l.foldl
        (fun acc node =>
          if node.recipe = picked.recipe then
            let f := compute_fitness tr A node.context path
            if decide (picked.fitness ≤ f) &&
                (match acc with
                 | none => true
                 | some p => decide (p.fitness < f)) then
              some ⟨node, f⟩
            else acc
          else acc)
        acc = some r) → r.node ∈ g.nodes by
    exact haux g.nodes none (fun x hx => hx) (fun r hr => by cases hr) ru h
  intro l
  induction l with
  | nil =>
    intro acc _ hacc r hr
    exact hacc r hr
  | cons a l ih =>
    intro acc hl hacc r hr
    rw [List.foldl_cons] at hr
    refine ih _ (fun x hx => hl x (List.mem_cons_of_mem a hx)) ?_ r hr
    intro r' hr'
    by_cases h1 : a.recipe = picked.recipe
    · rw [if_pos h1] at hr'
      dsimp only at hr'
      split at hr'
      · cases hr'
        exact hl a (List.mem_cons_self a l)
      · exact hacc r' hr'
    · rw [if_neg h1] at hr'
      exact hacc r' hr'

theorem use_edge_ok_shape (st : AlgoState) (ch p : GraphNode) (k : Contract)
    (path : List PEdge) (st' : AlgoState) (h : use_edge st ch p k path = .ok st') :
    st' = { st with queue := st.queue ++ [(ch, p, k) :: path] } := by
  unfold use_edge at h
  split at h
  · simp at h
  · cases h; rfl

theorem add_edge_ok_shape (st : AlgoState) (ch p : GraphNode) (k : Contract)
    (path : List PEdge) (st' : AlgoState) (h : add_edge st ch p k path = .ok st') :
    st' = { st with G := st.G.addEdge (ch, p, k),
                    queue := st.queue ++ [(ch, p, k) :: path] } ∧
      k ∉ inContracts st.G p := by
  unfold add_edge at h
  split at h
  · simp at h
  · next hguard =>
    have := use_edge_ok_shape _ _ _ _ _ _ h
    rw [this]
    exact ⟨rfl, hguard⟩

theorem perform_split_splits (st : AlgoState) (p : GraphNode) (iso : List PEdge)
    (ctx : CtxSet) (ce : PEdge) :
    (perform_split st p iso ctx ce).2.splits = st.splits + 1 := rfl

theorem edge_mem_inContracts (g : Graph) (e : PEdge) (he : e ∈ g.edges) :
    e.2.2 ∈ inContracts g e.2.1 := by
  unfold inContracts Graph.inEdges
  exact List.mem_map.mpr ⟨e, List.mem_filter.mpr ⟨he, by simp⟩, rfl⟩

/-- Outcome of a successful, split-free `satisfy_dependency` call: either the
contract was already provided by an in-edge of the parent and only a planning
path was enqueued, or a single new in-edge carrying the contract was added
(to a reused node or a fresh child) together with its planning path. -/
theorem satisfy_dependency_nosplit (tr : RecipeId) (A : AlgoCtx) (st : AlgoState)
    (parent : GraphNode) (c : Contract) (path : List PEdge) (st' : AlgoState)
    (h : satisfy_dependency tr A st parent c path = .ok st')
    (hns : st'.splits = st.splits) :
    (st'.G = st.G ∧ st'.nextId = st.nextId ∧
      ∃ e ∈ st.G.edges, e.2.1 = parent ∧ e.2.2 = c ∧
        st'.queue = st.queue ++ [e :: path]) ∨
    (∃ ch, (ch, parent, c) ∉ st.G.edges ∧ c ∉ inContracts st.G parent ∧
      st'.G.edges = st.G.edges ++ [(ch, parent, c)] ∧
      (∀ x, x ∈ st'.G.nodes ↔ (x ∈ st.G.nodes ∨ x = ch ∨ x = parent)) ∧
      st'.queue = st.queue ++ [(ch, parent, c) :: path] ∧
      st.nextId ≤ st'.nextId ∧ (ch ∈ st.G.nodes ∨ ch.nodeId < st'.nextId)) := by
  unfold satisfy_dependency at h
  split at h
  · simp at h
  · simp at h
  next picked _ =>
    dsimp only at h
    split at h
    -- currChild = none
    · next hccn =>
      right
      split at h
      -- reuse = some ru
      next ru hru =>
        obtain ⟨hsh, hguard⟩ := add_edge_ok_shape _ _ _ _ _ _ h
        have hnot : (ru.node, parent, c) ∉ st.G.edges := by
          intro hmem
          exact hguard (edge_mem_inContracts st.G _ hmem)
        refine ⟨ru.node, hnot, hguard, ?_, ?_, ?_, ?_, ?_⟩
        · rw [hsh]
          exact Graph.addEdge_new st.G _ hnot
        · intro x
          rw [hsh]
          exact Graph.addEdge_mem_iff st.G _ x
        · rw [hsh]
        · rw [hsh]
        · exact Or.inl (pick_existing_node_mem tr A st.G picked path ru hru)
      -- reuse = none: fresh child
      next =>
        obtain ⟨hsh, hguard⟩ := add_edge_ok_shape _ _ _ _ _ _ h
        have hnot : ((⟨st.nextId, picked.recipe, A.recipe_to_context picked.recipe⟩ : GraphNode),
            parent, c) ∉ st.G.edges := by
          intro hmem
          exact hguard (edge_mem_inContracts st.G _ hmem)
        refine ⟨_, hnot, hguard, ?_, ?_, ?_, ?_, ?_⟩
        · rw [hsh]
          exact Graph.addEdge_new st.G _ hnot
        · intro x
          rw [hsh]
          exact Graph.addEdge_mem_iff st.G _ x
        · rw [hsh]
        · rw [hsh]
          exact Nat.le_succ _
        · refine Or.inr ?_
          rw [hsh]
          exact Nat.lt_succ_self _
    -- currChild = some curr
    next curr hccs =>
      obtain ⟨e, hfind, hecurr⟩ := Option.map_eq_some'.mp hccs
      obtain ⟨heE, hepar, hec, hcin⟩ := currChild_some st.G parent c e hfind
      split at h
      -- reuse = some ru
      next ru _ =>
        split at h
        · split at h
          · simp at h
          next iso _ =>
            obtain ⟨hsh, _⟩ := add_edge_ok_shape _ _ _ _ _ _ h
            have : st'.splits = st.splits + 1 := by
              rw [hsh]
              exact perform_split_splits st parent iso ru.node.context (curr, parent, c)
            omega
        · split at h
          · split at h
            · simp at h
            next iso _ =>
              obtain ⟨hsh, _⟩ := add_edge_ok_shape _ _ _ _ _ _ h
              have : st'.splits = st.splits + 1 := by
                rw [hsh]
                exact perform_split_splits st parent iso
                  (A.recipe_to_context picked.recipe) (curr, parent, c)
              omega
          · left
            have hsh := use_edge_ok_shape _ _ _ _ _ _ h
            refine ⟨by rw [hsh], by rw [hsh], e, heE, hepar, hec, ?_⟩
            rw [hsh]
            have : (curr, parent, c) = e := by
              rw [← hecurr, ← hepar, ← hec]
            rw [this]
      -- reuse = none
      next =>
        split at h
        · split at h
          · simp at h
          next iso _ =>
            obtain ⟨hsh, _⟩ := add_edge_ok_shape _ _ _ _ _ _ h
            have : st'.splits = st.splits + 1 := by
              rw [hsh]
              exact perform_split_splits st parent iso
                (A.recipe_to_context picked.recipe) (curr, parent, c)
            omega
        · left
          have hsh := use_edge_ok_shape _ _ _ _ _ _ h
          refine ⟨by rw [hsh], by rw [hsh], e, heE, hepar, hec, ?_⟩
          rw [hsh]
          have : (curr, parent, c) = e := by
            rw [← hecurr, ← hepar, ← hec]
          rw [this]

theorem satisfy_dependency_splits_mono (tr : RecipeId) (A : AlgoCtx) (st : AlgoState)
    (parent : GraphNode) (c : Contract) (path : List PEdge) (st' : AlgoState)
    (h : satisfy_dependency tr A st parent c path = .ok st') :
    st.splits ≤ st'.splits := by
  unfold satisfy_dependency at h
  split at h
  · simp at h
  · simp at h
  next picked _ =>
    dsimp only at h
    split at h
    · split at h
      next ru _ =>
        rw [(add_edge_ok_shape _ _ _ _ _ _ h).1]
      next =>
        rw [(add_edge_ok_shape _ _ _ _ _ _ h).1]
    next curr _ =>
      split at h
      next ru _ =>
        split at h
        · split at h
          · simp at h
          next iso _ =>
            rw [(add_edge_ok_shape _ _ _ _ _ _ h).1,
              perform_split_splits st parent iso ru.node.context (curr, parent, c)]
            omega
        · split at h
          · split at h
            · simp at h
            next iso _ =>
              rw [(add_edge_ok_shape _ _ _ _ _ _ h).1,
                perform_split_splits st parent iso
                  (A.recipe_to_context picked.recipe) (curr, parent, c)]
              omega
          · rw [use_edge_ok_shape _ _ _ _ _ _ h]
      next =>
        split at h
        · split at h
          · simp at h
          next iso _ =>
            rw [(add_edge_ok_shape _ _ _ _ _ _ h).1,
              perform_split_splits st parent iso
                (A.recipe_to_context picked.recipe) (curr, parent, c)]
            omega
        · rw [use_edge_ok_shape _ _ _ _ _ _ h]

theorem process_deps_splits_mono (tr : RecipeId) (A : AlgoCtx) (parent : GraphNode)
    (path : List PEdge) :
    ∀ (ds : List Dependency) (st st' : AlgoState),
      process_deps tr A parent path st ds = .ok st' → st.splits ≤ st'.splits := by
  intro ds
  induction ds with
  | nil => intro st st' h; cases h; exact le_refl _
  | cons d ds ih =>
    intro st st' h
    unfold process_deps at h
    split at h
    · simp at h
    next st₁ hsat =>
      exact le_trans (satisfy_dependency_splits_mono tr A st parent d.contract path st₁ hsat)
        (ih st₁ st' h)

theorem runLoop_splits_mono (tr : RecipeId) (A : AlgoCtx) :
    ∀ (fuel : ℕ) (st st' : AlgoState),
      runLoop tr A fuel st = .ok (some st') → st.splits ≤ st'.splits := by
  intro fuel
  induction fuel with
  | zero => intro st st' h; simp [runLoop] at h
  | succ f ih =>
    intro st st' h
    unfold runLoop at h
    split at h
    · cases h; exact le_refl _
    all_goals
      dsimp only at h
      split at h
      · split at h
        · simp at h
        · rename_i st₁ hdeps
          have h1 := process_deps_splits_mono tr A _ _ _ _ st₁ hdeps
          have h2 := ih st₁ st' h
          exact le_trans h1 h2
      · have h2 := ih _ st' h
        exact h2

/-- Preservation of the coverage invariants across one split-free
`satisfy_dependency` call. -/
theorem satisfy_dependency_cinv (tr : RecipeId) (A : AlgoCtx) (st : AlgoState)
    (parent : GraphNode) (c : Contract) (path : List PEdge) (st' : AlgoState)
    (h : satisfy_dependency tr A st parent c path = .ok st')
    (hns : st'.splits = st.splits)
    (hcdep : c ∈ depContracts A parent)
    (hpath : ∀ e ∈ path, e ∈ st.G.edges)
    (hq : ∀ p ∈ st.queue, ∀ e ∈ p, e ∈ st.G.edges)
    (hnd : ∀ n, (inContracts st.G n).Nodup)
    (hbc : ∀ n, ∀ k ∈ inContracts st.G n, k ∈ depContracts A n)
    (hc : ∀ n ∈ st.G.nodes, (∀ k ∈ depContracts A n, k ∈ inContracts st.G n) ∨
      (∃ p ∈ st.queue, pathFrontier tr p = n) ∨ n = parent) :
    (∀ p ∈ st'.queue, ∀ e ∈ p, e ∈ st'.G.edges) ∧
    (∀ n, (inContracts st'.G n).Nodup) ∧
    (∀ n, ∀ k ∈ inContracts st'.G n, k ∈ depContracts A n) ∧
    (∀ n ∈ st'.G.nodes, (∀ k ∈ depContracts A n, k ∈ inContracts st'.G n) ∨
      (∃ p ∈ st'.queue, pathFrontier tr p = n) ∨ n = parent) ∧
    c ∈ inContracts st'.G parent ∧
    (∀ n k, k ∈ inContracts st.G n → k ∈ inContracts st'.G n) ∧
    (∀ e ∈ path, e ∈ st'.G.edges) ∧
    (∃ np, st'.queue = st.queue ++ np) := by
  rcases satisfy_dependency_nosplit tr A st parent c path st' h hns with
    ⟨hG, _, e, heE, hepar, hec, hqu⟩ |
    ⟨ch, hnew, hguard, hedges, hnodes, hqu, _, _⟩
  · -- contract already provided: graph unchanged, one path enqueued
    have hic : ∀ n, inContracts st'.G n = inContracts st.G n := fun n => by rw [hG]
    refine ⟨?_, ?_, ?_, ?_, ?_, ?_, ?_, ⟨_, hqu⟩⟩
    · intro q hqm e' he'
      rw [hG]
      rw [hqu] at hqm
      rcases List.mem_append.mp hqm with hm | hm
      · exact hq q hm e' he'
      · rw [List.mem_singleton.mp hm] at he'
        rcases List.mem_cons.mp he' with hm2 | hm2
        · rw [hm2]; exact heE
        · exact hpath e' hm2
    · intro n; rw [hic n]; exact hnd n
    · intro n k hk; rw [hic n] at hk; exact hbc n k hk
    · intro n hn
      rw [hG] at hn
      rcases hc n hn with hcov | ⟨q, hqm, hqf⟩ | hpar
      · exact Or.inl (fun k hk => by rw [hic n]; exact hcov k hk)
      · exact Or.inr (Or.inl ⟨q, by rw [hqu]; exact List.mem_append_left _ hqm, hqf⟩)
      · exact Or.inr (Or.inr hpar)
    · rw [hic parent, ← hepar, ← hec]
      exact edge_mem_inContracts st.G e heE
    · intro n k hk; rw [hic n]; exact hk
    · intro e' he'; rw [hG]; exact hpath e' he'
  · -- a new in-edge (ch, parent, c) was added
    obtain ⟨hicp, hicn⟩ := inContracts_snoc st.G st'.G ch parent c hedges
    have hmonoE : ∀ e' ∈ st.G.edges, e' ∈ st'.G.edges := by
      intro e' he'; rw [hedges]; exact List.mem_append_left _ he'
    have hmonoC : ∀ n k, k ∈ inContracts st.G n → k ∈ inContracts st'.G n := by
      intro n k hk
      by_cases hp : n = parent
      · subst hp; rw [hicp]; exact List.mem_append_left _ hk
      · rw [hicn n hp]; exact hk
    refine ⟨?_, ?_, ?_, ?_, ?_, hmonoC, ?_, ⟨_, hqu⟩⟩
    · intro q hqm e' he'
      rw [hqu] at hqm
      rcases List.mem_append.mp hqm with hm | hm
      · exact hmonoE e' (hq q hm e' he')
      · rw [List.mem_singleton.mp hm] at he'
        rcases List.mem_cons.mp he' with hm2 | hm2
        · rw [hm2, hedges]
          exact List.mem_append_right _ (List.mem_singleton.mpr rfl)
        · exact hmonoE e' (hpath e' hm2)
    · intro n
      by_cases hp : n = parent
      · rw [hp, hicp]
        simp only [List.nodup_append, List.nodup_cons, List.not_mem_nil, not_false_iff,
          List.nodup_nil, true_and, and_true, List.disjoint_singleton]
        exact ⟨hnd parent, by simpa using fun hcmem => hguard hcmem⟩
      · rw [hicn n hp]; exact hnd n
    · intro n k hk
      by_cases hp : n = parent
      · rw [hp] at hk ⊢
        rw [hicp] at hk
        rcases List.mem_append.mp hk with hm | hm
        · exact hbc parent k hm
        · rw [List.mem_singleton.mp hm]; exact hcdep
      · rw [hicn n hp] at hk; exact hbc n k hk
    · intro n hn
      rcases (hnodes n).mp hn with hm | hm | hm
      · rcases hc n hm with hcov | ⟨q, hqm, hqf⟩ | hpar
        · exact Or.inl (fun k hk => hmonoC n k (hcov k hk))
        · exact Or.inr (Or.inl ⟨q, by rw [hqu]; exact List.mem_append_left _ hqm, hqf⟩)
        · exact Or.inr (Or.inr hpar)
      · refine Or.inr (Or.inl ⟨(ch, parent, c) :: path, ?_, ?_⟩)
        · rw [hqu]
          exact List.mem_append_right _ (List.mem_singleton.mpr rfl)
        · rw [hm]; rfl
      · exact Or.inr (Or.inr hm)
    · rw [hicp]
      exact List.mem_append_right _ (List.mem_singleton.mpr rfl)
    · intro e' he'; exact hmonoE e' (hpath e' he')

/-- Preservation of the coverage invariants across a split-free
`process_deps` run, with full coverage of the processed dependency list. -/
theorem process_deps_cinv (tr : RecipeId) (A : AlgoCtx) (parent : GraphNode)
    (path : List PEdge) :
    ∀ (ds : List Dependency) (st st' : AlgoState),
      process_deps tr A parent path st ds = .ok st' →
      st'.splits = st.splits →
      (∀ d ∈ ds, d.contract ∈ depContracts A parent) →
      (∀ e ∈ path, e ∈ st.G.edges) →
      (∀ p ∈ st.queue, ∀ e ∈ p, e ∈ st.G.edges) →
      (∀ n, (inContracts st.G n).Nodup) →
      (∀ n, ∀ k ∈ inContracts st.G n, k ∈ depContracts A n) →
      (∀ n ∈ st.G.nodes, (∀ k ∈ depContracts A n, k ∈ inContracts st.G n) ∨
        (∃ p ∈ st.queue, pathFrontier tr p = n) ∨ n = parent) →
      ((∀ p ∈ st'.queue, ∀ e ∈ p, e ∈ st'.G.edges) ∧
       (∀ n, (inContracts st'.G n).Nodup) ∧
       (∀ n, ∀ k ∈ inContracts st'.G n, k ∈ depContracts A n) ∧
       (∀ n ∈ st'.G.nodes, (∀ k ∈ depContracts A n, k ∈ inContracts st'.G n) ∨
         (∃ p ∈ st'.queue, pathFrontier tr p = n) ∨ n = parent) ∧
       (∀ d ∈ ds, d.contract ∈ inContracts st'.G parent) ∧
       (∀ n k, k ∈ inContracts st.G n → k ∈ inContracts st'.G n) ∧
       (∃ np, st'.queue = st.queue ++ np)) := by
  intro ds
  induction ds with
  | nil =>
    intro st st' h _ _ _ hq hnd hbc hc
    cases h
    exact ⟨hq, hnd, hbc, hc, fun d hd => absurd hd (List.not_mem_nil d),
      fun n k hk => hk, [], by simp⟩
  | cons d ds ih =>
    intro st st' h hsp hdeps hpath hq hnd hbc hc
    unfold process_deps at h
    split at h
    · simp at h
    next st₁ hsat =>
      have hm1 := satisfy_dependency_splits_mono tr A st parent d.contract path st₁ hsat
      have hm2 := process_deps_splits_mono tr A parent path ds st₁ st' h
      have hns1 : st₁.splits = st.splits := by omega
      have hns2 : st'.splits = st₁.splits := by omega
      obtain ⟨hq1, hnd1, hbc1, hc1, hcin1, hmono1, hpv1, np1, hqu1⟩ :=
        satisfy_dependency_cinv tr A st parent d.contract path st₁ hsat hns1
          (hdeps d (List.mem_cons_self d ds)) hpath hq hnd hbc hc
      obtain ⟨hq2, hnd2, hbc2, hc2, hcov2, hmono2, np2, hqu2⟩ :=
        ih st₁ st' h hns2 (fun d' hd' => hdeps d' (List.mem_cons_of_mem d hd')) hpv1
          hq1 hnd1 hbc1 hc1
      refine ⟨hq2, hnd2, hbc2, hc2, ?_, ?_, ?_⟩
      · intro d' hd'
        rcases List.mem_cons.mp hd' with hd'' | hd''
        · rw [hd'']
          exact hmono2 parent d.contract hcin1
        · exact hcov2 d' hd''
      · intro n k hk
        exact hmono2 n k (hmono1 n k hk)
      · exact ⟨np1 ++ np2, by rw [hqu2, hqu1, List.append_assoc]⟩

/-- The coverage invariant of the main planning loop: queued paths are live,
in-edge contracts are duplicate-free and declared, and every node is either
fully covered or still has a queued planning path. -/
def CInv (tr : RecipeId) (A : AlgoCtx) (st : AlgoState) : Prop :=
  (∀ p ∈ st.queue, ∀ e ∈ p, e ∈ st.G.edges) ∧
  (∀ n, (inContracts st.G n).Nodup) ∧
  (∀ n, ∀ k ∈ inContracts st.G n, k ∈ depContracts A n) ∧
  (∀ n ∈ st.G.nodes, (∀ k ∈ depContracts A n, k ∈ inContracts st.G n) ∨
    ∃ p ∈ st.queue, pathFrontier tr p = n)

/-- A split-free `runLoop` run maintains the coverage invariant and empties
the queue. -/
theorem runLoop_cinv (tr : RecipeId) (A : AlgoCtx) :
    ∀ (fuel : ℕ) (st st' : AlgoState),
      runLoop tr A fuel st = .ok (some st') →
      st'.splits = st.splits →
      CInv tr A st →
      CInv tr A st' ∧ st'.queue = [] := by
  intro fuel
  induction fuel with
  | zero => intro st st' h _ _; simp [runLoop] at h
  | succ f ih =>
    intro st st' h hsp hinv
    obtain ⟨hq, hnd, hbc, hc⟩ := hinv
    unfold runLoop at h
    split at h
    · next hqemp =>
      cases h
      exact ⟨⟨hq, hnd, hbc, hc⟩, hqemp⟩
    next p rest hqcons =>
      dsimp only at h
      split at h
      · split at h
        · simp at h
        · rename_i st₁ hdeps
          have hm1 := process_deps_splits_mono tr A _ _ _ _ st₁ hdeps
          have hm2 := runLoop_splits_mono tr A f st₁ st' h
          have hns1 : st₁.splits = st.splits := by
            have : ({ st with queue := rest } : AlgoState).splits = st.splits := rfl
            omega
          have hpm : p ∈ st.queue := by rw [hqcons]; exact List.mem_cons_self p rest
          obtain ⟨hq1, hnd1, hbc1, hc1, hcov1, _, _⟩ :=
            process_deps_cinv tr A _ p _ { st with queue := rest } st₁ hdeps hns1
              (fun d hd => List.mem_map.mpr ⟨d, hd, rfl⟩)
              (fun e he => hq p hpm e he)
              (fun q hqm e he => hq q (by rw [hqcons]; exact List.mem_cons_of_mem p hqm) e he)
              hnd hbc
              (fun n hn => by
                rcases hc n hn with hcov | ⟨q, hqm, hqf⟩
                · exact Or.inl hcov
                · rw [hqcons] at hqm
                  rcases List.mem_cons.mp hqm with hm | hm
                  · refine Or.inr (Or.inr ?_)
                    rw [← hqf, hm]
                    rfl
                  · exact Or.inr (Or.inl ⟨q, hm, hqf⟩))
          refine ih st₁ st' h (by omega) ⟨hq1, hnd1, hbc1, ?_⟩
          intro n hn
          rcases hc1 n hn with hcov | ⟨q, hqm, hqf⟩ | hpar
          · exact Or.inl hcov
          · exact Or.inr ⟨q, hqm, hqf⟩
          · refine Or.inl ?_
            intro k hk
            rw [hpar]
            unfold depContracts at hk
            rw [hpar] at hk
            obtain ⟨d, hd, hdk⟩ := List.mem_map.mp hk
            rw [← hdk]
            exact hcov1 d hd
      · next hnall =>
        exfalso
        apply hnall
        rw [List.all_eq_true]
        intro e he
        have := hq p (by rw [hqcons]; exact List.mem_cons_self p rest) e he
        simpa using this

theorem nodup_subset_length {α : Type} [DecidableEq α] (l l' : List α)
    (h1 : l.Nodup) (h2 : l ⊆ l') : l.length ≤ l'.length := by
  have a1 : l.toFinset.card = l.length := List.toFinset_card_of_nodup h1
  have a2 : l.toFinset ⊆ l'.toFinset := by
    intro x hx
    rw [List.mem_toFinset] at hx ⊢
    exact h2 hx
  have a3 := Finset.card_le_card a2
  have a4 : l'.toFinset.card ≤ l'.length := l'.toFinset_card_le
  omega

/-- Explicit edge paths underlying `reachb`. -/
def isPathb (g : Graph) : GraphNode → GraphNode → List PEdge → Bool
  | u, v, [] => u = v
  | u, v, e :: es => decide (e ∈ g.edges) && decide (e.1 = u) && isPathb g e.2.1 v es

theorem reachb_iff_path (g : Graph) :
    ∀ (f : ℕ) (u v : GraphNode), reachb g f u v = true ↔
      ∃ es, isPathb g u v es = true ∧ es.length ≤ f := by
  intro f
  induction f with
  | zero =>
    intro u v
    constructor
    · intro h
      simp only [reachb, decide_eq_true_eq] at h
      exact ⟨[], by simp [isPathb, h], by simp⟩
    · intro ⟨es, hp, hl⟩
      rw [List.length_eq_zero.mp (Nat.le_zero.mp hl)] at hp
      simp only [isPathb, decide_eq_true_eq] at hp
      simp only [reachb, decide_eq_true_eq]
      exact hp
  | succ f ih =>
    intro u v
    constructor
    · intro h
      simp only [reachb, Bool.or_eq_true, List.any_eq_true, Bool.and_eq_true,
        decide_eq_true_eq] at h
      rcases h with h | ⟨e, he, h1, h2⟩
      · exact ⟨[], by simp [isPathb, h], by simp⟩
      · obtain ⟨es, hp, hl⟩ := (ih e.2.1 v).mp h2
        refine ⟨e :: es, ?_, by simpa using Nat.succ_le_succ hl⟩
        simp only [isPathb, Bool.and_eq_true, decide_eq_true_eq]
        exact ⟨⟨he, h1⟩, hp⟩
    · intro ⟨es, hp, hl⟩
      match es, hp with
      | [], hp =>
        simp only [isPathb, decide_eq_true_eq] at hp
        simp [reachb, hp]
      | e :: es, hp =>
        simp only [isPathb, Bool.and_eq_true, decide_eq_true_eq] at hp
        simp only [reachb, Bool.or_eq_true, List.any_eq_true, Bool.and_eq_true,
          decide_eq_true_eq]
        refine Or.inr ⟨e, hp.1.1, hp.1.2, ?_⟩
        exact (ih e.2.1 v).mpr ⟨es, hp.2, by simpa using Nat.le_of_succ_le_succ hl⟩

theorem isPathb_edges (g : Graph) :
    ∀ (es : List PEdge) (u v : GraphNode), isPathb g u v es = true →
      ∀ e ∈ es, e ∈ g.edges := by
  intro es
  induction es with
  | nil => intro u v _ e he; exact absurd he (List.not_mem_nil e)
  | cons e es ih =>
    intro u v hp e' he'
    simp only [isPathb, Bool.and_eq_true, decide_eq_true_eq] at hp
    rcases List.mem_cons.mp he' with h | h
    · rw [h]; exact hp.1.1
    · exact ih e.2.1 v hp.2 e' h

/-- From any visited node of a path there is a suffix path to the endpoint
whose visited nodes form a sublist of the original visited nodes. -/
theorem path_suffix (g : Graph) (v : GraphNode) :
    ∀ (es : List PEdge) (w x : GraphNode), isPathb g w v es = true →
      x ∈ w :: es.map (fun e => e.2.1) →
      ∃ tail, isPathb g x v tail = true ∧
        (x :: tail.map (fun e => e.2.1)).Sublist (w :: es.map (fun e => e.2.1)) ∧
        tail.length ≤ es.length := by
  intro es
  induction es with
  | nil =>
    intro w x hp hx
    have hxw : x = w := by simpa using hx
    subst hxw
    exact ⟨[], hp, by simp, le_refl _⟩
  | cons e es ih =>
    intro w x hp hx
    simp only [isPathb, Bool.and_eq_true, decide_eq_true_eq] at hp
    by_cases hxw : x = w
    · refine ⟨e :: es, ?_, ?_, le_refl _⟩
      · simp only [isPathb, Bool.and_eq_true, decide_eq_true_eq]
        exact ⟨⟨hp.1.1, by rw [hxw]; exact hp.1.2⟩, hp.2⟩
      · rw [hxw]
    · have hx' : x ∈ e.2.1 :: es.map (fun e => e.2.1) := by
        rcases List.mem_cons.mp hx with h | h
        · exact absurd h hxw
        · simpa using h
      obtain ⟨tail, hp', hsub, hlen⟩ := ih e.2.1 x hp.2 hx'
      refine ⟨tail, hp', ?_, le_trans hlen (Nat.le_succ _)⟩
      rw [List.map_cons]
      exact hsub.cons w

/-- Loop erasure: any path can be shortened to one visiting no node twice. -/
theorem path_shorten (g : Graph) (v : GraphNode) :
    ∀ (N : ℕ) (es : List PEdge) (u : GraphNode), es.length ≤ N → isPathb g u v es = true →
      ∃ es', isPathb g u v es' = true ∧ (u :: es'.map (fun e => e.2.1)).Nodup ∧
        es'.length ≤ es.length := by
  intro N
  induction N with
  | zero =>
    intro es u hlen hp
    rw [List.length_eq_zero.mp (Nat.le_zero.mp hlen)] at hp ⊢
    exact ⟨[], hp, by simp, by simp⟩
  | succ N ih =>
    intro es u hlen hp
    match es, hp, hlen with
    | [], hp, _ => exact ⟨[], hp, by simp, by simp⟩
    | e :: es₀, hp, hlen =>
      have hp' : (e ∈ g.edges ∧ e.1 = u) ∧ isPathb g e.2.1 v es₀ = true := by
        simpa only [isPathb, Bool.and_eq_true, decide_eq_true_eq] using hp
      obtain ⟨es₁, hp₁, hnd₁, hl₁⟩ := ih es₀ e.2.1
        (by simpa using Nat.le_of_succ_le_succ hlen) hp'.2
      by_cases hu : u ∈ e.2.1 :: es₁.map (fun e => e.2.1)
      · obtain ⟨tail, hpt, hsub, hlt⟩ := path_suffix g v es₁ e.2.1 u hp₁ hu
        refine ⟨tail, hpt, ?_, ?_⟩
        · exact hnd₁.sublist hsub
        · simp only [List.length_cons]
          omega
      · refine ⟨e :: es₁, ?_, ?_, by simpa using Nat.succ_le_succ hl₁⟩
        · simp only [isPathb, Bool.and_eq_true, decide_eq_true_eq]
          exact ⟨hp'.1, hp₁⟩
        · rw [List.map_cons, List.nodup_cons]
          exact ⟨hu, hnd₁⟩

/-- Reachability saturates at fuel `|nodes|` for sources inside the graph. -/
theorem reachb_saturate (g : Graph) (hwf : g.wf) (u v : GraphNode) (hu : u ∈ g.nodes)
    (f : ℕ) (h : reachb g f u v = true) : reachb g g.nodes.length u v = true := by
  obtain ⟨es, hp, _⟩ := (reachb_iff_path g f u v).mp h
  obtain ⟨es', hp', hnd, _⟩ := path_shorten g v es.length es u (le_refl _) hp
  refine (reachb_iff_path g _ u v).mpr ⟨es', hp', ?_⟩
  have hsubset : (u :: es'.map (fun e => e.2.1)) ⊆ g.nodes := by
    intro x hx
    rcases List.mem_cons.mp hx with hxu | hxm
    · rw [hxu]; exact hu
    · obtain ⟨e, he, hex⟩ := List.mem_map.mp hxm
      rw [← hex]
      exact (hwf e (isPathb_edges g es' u v hp' e he)).2
  have hle := nodup_subset_length _ _ hnd hsubset
  simp only [List.length_cons, List.length_map] at hle
  omega

theorem reachb_step (g : Graph) (e : PEdge) (he : e ∈ g.edges) (v : GraphNode) (f : ℕ)
    (h : reachb g f e.2.1 v = true) : reachb g (f + 1) e.1 v = true := by
  simp only [reachb, Bool.or_eq_true, List.any_eq_true, Bool.and_eq_true, decide_eq_true_eq]
  exact Or.inr ⟨e, he, rfl, h⟩

/-- Pruning keeps every in-edge of a kept node: the producer reaches the
target through it. -/
theorem pruneG_inEdges (g : Graph) (tgt : GraphNode) (hwf : g.wf) (n : GraphNode)
    (hn : n ∈ (pruneG g tgt).nodes) :
    (pruneG g tgt).inEdges n = g.inEdges n := by
  have hkeep : n ∈ pruneKeep g tgt := hn
  have hreach : reachb g g.nodes.length n tgt = true := by
    unfold pruneKeep at hkeep
    simpa using List.of_mem_filter hkeep
  unfold Graph.inEdges pruneG
  dsimp only
  rw [List.filter_comm]
  apply List.filter_eq_self.mpr
  intro e he
  have hmf := List.mem_filter.mp he
  have hecons : e.2.1 = n := by simpa using hmf.2
  have heE := hmf.1
  have h1 : e.1 ∈ pruneKeep g tgt := by
    unfold pruneKeep
    refine List.mem_filter.mpr ⟨(hwf e heE).1, ?_⟩
    apply reachb_saturate g hwf e.1 tgt (hwf e heE).1 (g.nodes.length + 1)
    apply reachb_step g e heE
    rw [hecons]
    exact hreach
  have h2 : e.2.1 ∈ pruneKeep g tgt := by rw [hecons]; exact hkeep
  simp [h1, h2]

/-- Claim C2 (corrected): in a successful `plan()` in which no context split
occurred, every node of the returned (pruned) graph has duplicate-free
in-edge contracts covering exactly the SET of contracts its recipe declares:
each distinct declared contract is satisfied exactly once, but duplicate
declarations of one contract collapse to a single in-edge, so the claimed
multiset equality fails (see the counterexample). -/
theorem C2_coverage (A : AlgoCtx) (tc : Contract) (fuel : ℕ) (st : AlgoState) (g : Graph)
    (h : plannerPlan A tc fuel = .ok (some (st, g))) (hsplit : st.splits = 0) :
    ∀ n ∈ g.nodes, (inContracts g n).Nodup ∧
      ∀ c, (c ∈ inContracts g n ↔ c ∈ depContracts A n) := by
  unfold plannerPlan at h
  split at h
  · simp at h
  next tr htr =>
    split at h
    · simp at h
    · simp at h
    next st₀ g₀ halgo =>
      split at h
      · next =>
        simp only [Except.ok.injEq, Option.some.injEq, Prod.mk.injEq] at h
        obtain ⟨hst, hg⟩ := h
        unfold algoRun at halgo
        split at halgo
        · simp at halgo
        · simp at halgo
        next st₁ hrun =>
          simp only [Except.ok.injEq, Option.some.injEq, Prod.mk.injEq] at halgo
          obtain ⟨hst₁, hg₁⟩ := halgo
          have hrun' : runLoop tr A fuel (initState tr) = .ok (some st) := by
            rw [hst₁, hst] at hrun
            exact hrun
          have hgeq : g = pruneG st.G (targetNode tr) := by
            rw [← hg, ← hg₁, hst₁, hst]
          have hwf0 := initState_wf tr
          have hwf := (runLoop_wf tr A fuel (initState tr) st hrun' hwf0).1
          have hinv0 : CInv tr A (initState tr) := by
            refine ⟨?_, ?_, ?_, ?_⟩
            · intro p hp e he
              have : p = [] := by simpa [initState] using hp
              rw [this] at he
              exact absurd he (List.not_mem_nil e)
            · intro n
              have : inContracts (initState tr).G n = [] := rfl
              rw [this]
              exact List.nodup_nil
            · intro n k hk
              have : inContracts (initState tr).G n = [] := rfl
              rw [this] at hk
              exact absurd hk (List.not_mem_nil k)
            · intro n hn
              refine Or.inr ⟨[], ?_, ?_⟩
              · simp [initState]
              · have : n = targetNode tr := by simpa [initState] using hn
                rw [this]
                rfl
          have hsp : st.splits = (initState tr).splits := by
            have : (initState tr).splits = 0 := rfl
            omega
          obtain ⟨⟨_, hnd, hbc, hc⟩, hqe⟩ :=
            runLoop_cinv tr A fuel (initState tr) st hrun' hsp hinv0
          intro n hn
          rw [hgeq] at hn
          have hnst : n ∈ st.G.nodes := List.mem_of_mem_filter hn
          have hie : (pruneG st.G (targetNode tr)).inEdges n = st.G.inEdges n :=
            pruneG_inEdges st.G (targetNode tr) hwf n hn
          have hicg : inContracts (pruneG st.G (targetNode tr)) n = inContracts st.G n := by
            unfold inContracts
            rw [hie]
          rw [hgeq, hicg]
          refine ⟨hnd n, ?_⟩
          intro c
          constructor
          · exact hbc n c
          · intro hcd
            rcases hc n hnst with hcov | ⟨p, hpm, _⟩
            · exact hcov c hcd
            · rw [hqe] at hpm
              exact absurd hpm (List.not_mem_nil p)
      · simp at h

/-- Witness for claim C2 at the single-chain registry: the target node's
single declared dependency contract is covered by exactly one in-edge. -/
theorem C2_witness :
    plannerPlan chainA (0, none) 10 = .ok (some (chainSt, chainG)) ∧
      chainSt.splits = 0 ∧ targetNode 0 ∈ chainG.nodes ∧
      ((inContracts chainG (targetNode 0)).Nodup ∧
        ∀ c, (c ∈ inContracts chainG (targetNode 0) ↔
          c ∈ depContracts chainA (targetNode 0))) := by
  have h1 : plannerPlan chainA (0, none) 10 = .ok (some (chainSt, chainG)) := by
    with_unfolding_all decide
  have h2 : chainSt.splits = 0 := by with_unfolding_all decide
  have h3 : targetNode 0 ∈ chainG.nodes := by with_unfolding_all decide
  exact ⟨h1, h2, h3, C2_coverage chainA (0, none) 10 chainSt chainG h1 h2 (targetNode 0) h3⟩

theorem Graph.addNode_of_mem (g : Graph) (n : GraphNode) (h : n ∈ g.nodes) :
    g.addNode n = g := by
  unfold Graph.addNode
  rw [if_pos h]

theorem Graph.addNode_nodes_of_not_mem (g : Graph) (n : GraphNode) (h : n ∉ g.nodes) :
    (g.addNode n).nodes = g.nodes ++ [n] := by
  unfold Graph.addNode
  rw [if_neg h]

theorem Graph.addEdge_nodes_id (g : Graph) (e : PEdge) (h1 : e.1 ∈ g.nodes)
    (h2 : e.2.1 ∈ g.nodes) : (g.addEdge e).nodes = g.nodes := by
  rw [Graph.addEdge_nodes, Graph.addNode_of_mem g e.1 h1, Graph.addNode_of_mem g e.2.1 h2]

theorem Graph.addEdge_nodes_snoc_left (g : Graph) (e : PEdge) (h1 : e.1 ∉ g.nodes)
    (h2 : e.2.1 ∈ g.nodes) : (g.addEdge e).nodes = g.nodes ++ [e.1] := by
  rw [Graph.addEdge_nodes,
    Graph.addNode_of_mem (g.addNode e.1) e.2.1
      (by rw [Graph.addNode_nodes_of_not_mem g e.1 h1]; exact List.mem_append_left _ h2),
    Graph.addNode_nodes_of_not_mem g e.1 h1]

theorem pick_existing_node_congr (tr : RecipeId) (A : AlgoCtx) (g g' : Graph)
    (picked : RecipePick) (path : List PEdge) (h : g.nodes = g'.nodes) :
    pick_existing_node tr A g picked path = pick_existing_node tr A g' picked path := by
  unfold pick_existing_node
  rw [h]

/-- A reused node's recorded fitness is its context's score on the path, at
least the picked recipe's fitness. -/
theorem pick_existing_node_spec (tr : RecipeId) (A : AlgoCtx) (g : Graph)
    (picked : RecipePick) (path : List PEdge) (ru : ExistingNodePick)
    (h : pick_existing_node tr A g picked path = some ru) :
    ru.node ∈ g.nodes ∧ ru.fitness = compute_fitness tr A ru.node.context path ∧
      picked.fitness ≤ ru.fitness := by
  unfold pick_existing_node at h
  suffices haux : ∀ (l : List GraphNode) (acc : Option ExistingNodePick),
      (∀ x ∈ l, x ∈ g.nodes) →
      (∀ r, acc = some r → r.node ∈ g.nodes ∧
        r.fitness = compute_fitness tr A r.node.context path ∧ picked.fitness ≤ r.fitness) →
      ∀ r, (l.foldl
        (fun acc node =>
          if node.recipe = picked.recipe then
            let f := compute_fitness tr A node.context path
            if decide (picked.fitness ≤ f) &&
                (match acc with
                 | none => true
                 | some p => decide (p.fitness < f)) then
              some ⟨node, f⟩
            else acc
          else acc)
        acc = some r) →
        r.node ∈ g.nodes ∧ r.fitness = compute_fitness tr A r.node.context path ∧
          picked.fitness ≤ r.fitness by
    exact haux g.nodes none (fun x hx => hx) (fun r hr => by cases hr) ru h
  intro l
  induction l with
  | nil =>
    intro acc _ hacc r hr
    exact hacc r hr
  | cons a l ih =>
    intro acc hl hacc r hr
    rw [List.foldl_cons] at hr
    refine ih _ (fun x hx => hl x (List.mem_cons_of_mem a hx)) ?_ r hr
    intro r' hr'
    by_cases h1 : a.recipe = picked.recipe
    · rw [if_pos h1] at hr'
      dsimp only at hr'
      split at hr'
      · next hcond =>
        cases hr'
        refine ⟨hl a (List.mem_cons_self a l), rfl, ?_⟩
        simp only [Bool.and_eq_true, decide_eq_true_eq] at hcond
        exact hcond.1
      · exact hacc r' hr'
    · rw [if_neg h1] at hr'
      exact hacc r' hr'

/-- The fitness recorded in `pick_recipe`'s result is the picked recipe's
context score on the path. -/
theorem pick_recipe_fitness (tr : RecipeId) (A : AlgoCtx) (c : Contract) (path : List PEdge)
    (picked : RecipePick) (hnd : (A.contract_to_recipes c).Nodup)
    (h : pick_recipe tr A c path = .ok (some picked)) :
    picked.fitness = compute_fitness tr A (A.recipe_to_context picked.recipe) path := by
  unfold pick_recipe at h
  dsimp only at h
  split at h
  · simp at h
  · split at h
    · simp at h
    next r tail heq =>
      simp only [Except.ok.injEq, Option.some.injEq] at h
      have hI := pickFold_inv (fun r => compute_fitness tr A (A.recipe_to_context r) path)
        (A.contract_to_recipes c) [] ⟨0, []⟩ (by simpa using hnd)
        (Or.inl ⟨rfl, rfl, by simp⟩)
      rw [List.nil_append] at hI
      rcases hI with ⟨_, hbest, _⟩ | ⟨_, hbest, _, _⟩
      · rw [hbest] at heq
        simp at heq
      · have h3 := hbest.symm.trans heq
        have hmf := (List.mem_filter.mp (h3.symm ▸ List.mem_cons_self r tail)).2
        have hfit := of_decide_eq_true hmf
        rw [← h]
        exact hfit.symm

/-- A successful `satisfy_dependency` call for a contract not yet provided
either reuses an existing best-fit node or allocates a fresh child, in both
cases adding exactly the one new in-edge and enqueueing its planning path. -/
theorem satisfy_dependency_fresh (tr : RecipeId) (A : AlgoCtx) (st : AlgoState)
    (parent : GraphNode) (c : Contract) (path : List PEdge) (st₁ : AlgoState)
    (hnc : c ∉ inContracts st.G parent)
    (h : satisfy_dependency tr A st parent c path = .ok st₁) :
    ∃ picked, pick_recipe tr A c path = .ok (some picked) ∧
      ((∃ ru, pick_existing_node tr A st.G picked path = some ru ∧
          st₁ = { st with G := st.G.addEdge (ru.node, parent, c),
                          queue := st.queue ++ [(ru.node, parent, c) :: path] }) ∨
       (pick_existing_node tr A st.G picked path = none ∧
          st₁ = { st with
            G := st.G.addEdge
              (⟨st.nextId, picked.recipe, A.recipe_to_context picked.recipe⟩, parent, c),
            queue := st.queue ++
              [(⟨st.nextId, picked.recipe, A.recipe_to_context picked.recipe⟩, parent, c) :: path],
            nextId := st.nextId + 1 })) := by
  have hfind : (st.G.inEdges parent).find? (fun e => e.2.2 = c) = none :=
    (currChild_none_iff st.G parent c).mpr hnc
  unfold satisfy_dependency at h
  split at h
  · simp at h
  · simp at h
  next picked hpick =>
    dsimp only at h
    rw [hfind] at h
    dsimp only [Option.map] at h
    refine ⟨picked, hpick, ?_⟩
    split at h
    next ru hru =>
      left
      obtain ⟨hsh, _⟩ := add_edge_ok_shape _ _ _ _ _ _ h
      exact ⟨ru, hru, hsh⟩
    next hru =>
      right
      obtain ⟨hsh, _⟩ := add_edge_ok_shape _ _ _ _ _ _ h
      exact ⟨hru, by rw [hsh]⟩

theorem find?_reverse_of_filter_singleton {α : Type} (p : α → Bool) :
    ∀ (l : List α) (x : α), l.filter p = [x] → l.reverse.find? p = some x := by
  intro l
  induction l with
  | nil => intro x hx; simp at hx
  | cons a l ih =>
    intro x hx
    rw [List.reverse_cons, List.find?_append]
    cases hp : p a with
    | true =>
      rw [List.filter_cons_of_pos hp] at hx
      injection hx with h1 h2
      have hnone : l.reverse.find? p = none := by
        rw [List.find?_eq_none]
        intro y hy
        have hy' : y ∈ l := List.mem_reverse.mp hy
        intro hpy
        have : y ∈ l.filter p := List.mem_filter.mpr ⟨hy', hpy⟩
        rw [h2] at this
        exact absurd this (List.not_mem_nil y)
      rw [hnone]
      subst h1
      simp [List.find?, hp]
    | false =>
      rw [List.filter_cons_of_neg (by simp [hp])] at hx
      rw [ih x hx]
      rfl

/-- With a single in-edge carrying the contract, the `input_assets` dict
lookup returns that edge's producer. -/
theorem dictGet_single (g : Graph) (node ch : GraphNode) (c : Contract)
    (hsingle : (g.inEdges node).filter (fun e => decide (e.2.2 = c)) = [(ch, node, c)]) :
    dictGet (input_assets g node) c = some ch := by
  unfold dictGet input_assets
  rw [← List.map_reverse, List.find?_map]
  have hfind : (g.inEdges node).reverse.find?
      ((fun x : Contract × GraphNode => decide (x.1 = c)) ∘ (fun e : PEdge => (e.2.2, e.1)))
      = some (ch, node, c) :=
    find?_reverse_of_filter_singleton _ (g.inEdges node) (ch, node, c) hsingle
  rw [hfind]
  rfl

/-- `recipe_kwargs` binds every dependency field whose contract has the
single in-edge to that edge's producer. -/
theorem recipe_kwargs_single (A : AlgoCtx) (g : Graph) (node ch : GraphNode) (c : Contract)
    (hsingle : (g.inEdges node).filter (fun e => decide (e.2.2 = c)) = [(ch, node, c)]) :
    ∀ d ∈ (A.rinfo node.recipe).deps, d.contract = c →
      (d.name, some ch) ∈ recipe_kwargs A g node := by
  intro d hd hdc
  unfold recipe_kwargs
  refine List.mem_map.mpr ⟨d, hd, ?_⟩
  rw [hdc, dictGet_single g node ch c hsingle]

/-- Extending the graph by one matching fresh node turns an empty reuse scan
into a pick of that node. -/
theorem pick_existing_node_append_one (tr : RecipeId) (A : AlgoCtx) (g g' : Graph)
    (picked : RecipePick) (path : List PEdge) (node : GraphNode)
    (hn : g'.nodes = g.nodes ++ [node])
    (hnone : pick_existing_node tr A g picked path = none)
    (hrec : node.recipe = picked.recipe)
    (hle : picked.fitness ≤ compute_fitness tr A node.context path) :
    pick_existing_node tr A g' picked path =
      some ⟨node, compute_fitness tr A node.context path⟩ := by
  unfold pick_existing_node at hnone ⊢
  rw [hn, List.foldl_append, hnone, List.foldl_cons, List.foldl_nil]
  dsimp only
  rw [if_pos hrec, Bool.and_true, if_pos (decide_eq_true hle)]

/-- Claim C10: whenever a dependency request for a contract not yet provided
succeeds (the first of two or more declared fields carrying that contract),
exactly one in-edge with that contract is added, and an immediate duplicate
request for the same contract on the same node provably succeeds — no
DoubleContract error — by keeping the existing producer: it changes neither
graph, nor ids, nor split count, only enqueueing the producer's planning path
again. During execution, every dependency field carrying the contract is
bound to the one producer, since `_build_node` looks inputs up by contract. -/
theorem C10_duplicate_contract_dependency (tr : RecipeId) (A : AlgoCtx) (st : AlgoState)
    (parent : GraphNode) (c : Contract) (path : List PEdge) (st₁ : AlgoState)
    (hnd : (A.contract_to_recipes c).Nodup)
    (hpar : parent ∈ st.G.nodes)
    (hfresh : ∀ n ∈ st.G.nodes, n.nodeId < st.nextId)
    (hpath : ∀ e ∈ path, e ∈ st.G.edges)
    (hnc : c ∉ inContracts st.G parent)
    (h1 : satisfy_dependency tr A st parent c path = .ok st₁) :
    ∃ ch, st₁.G.edges = st.G.edges ++ [(ch, parent, c)] ∧
      (st₁.G.inEdges parent).filter (fun e => decide (e.2.2 = c)) = [(ch, parent, c)] ∧
      satisfy_dependency tr A st₁ parent c path =
        .ok { st₁ with queue := st₁.queue ++ [(ch, parent, c) :: path] } ∧
      (∀ g node, (g.inEdges node).filter (fun e => decide (e.2.2 = c)) = [(ch, node, c)] →
        ∀ d ∈ (A.rinfo node.recipe).deps, d.contract = c →
          (d.name, some ch) ∈ recipe_kwargs A g node) := by
  obtain ⟨picked, hpick, hcase⟩ := satisfy_dependency_fresh tr A st parent c path st₁ hnc h1
  have hfilterold : (st.G.inEdges parent).filter (fun e => decide (e.2.2 = c)) = [] := by
    rw [List.filter_eq_nil_iff]
    intro e he hp
    simp only [decide_eq_true_eq] at hp
    exact hnc (hp ▸ List.mem_map.mpr ⟨e, he, rfl⟩)
  have hfindnone : (st.G.inEdges parent).find? (fun e => e.2.2 = c) = none :=
    (currChild_none_iff st.G parent c).mpr hnc
  rcases hcase with ⟨ru, hru, hsh⟩ | ⟨hru, hsh⟩
  · -- reuse of an existing node
    obtain ⟨hruN, hruF, hruLe⟩ := pick_existing_node_spec tr A st.G picked path ru hru
    have hnotedge : (ru.node, parent, c) ∉ st.G.edges := by
      intro hmem
      exact hnc (edge_mem_inContracts st.G _ hmem)
    have hedges : st₁.G.edges = st.G.edges ++ [(ru.node, parent, c)] := by
      rw [hsh]
      exact Graph.addEdge_new st.G _ hnotedge
    have hie : st₁.G.inEdges parent = st.G.inEdges parent ++ [(ru.node, parent, c)] := by
      rw [inEdges_of_edges_app st.G st₁.G _ hedges parent]
      simp
    have hsingle : (st₁.G.inEdges parent).filter (fun e => decide (e.2.2 = c))
        = [(ru.node, parent, c)] := by
      rw [hie, List.filter_append, hfilterold]
      simp
    have hfind₁ : (st₁.G.inEdges parent).find? (fun e => e.2.2 = c)
        = some (ru.node, parent, c) := by
      rw [hie, List.find?_append, hfindnone, List.find?_cons_of_pos _ (by simp)]
      rfl
    have hnodeseq : st₁.G.nodes = st.G.nodes := by
      rw [hsh]
      exact Graph.addEdge_nodes_id st.G _ hruN hpar
    have hru2 : pick_existing_node tr A st₁.G picked path = some ru := by
      rw [pick_existing_node_congr tr A st₁.G st.G picked path hnodeseq]
      exact hru
    have hnotpath : (ru.node, parent, c) ∉ path := fun hm => hnotedge (hpath _ hm)
    refine ⟨ru.node, hedges, hsingle, ?_, fun g node hs => recipe_kwargs_single A g node ru.node c hs⟩
    unfold satisfy_dependency
    rw [hpick]
    dsimp only
    rw [hfind₁]
    dsimp only [Option.map]
    rw [hru2]
    dsimp only
    rw [if_neg (by rw [hruF]; exact lt_irrefl _),
      if_neg (not_lt.mpr (by rw [← hruF]; exact hruLe))]
    unfold use_edge
    rw [if_neg hnotpath]
  · -- fresh child for the picked recipe
    have hpfit := pick_recipe_fitness tr A c path picked hnd hpick
    have hchnot : (⟨st.nextId, picked.recipe, A.recipe_to_context picked.recipe⟩ : GraphNode)
        ∉ st.G.nodes := by
      intro hmem
      exact absurd (hfresh _ hmem) (lt_irrefl st.nextId)
    have hnotedge : ((⟨st.nextId, picked.recipe, A.recipe_to_context picked.recipe⟩ : GraphNode),
        parent, c) ∉ st.G.edges := by
      intro hmem
      exact hnc (edge_mem_inContracts st.G _ hmem)
    have hedges : st₁.G.edges = st.G.edges ++
        [((⟨st.nextId, picked.recipe, A.recipe_to_context picked.recipe⟩ : GraphNode),
          parent, c)] := by
      rw [hsh]
      exact Graph.addEdge_new st.G _ hnotedge
    have hie : st₁.G.inEdges parent = st.G.inEdges parent ++
        [((⟨st.nextId, picked.recipe, A.recipe_to_context picked.recipe⟩ : GraphNode),
          parent, c)] := by
      rw [inEdges_of_edges_app st.G st₁.G _ hedges parent]
      simp
    have hsingle : (st₁.G.inEdges parent).filter (fun e => decide (e.2.2 = c))
        = [((⟨st.nextId, picked.recipe, A.recipe_to_context picked.recipe⟩ : GraphNode),
            parent, c)] := by
      rw [hie, List.filter_append, hfilterold]
      simp
    have hfind₁ : (st₁.G.inEdges parent).find? (fun e => e.2.2 = c)
        = some ((⟨st.nextId, picked.recipe, A.recipe_to_context picked.recipe⟩ : GraphNode),
            parent, c) := by
      rw [hie, List.find?_append, hfindnone, List.find?_cons_of_pos _ (by simp)]
      rfl
    have hnodes : st₁.G.nodes = st.G.nodes ++
        [(⟨st.nextId, picked.recipe, A.recipe_to_context picked.recipe⟩ : GraphNode)] := by
      rw [hsh]
      exact Graph.addEdge_nodes_snoc_left st.G _ hchnot hpar
    have hru2 := pick_existing_node_append_one tr A st.G st₁.G picked path
      ⟨st.nextId, picked.recipe, A.recipe_to_context picked.recipe⟩ hnodes hru rfl
      (le_of_eq hpfit)
    have hnotpath : ((⟨st.nextId, picked.recipe, A.recipe_to_context picked.recipe⟩ : GraphNode),
        parent, c) ∉ path := fun hm => hnotedge (hpath _ hm)
    refine ⟨_, hedges, hsingle, ?_, fun g node hs => recipe_kwargs_single A g node _ c hs⟩
    unfold satisfy_dependency
    rw [hpick]
    dsimp only
    rw [hfind₁]
    dsimp only [Option.map]
    rw [hru2]
    dsimp only
    rw [if_neg (lt_irrefl _), if_neg (not_lt.mpr (le_of_eq hpfit))]
    unfold use_edge
    rw [if_neg hnotpath]

/-- The state of the duplicate-contract run (`dupA`) at the target's first
`(1, none)` dependency request. -/
def c10St₀ : AlgoState := ⟨⟨[dupTarget], []⟩, [], 1, 0⟩

/-- The state after that first request: producer allocated, one in-edge. -/
def c10St₁ : AlgoState :=
  ⟨⟨[dupTarget, dupProducer], [(dupProducer, dupTarget, (1, none))]⟩,
   [[(dupProducer, dupTarget, (1, none))]], 2, 0⟩

/-- Witness for claim C10 at the duplicate-contract registry: the target
declares fields `a` and `b` both of contract `(1, none)`; the first request
adds the single producer edge and the duplicate request keeps it. -/
theorem C10_witness :
    (dupA.rinfo 0).deps.map (fun d => d.contract) = [(1, none), (1, none)] ∧
    satisfy_dependency 0 dupA c10St₀ dupTarget (1, none) [] = .ok c10St₁ ∧
    ∃ ch, c10St₁.G.edges = c10St₀.G.edges ++ [(ch, dupTarget, (1, none))] ∧
      (c10St₁.G.inEdges dupTarget).filter (fun e => decide (e.2.2 = (1, none)))
        = [(ch, dupTarget, (1, none))] ∧
      satisfy_dependency 0 dupA c10St₁ dupTarget (1, none) [] =
        .ok { c10St₁ with queue := c10St₁.queue ++ [(ch, dupTarget, (1, none)) :: []] } ∧
      (∀ g node, (g.inEdges node).filter (fun e => decide (e.2.2 = (1, none)))
          = [(ch, node, (1, none))] →
        ∀ d ∈ (dupA.rinfo node.recipe).deps, d.contract = (1, none) →
          (d.name, some ch) ∈ recipe_kwargs dupA g node) := by
  have h1 : satisfy_dependency 0 dupA c10St₀ dupTarget (1, none) [] = .ok c10St₁ := by
    with_unfolding_all decide
  refine ⟨by with_unfolding_all decide, h1, ?_⟩
  exact C10_duplicate_contract_dependency 0 dupA c10St₀ dupTarget (1, none) [] c10St₁
    (by with_unfolding_all decide)
    (by with_unfolding_all decide)
    (by with_unfolding_all decide)
    (by with_unfolding_all decide)
    (by with_unfolding_all decide)
    h1
